import Mathlib

/-!
# CLSDBC: Locally Scaled Density Based Clustering (`clsdbc.c`)

A shallow embedding of the clustering kernel of `clsdbc.c` and a verification of
its specification.

Modelling conventions.

* `double` values are elements of a type `α` carrying a linear order (the order of
  NaN-free doubles), a zero (the contents of `calloc`-ed memory) and a binary
  multiplication (used once, for `powerValue * Points[p].Eps`); nothing else is
  assumed about them.  `DBL_MAX` is a parameter of that type.
* `unsigned` indices are natural numbers, `int` labels and counters are integers.
* C arrays are lists.  A read `a[i]` is `a.getD i z` where `z` is the zero of the
  element type, a write `a[i] = x` is `a.set i x`.
* `for (i = 0; i < n; i++)` loops are `forRange`, the `while` loop of
  `ExpandCluster` carries an explicit iteration budget and returns `none` if the
  budget is exhausted; `ExpandCluster_frame` shows that it is never exhausted on a
  memory-safe point table.
* The library calls are parameters: `qsort` stands for
  `qsort(·, size, sizeof(Node), compare)` and `powerValue` for
  `pow(2, alpha/numDimension)`.
* The comparator `compare` alone computes with its values; there the doubles are
  rationals, the product is exact and the conversion to `int` truncates.
-/

set_option linter.unusedSectionVars false

namespace Clsdbc

/-! ## Data model -/

/-- The C struct `Node`: a value paired with a point index. -/
structure Node (α : Type) where
  val : α
  pointNum : Nat
deriving Repr, DecidableEq

/-- The C struct `Point`.  The field `class` of the source is called `class_`. -/
structure Point (α : Type) where
  Eps : α
  pointNum : Nat
  class_ : Int
  neighbors : List Nat
deriving Repr, DecidableEq

/-- The C struct `dmat`: dense row-major matrix, `value[row][col]`. -/
structure DMat (α : Type) where
  numPoints : Nat
  value : List (List α)
deriving Repr

/-- The loop `for (i = 0; i < n; i++) s = body i s`. -/
def forRange {σ : Type} (body : Nat → σ → σ) : Nat → σ → σ
  | 0, s => s
  | n + 1, s => body n (forRange body n s)

/-- The loop `for (i = 0; i < n; i++) s = body i s` for a body that may fail. -/
def forRangeM {σ : Type} (body : Nat → σ → Option σ) : Nat → σ → Option σ
  | 0, s => some s
  | n + 1, s => (forRangeM body n s).bind (body n)

section Kernel

variable {α : Type} [LinearOrder α] [Zero α]

/-- Zero-initialised `Node`, as produced by `calloc`. -/
def Node.zero : Node α := ⟨0, 0⟩

/-- Zero-initialised `Point`, as produced by `calloc`. -/
def Point.zero : Point α := ⟨0, 0, 0, []⟩

/-- Read `m[i]` in an array of nodes. -/
def nodeAt (m : List (Node α)) (i : Nat) : Node α := m.getD i Node.zero

/-- The assignment `m[i].val = x`. -/
def setVal (m : List (Node α)) (i : Nat) (x : α) : List (Node α) :=
  m.set i { nodeAt m i with val := x }

/-- The assignment `m[i].pointNum = q`. -/
def setPointNum (m : List (Node α)) (i : Nat) (q : Nat) : List (Node α) :=
  m.set i { nodeAt m i with pointNum := q }

/-- Read `Points[i]`. -/
def ptAt (Points : List (Point α)) (i : Nat) : Point α := Points.getD i Point.zero

/-- Read `Points[j].neighbors[i]`. -/
def nbrAt (Points : List (Point α)) (j i : Nat) : Nat := (ptAt Points j).neighbors.getD i 0

/-- The assignment `Points[i].class = c`. -/
def setClass (Points : List (Point α)) (i : Nat) (c : Int) : List (Point α) :=
  Points.set i { ptAt Points i with class_ := c }

/-! ## `kNNDistVal` (lines 337-402) -/

/-- Working state of the selection loops of `kNNDistVal`. -/
structure KnnState (α : Type) where
  minKMatrix : List (Node α)
  maxDist : α
  maxInd : Nat

/-- Body of the two maximum scans (lines 376-379 and 389-392):
`if (minKMatrix[i].val > maxDist) { maxDist = minKMatrix[i].val; maxInd = i; }`. -/
def maxScanBody (i : Nat) (s : KnnState α) : KnnState α :=
  if (nodeAt s.minKMatrix i).val > s.maxDist then
    { s with maxDist := (nodeAt s.minKMatrix i).val, maxInd := i }
  else s

/-- Body of the loop over `restMatrix` (lines 384-394). -/
def restBody (restMatrix : List (Node α)) (k : Nat) (j : Nat) (s : KnnState α) : KnnState α :=
  if (nodeAt restMatrix j).val < s.maxDist then
    let m1 := setVal s.minKMatrix s.maxInd (nodeAt restMatrix j).val
    let m2 := setPointNum m1 s.maxInd (nodeAt restMatrix j).pointNum
    forRange maxScanBody k ⟨m2, (nodeAt restMatrix j).val, s.maxInd⟩
  else s

/-- Lines 356-359: `minKMatrix[i] = (v[i], i)` for `i < k`. -/
def initMinK (v : List α) (k : Nat) : List (Node α) :=
  (List.range k).map fun i => ⟨v.getD i 0, i⟩

/-- Lines 361-364: `restMatrix[i-k] = (v[i], i)` for `k ≤ i < size`. -/
def initRest (v : List α) (size k : Nat) : List (Node α) :=
  (List.range (size - k)).map fun j => ⟨v.getD (j + k) 0, j + k⟩

/-- State of `kNNDistVal` after all loops (line 395).  The unsigned differences
`size - k` and `p - k` do not wrap: `main` lets only `k ≤ size` through, and `p - k`
is computed for `k ≤ p` only. -/
def kNNFinal (DBL_MAX : α) (v : List α) (size p k : Nat) : KnnState α :=
  let minKMatrix := if p < k then setVal (initMinK v k) p DBL_MAX else initMinK v k
  let restMatrix :=
    if p < k then initRest v size k else setVal (initRest v size k) (p - k) DBL_MAX
  let s0 : KnnState α := ⟨minKMatrix, (nodeAt minKMatrix 0).val, 0⟩
  let s1 := forRange (fun i => maxScanBody (i + 1)) (k - 1) s0
  forRange (restBody restMatrix k) (size - k) s1

/-- The function `kNNDistVal`: returns the value written to `*Eps` and the
contents written to `neighbors[0..k)`. -/
def kNNDistVal (DBL_MAX : α) (v : List α) (size p k : Nat) : α × List Nat :=
  let s := kNNFinal DBL_MAX v size p k
  (s.maxDist, (List.range k).map fun i => (nodeAt s.minKMatrix i).pointNum)

/-! ## `localMax` (lines 322-333) -/

/-- The loop of `localMax` over the remaining indices `is`, with its early `return 0`. -/
def localMaxLoop (Points : List (Point α)) (pointNum : Nat) : List Nat → Int
  | [] => 1
  | i :: is =>
    if (ptAt Points (nbrAt Points pointNum i)).Eps < (ptAt Points pointNum).Eps
    then 0
    else localMaxLoop Points pointNum is

/-- The function `localMax`: it reads the point table and returns `0` or `1`. -/
def localMax (Points : List (Point α)) (pointNum k : Nat) : Int :=
  localMaxLoop Points pointNum (List.range k)

/-! ## `ExpandCluster` (lines 405-447) -/

variable [Mul α]

/-- Variables of `ExpandCluster`.  `seeds` holds the written part
`seeds[0 .. expansionIndex)` of the worklist array, so `expansionIndex` is
`seeds.length` and `seeds[expansionIndex++] = q` appends `q`. -/
structure ExpandState (α : Type) where
  Points : List (Point α)
  seeds : List Nat
  numofElements : Nat
  pointIndex : Nat

/-- Body of the first loop (lines 424-427). -/
def seedBody (p : Nat) (ClusterID : Int) (i : Nat) (s : List (Point α) × List Nat) :
    List (Point α) × List Nat :=
  if (ptAt s.1 (nbrAt s.1 p i)).class_ ≤ 0 then
    (setClass s.1 (nbrAt s.1 p i) ClusterID,
      s.2 ++ [nbrAt s.1 p i])
  else s

/-- Body of the inner loop of the worklist loop (lines 436-440). -/
def expandBody (currentP : Nat) (ClusterID : Int) (i : Nat) (s : ExpandState α) :
    ExpandState α :=
  if (ClusterID > 0 ∧ (ptAt s.Points (nbrAt s.Points currentP i)).class_ ≤ 0)
      ∨ (ClusterID < 0 ∧ (ptAt s.Points (nbrAt s.Points currentP i)).class_ = 0)
  then
    { s with
      Points := setClass s.Points (nbrAt s.Points currentP i) ClusterID,
      seeds := s.seeds ++ [nbrAt s.Points currentP i],
      numofElements := s.numofElements + 1 }
  else s

/-- One iteration of the worklist loop (lines 433-444). -/
def whileBody (p : Nat) (ClusterID : Int) (k : Nat) (powerValue : α) (s : ExpandState α) :
    ExpandState α :=
  let currentP := s.seeds.getD s.pointIndex 0
  let s1 :=
    if (ptAt s.Points currentP).Eps ≤ powerValue * (ptAt s.Points p).Eps then
      forRange (expandBody currentP ClusterID) k s
    else s
  { s1 with pointIndex := s1.pointIndex + 1, numofElements := s1.numofElements - 1 }

/-- The loop `while (numofElements > 0)` with an iteration budget; `none` when the
budget runs out before the loop condition fails. -/
def expandWhile (p : Nat) (ClusterID : Int) (k : Nat) (powerValue : α) :
    Nat → ExpandState α → Option (ExpandState α)
  | 0, _ => none
  | fuel + 1, s =>
    if s.numofElements > 0 then expandWhile p ClusterID k powerValue fuel
      (whileBody p ClusterID k powerValue s)
    else some s

/-- State at line 431, before the worklist loop. -/
def expandInit (p : Nat) (ClusterID : Int) (k : Nat) (Points : List (Point α)) :
    ExpandState α :=
  let r := forRange (seedBody p ClusterID) k (setClass Points p ClusterID, [])
  ⟨r.1, r.2, r.2.length, 0⟩

/-- The function `ExpandCluster`, returning the point table it leaves behind.  The
worklist loop is given the budget `size + k + 1`: every iteration consumes one
worklist entry, and at most `k + size` entries are ever written. -/
def ExpandCluster (size p : Nat) (ClusterID : Int) (k : Nat) (powerValue : α)
    (Points : List (Point α)) : Option (List (Point α)) :=
  (expandWhile p ClusterID k powerValue (size + k + 1) (expandInit p ClusterID k Points)).map
    fun s => s.Points

/-! ## `LSDBC` (lines 232-319) -/

/-- The initialisation loop (lines 254-271): the point table. -/
def initPoints (DBL_MAX : α) (DistMatrix : DMat α) (k : Nat) : List (Point α) :=
  (List.range DistMatrix.numPoints).map fun i =>
    ⟨(kNNDistVal DBL_MAX (DistMatrix.value.getD i []) DistMatrix.numPoints i k).1, i, 0,
      (kNNDistVal DBL_MAX (DistMatrix.value.getD i []) DistMatrix.numPoints i k).2⟩

/-- The initialisation loop (lines 269-270): the array `EpsMatrix` before sorting. -/
def initEpsMatrix (Points : List (Point α)) (size : Nat) : List (Node α) :=
  (List.range size).map fun i => ⟨(ptAt Points i).Eps, i⟩

/-- Variables of the two sweeps: the point table and the running cluster id
(`ClusterID` in the main loop, `NoiseClusterID` in the noise loop). -/
structure SweepState (α : Type) where
  Points : List (Point α)
  id : Int
deriving Repr, DecidableEq

/-- Body of the main loop (lines 282-286). -/
def mainBody (EpsMatrix : List (Node α)) (size k : Nat) (powerValue : α) (i : Nat)
    (s : SweepState α) : Option (SweepState α) :=
  if (ptAt s.Points (nodeAt EpsMatrix i).pointNum).class_ = 0
      ∧ localMax s.Points (nodeAt EpsMatrix i).pointNum k ≠ 0 then
    (ExpandCluster size (nodeAt EpsMatrix i).pointNum s.id k powerValue s.Points).map
      fun P => ⟨P, s.id + 1⟩
  else some s

/-- Body of the noise loop (lines 292-296). -/
def noiseBody (EpsMatrix : List (Node α)) (size k : Nat) (powerValue : α) (i : Nat)
    (s : SweepState α) : Option (SweepState α) :=
  if (ptAt s.Points (nodeAt EpsMatrix i).pointNum).class_ = 0 then
    (ExpandCluster size (nodeAt EpsMatrix i).pointNum s.id k powerValue s.Points).map
      fun P => ⟨P, s.id - 1⟩
  else some s

/-- Variables of the final loop: point table, `numofNoise`, labels printed so far. -/
structure FinalState (α : Type) where
  Points : List (Point α)
  numofNoise : Int
  printed : List Int

/-- Body of the final loop (lines 307-313). -/
def finalBody (NoiseClusterID : Int) (i : Nat) (s : FinalState α) : FinalState α :=
  let s1 : FinalState α :=
    if (ptAt s.Points i).class_ ≤ 0 then
      { s with
        Points :=
          if (ptAt s.Points i).class_ = 0 then setClass s.Points i NoiseClusterID
          else s.Points,
        numofNoise := s.numofNoise + 1 }
    else s
  { s1 with printed := s1.printed ++ [(ptAt s1.Points i).class_] }

/-- What one run of `LSDBC` writes to the output file, and the point table at the end. -/
structure Report (α : Type) where
  /-- The number printed before `clusters`. -/
  clusters : Int
  /-- The number printed before `noise clusters`, when `clusterNoise` is set. -/
  noiseClusters : Option Int
  /-- The label line. -/
  labels : List Int
  /-- The number printed before `points are classified as noise`. -/
  numofNoise : Int
  /-- The global `Points` on return. -/
  Points : List (Point α)
deriving Repr, DecidableEq

/-- State after the main loop (line 288), run for the first `m` ranks only. -/
def primarySweep (EpsMatrix : List (Node α)) (size k : Nat) (powerValue : α) (m : Nat)
    (Points : List (Point α)) : Option (SweepState α) :=
  forRangeM (mainBody EpsMatrix size k powerValue) m ⟨Points, 1⟩

/-- State after the noise loop (line 297), run for the first `m` ranks only. -/
def noiseSweep (EpsMatrix : List (Node α)) (size k : Nat) (powerValue : α) (m : Nat)
    (Points : List (Point α)) : Option (SweepState α) :=
  forRangeM (noiseBody EpsMatrix size k powerValue) m ⟨Points, -1⟩

/-- The function `LSDBC`.  The library routine `qsort(·, size, sizeof(Node), compare)`
is the parameter `qsort`, the value `pow(2, alpha/numDimension)` is the parameter
`powerValue`, and the global `clusterNoise` is a parameter. -/
def LSDBC (qsort : List (Node α) → List (Node α)) (DBL_MAX : α) (clusterNoise : Int)
    (DistMatrix : DMat α) (k : Nat) (powerValue : α) : Option (Report α) :=
  let size := DistMatrix.numPoints
  let Points0 := initPoints DBL_MAX DistMatrix k
  let EpsMatrix := qsort (initEpsMatrix Points0 size)
  (primarySweep EpsMatrix size k powerValue size Points0).bind fun s1 =>
    let ClusterID := s1.id - 1
    if clusterNoise ≠ 0 then
      (noiseSweep EpsMatrix size k powerValue size s1.Points).map fun s2 =>
        let NoiseClusterID := s2.id + 1
        let f := forRange (finalBody NoiseClusterID) size ⟨s2.Points, 0, []⟩
        ⟨ClusterID, some (-NoiseClusterID), f.printed, f.numofNoise, f.Points⟩
    else
      let f := forRange (finalBody (-1)) size ⟨s1.Points, 0, []⟩
      some ⟨ClusterID, none, f.printed, f.numofNoise, f.Points⟩

/-! ## `main` (lines 136-151) -/

/-- The part of `main` after the matrix is loaded: the guard on `k` (`exit(1)` is
`Except.error 1`), then the call of `LSDBC` and `return 0`. -/
def main (qsort : List (Node α) → List (Node α)) (DBL_MAX : α) (clusterNoise : Int)
    (DistMatrix : DMat α) (k : Nat) (powerValue : α) : Except Nat (Option (Report α)) :=
  if k > DistMatrix.numPoints then Except.error 1
  else Except.ok (LSDBC qsort DBL_MAX clusterNoise DistMatrix k powerValue)

end Kernel

/-! ## `compare` (lines 219-222) -/

/-- Conversion of a `double` to `int`: the value is truncated toward zero. -/
def truncate (q : ℚ) : Int := if 0 ≤ q then ⌊q⌋ else ⌈q⌉

/-- The function `compare` on two `Node`s, with the `double` arithmetic of
`INT_MAX * (a->val - b->val)` carried out exactly on rationals and the conversion
of the product to the `int` return value by truncation; the conversion of a value
outside the range of `int` has no defined result (`none`).  The cast `(int)` of the
source applies to `INT_MAX` alone.  The constant `INT_MAX` of `<limits.h>` is a
parameter. -/
def compare (INT_MAX : Int) (a b : Node ℚ) : Option Int :=
  if -INT_MAX - 1 ≤ truncate ((INT_MAX : ℚ) * (a.val - b.val))
      ∧ truncate ((INT_MAX : ℚ) * (a.val - b.val)) ≤ INT_MAX then
    some (truncate ((INT_MAX : ℚ) * (a.val - b.val)))
  else none

/-! ## Specification vocabulary -/

section SpecDefs

variable {α : Type} [LinearOrder α] [Zero α] [Mul α]

/-- The row as `kNNDistVal` sees it: `v[q]`, with `DBL_MAX` in place of `v[p]`. -/
def rowVal (DBL_MAX : α) (v : List α) (p q : Nat) : α :=
  if q = p then DBL_MAX else v.getD q 0

/-- The multiset `{v[q] : q < n, q ≠ p}` as a list, in index order. -/
def otherDists (v : List α) (n p : Nat) : List α :=
  ((List.range n).filter fun q => q ≠ p).map fun q => v.getD q 0

/-- Loop invariant of `kNNDistVal` once the indices below `b` have been scanned:
the window holds `k` distinct indices below `b` with their values, `maxDist` is
the largest value of the window and sits at `maxInd`, and every scanned index
outside the window has a value of at least `maxDist`. -/
structure KnnInv (val : Nat → α) (k b : Nat) (s : KnnState α) : Prop where
  len : s.minKMatrix.length = k
  vals : ∀ i, i < k → (nodeAt s.minKMatrix i).val = val (nodeAt s.minKMatrix i).pointNum
  bound : ∀ i, i < k → (nodeAt s.minKMatrix i).pointNum < b
  inj : ∀ i i', i < k → i' < k →
    (nodeAt s.minKMatrix i).pointNum = (nodeAt s.minKMatrix i').pointNum → i = i'
  maxInd_lt : s.maxInd < k
  max_eq : (nodeAt s.minKMatrix s.maxInd).val = s.maxDist
  max_ge : ∀ i, i < k → (nodeAt s.minKMatrix i).val ≤ s.maxDist
  out : ∀ q, q < b → (∀ i, i < k → (nodeAt s.minKMatrix i).pointNum ≠ q) → s.maxDist ≤ val q

/-- The point table `P` differs from `P0` in class labels only. -/
structure SameGeom (P0 P : List (Point α)) : Prop where
  len : P.length = P0.length
  eps : ∀ j, (ptAt P j).Eps = (ptAt P0 j).Eps
  nbs : ∀ j, (ptAt P j).neighbors = (ptAt P0 j).neighbors
  num : ∀ j, (ptAt P j).pointNum = (ptAt P0 j).pointNum

/-- Memory safety of a point table for `size` points and `k` neighbours: the table
has `size` records and the first `k` entries of every neighbour array are indices
below `size`. -/
structure TableOK (size k : Nat) (P : List (Point α)) : Prop where
  len : P.length = size
  nb_lt : ∀ j, j < size → ∀ i, i < k → nbrAt P j i < size

/-- The test of line 436 on a label `c`, for the cluster id `C`. -/
def eligible (C c : Int) : Bool := decide ((C > 0 ∧ c ≤ 0) ∨ (C < 0 ∧ c = 0))

/-- Number of records that the worklist loop of `ExpandCluster` may still absorb. -/
def eligCount (C : Int) (P : List (Point α)) : Nat :=
  P.countP fun pt => eligible C pt.class_

/-- Frame invariant of `ExpandCluster(p, C, ...)` started on the table `P0`, for the
current table `P` and the worklist `seeds` written so far. -/
structure AbsInv (size p : Nat) (C : Int) (P0 P : List (Point α)) (seeds : List Nat) :
    Prop where
  geom : SameGeom P0 P
  cls : ∀ j, (ptAt P j).class_ = (ptAt P0 j).class_ ∨ (ptAt P j).class_ = C
  pos : ∀ j, j ≠ p → 0 < (ptAt P0 j).class_ → (ptAt P j).class_ = (ptAt P0 j).class_
  seedC : (ptAt P p).class_ = C
  bnd : ∀ x, x ∈ seeds → x < size

/-- Invariant of the worklist loop: the frame invariant and the relation between
the counters (`expansionIndex = pointIndex + numofElements`). -/
structure ExpInv (size p : Nat) (C : Int) (P0 : List (Point α)) (s : ExpandState α) :
    Prop where
  abs : AbsInv size p C P0 s.Points s.seeds
  count : s.numofElements + s.pointIndex = s.seeds.length

/-- The point `y` is one of the `k` neighbours of `x` in the table `P`. -/
def IsNbr (P : List (Point α)) (k x y : Nat) : Prop := ∃ i, i < k ∧ nbrAt P x i = y

/-- The list `xs = [x1, ..., xm]` is a density path from the seed `p = x0` to `q = xm` in the
table `P0` as it is before the call: each `x(i+1)` is a neighbour of `x(i)`, every
`x(i)` with `i ≥ 1` has a label `≤ 0`, and every intermediate `x(i)`, `1 ≤ i < m`,
has `Eps(x(i)) ≤ powerValue * Eps(p)`. -/
def DensityPath (P0 : List (Point α)) (p k : Nat) (powerValue : α) (xs : List Nat)
    (q : Nat) : Prop :=
  List.Chain (IsNbr P0 k) p xs
  ∧ (∀ x, x ∈ xs → (ptAt P0 x).class_ ≤ 0)
  ∧ (∀ x, x ∈ xs.dropLast → (ptAt P0 x).Eps ≤ powerValue * (ptAt P0 p).Eps)
  ∧ xs.getLast? = some q

/-- Invariant of `ExpandCluster(p, C, ...)` for a positive fresh id `C`: the points
labelled `C` are the seed and the worklist entries, every worklist entry is the
end of a density path, and every examined edge `(x, i)` (the set `E`) leads to the
seed or to a worklist entry whenever its target was absorbable. -/
structure PathInv (P0 : List (Point α)) (p k : Nat) (powerValue : α) (C : Int)
    (E : Nat → Nat → Prop) (P : List (Point α)) (seeds : List Nat) : Prop where
  lab : ∀ j, (ptAt P j).class_ = if j = p ∨ j ∈ seeds then C else (ptAt P0 j).class_
  path : ∀ x, x ∈ seeds → ∃ xs, DensityPath P0 p k powerValue xs x
  closed : ∀ x i, E x i → (ptAt P0 (nbrAt P0 x i)).class_ ≤ 0 →
    nbrAt P0 x i = p ∨ nbrAt P0 x i ∈ seeds

/-- The distance matrix `|pos i - pos j|` of points on a line. -/
def lineMatrix (pos : List Int) : DMat Nat :=
  ⟨pos.length, pos.map fun a => pos.map fun b => Int.natAbs (a - b)⟩

/-- The ids passed to `ExpandCluster` by the first `m` iterations of the main loop,
in call order. -/
def primaryCallIds (EpsMatrix : List (Node α)) (size k : Nat) (powerValue : α)
    (Points : List (Point α)) : Nat → List Int
  | 0 => []
  | m + 1 =>
    match primarySweep EpsMatrix size k powerValue m Points with
    | some s =>
      if (ptAt s.Points (nodeAt EpsMatrix m).pointNum).class_ = 0
          ∧ localMax s.Points (nodeAt EpsMatrix m).pointNum k ≠ 0 then
        primaryCallIds EpsMatrix size k powerValue Points m ++ [s.id]
      else primaryCallIds EpsMatrix size k powerValue Points m
    | none => primaryCallIds EpsMatrix size k powerValue Points m

/-- The ids `1, 2, ..., c` in increasing order. -/
def idsUpTo (c : Int) : List Int := (List.range c.toNat).map fun i => Int.ofNat i + 1

/-- The class labels of the first `size` records of a point table. -/
def classes (Points : List (Point α)) (size : Nat) : List Int :=
  (List.range size).map fun j => (ptAt Points j).class_

/-- Four points on a line at the positions 0, 1, 3, 6, used with `k = 1`: their
k-distances are 1, 1, 2, 3 and their nearest neighbours are 1, 0, 1, 2. -/
def noiseMatrix : DMat Nat := lineMatrix [0, 1, 3, 6]

/-- The point table of `noiseMatrix` in the noise loop of `LSDBC` (`k = 1`,
`clusterNoise = 1`) when rank 3 is reached: points 0 and 1 form cluster 1, point 2
is the noise cluster -1, point 3 is unclassified. -/
def noiseTable : List (Point Nat) :=
  [⟨1, 0, 1, [1]⟩, ⟨1, 1, 1, [0]⟩, ⟨2, 2, -1, [1]⟩, ⟨3, 3, 0, [2]⟩]

/-- Three points on a line at the positions 0, 1 + 2^-32, 2 + 2^-32 (all exact
doubles), used with `k = 1`: their k-distances are 1 + 2^-32, 1, 1. -/
def closeMatrix : DMat ℚ :=
  ⟨3, [[0, 1 + 1 / 2 ^ 32, 2 + 1 / 2 ^ 32], [1 + 1 / 2 ^ 32, 0, 1], [2 + 1 / 2 ^ 32, 1, 0]]⟩

/-- The point table of `LSDBC` when finalisation begins (line 304). -/
def finalInput (qsort : List (Node α) → List (Node α)) (DBL_MAX : α) (clusterNoise : Int)
    (DistMatrix : DMat α) (k : Nat) (powerValue : α) : Option (List (Point α)) :=
  (primarySweep (qsort (initEpsMatrix (initPoints DBL_MAX DistMatrix k) DistMatrix.numPoints))
      DistMatrix.numPoints k powerValue DistMatrix.numPoints
      (initPoints DBL_MAX DistMatrix k)).bind fun s1 =>
    if clusterNoise ≠ 0 then
      (noiseSweep (qsort (initEpsMatrix (initPoints DBL_MAX DistMatrix k) DistMatrix.numPoints))
        DistMatrix.numPoints k powerValue DistMatrix.numPoints s1.Points).map fun s2 =>
        s2.Points
    else some s1.Points

/-- Number of the first `size` records of a table whose label satisfies `f`. -/
def countClass (f : Int → Bool) (Points : List (Point α)) (size : Nat) : Nat :=
  ((classes Points size).filter f).length

/-- The state of the worklist loop of `ExpandCluster` after at most `m` iterations:
the loop body is applied while `numofElements > 0`. -/
def expandSteps (p : Nat) (ClusterID : Int) (k : Nat) (powerValue : α) :
    Nat → ExpandState α → ExpandState α
  | 0, s => s
  | m + 1, s =>
    if s.numofElements > 0 then
      expandSteps p ClusterID k powerValue m (whileBody p ClusterID k powerValue s)
    else s

/-- Invariant of the worklist of `ExpandCluster`: no point is entered twice, and
every entry is labelled with the cluster id. -/
structure SeedsInv (C : Int) (P : List (Point α)) (seeds : List Nat) : Prop where
  nodup : seeds.Nodup
  lab : ∀ x, x ∈ seeds → (ptAt P x).class_ = C

/-- The state of `kNNDistVal` after `j` iterations of the loop over `restMatrix`
(`kNNFinal` is the stage `size - k`). -/
def kNNStage (DBL_MAX : α) (v : List α) (size p k j : Nat) : KnnState α :=
  forRange
    (restBody (if p < k then initRest v size k
      else setVal (initRest v size k) (p - k) DBL_MAX) k) j
    (forRange (fun i => maxScanBody (i + 1)) (k - 1)
      ⟨if p < k then setVal (initMinK v k) p DBL_MAX else initMinK v k,
        (nodeAt (if p < k then setVal (initMinK v k) p DBL_MAX else initMinK v k) 0).val, 0⟩)

/-- The point indices held by the window `minKMatrix[0..k)` of a state. -/
def windowIdx (s : KnnState α) (k : Nat) : List Nat :=
  (List.range k).map fun i => (nodeAt s.minKMatrix i).pointNum

/-- The point table of the scenario of the specification: five points at the
positions 0, 1, 2, 3, 100 with `k = 2`, as `LSDBC` initialises it. -/
def scenarioPoints : List (Point Nat) :=
  [⟨2, 0, 0, [2, 1]⟩, ⟨1, 1, 0, [0, 2]⟩, ⟨1, 2, 0, [3, 1]⟩, ⟨2, 3, 0, [2, 1]⟩,
    ⟨98, 4, 0, [2, 3]⟩]

end SpecDefs

/-! ## Loops and array accesses -/

section Basics

variable {α : Type} [LinearOrder α] [Zero α]

theorem forRange_invariant {σ : Type} (body : Nat → σ → σ) (I : Nat → σ → Prop) (n : Nat)
    (s : σ) (h0 : I 0 s) (hstep : ∀ i t, i < n → I i t → I (i + 1) (body i t)) :
    I n (forRange body n s) := by
  induction n with
  | zero => exact h0
  | succ n ih =>
    simp only [forRange]
    exact hstep n _ (Nat.lt_succ_self n)
      (ih (fun i t hi => hstep i t (Nat.lt_succ_of_lt hi)))

theorem nodeAt_set (m : List (Node α)) (i j : Nat) (x : Node α) :
    nodeAt (m.set i x) j = if i = j ∧ i < m.length then x else nodeAt m j := by
  unfold nodeAt
  rw [List.getD_eq_getElem?_getD, List.getD_eq_getElem?_getD, List.getElem?_set]
  by_cases h1 : i = j
  · subst h1
    by_cases h2 : i < m.length
    · simp [h2]
    · simp [h2, List.getElem?_eq_none (Nat.le_of_not_lt h2)]
  · simp [h1]

theorem length_setVal (m : List (Node α)) (i : Nat) (x : α) :
    (setVal m i x).length = m.length := by
  simp [setVal]

theorem length_setPointNum (m : List (Node α)) (i q : Nat) :
    (setPointNum m i q).length = m.length := by
  simp [setPointNum]

theorem nodeAt_setVal (m : List (Node α)) (i j : Nat) (x : α) :
    nodeAt (setVal m i x) j
      = if i = j ∧ i < m.length then { nodeAt m i with val := x } else nodeAt m j := by
  simp [setVal, nodeAt_set]

theorem nodeAt_setPointNum (m : List (Node α)) (i j q : Nat) :
    nodeAt (setPointNum m i q) j
      = if i = j ∧ i < m.length then { nodeAt m i with pointNum := q } else nodeAt m j := by
  simp [setPointNum, nodeAt_set]

theorem nodeAt_map_range (f : Nat → Node α) (n i : Nat) (hi : i < n) :
    nodeAt ((List.range n).map f) i = f i := by
  unfold nodeAt
  rw [List.getD_eq_getElem?_getD, List.getElem?_map, List.getElem?_range hi]
  rfl

theorem nodeAt_initMinK (v : List α) (k i : Nat) (hi : i < k) :
    nodeAt (initMinK v k) i = ⟨v.getD i 0, i⟩ :=
  nodeAt_map_range _ k i hi

theorem nodeAt_initRest (v : List α) (size k j : Nat) (hj : j < size - k) :
    nodeAt (initRest v size k) j = ⟨v.getD (j + k) 0, j + k⟩ :=
  nodeAt_map_range _ (size - k) j hj

end Basics

/-! ## `kNNDistVal`: the selection invariant -/

section KnnProofs

variable {α : Type} [LinearOrder α] [Zero α]

theorem maxScan_spec (f : Nat → Nat) (n : Nat) (s : KnnState α) :
    (forRange (fun i => maxScanBody (f i)) n s).minKMatrix = s.minKMatrix
    ∧ s.maxDist ≤ (forRange (fun i => maxScanBody (f i)) n s).maxDist
    ∧ (∀ i, i < n →
        (nodeAt s.minKMatrix (f i)).val ≤ (forRange (fun i => maxScanBody (f i)) n s).maxDist)
    ∧ (((forRange (fun i => maxScanBody (f i)) n s).maxInd = s.maxInd
          ∧ (forRange (fun i => maxScanBody (f i)) n s).maxDist = s.maxDist)
        ∨ ∃ i, i < n ∧ (forRange (fun i => maxScanBody (f i)) n s).maxInd = f i
          ∧ (forRange (fun i => maxScanBody (f i)) n s).maxDist
              = (nodeAt s.minKMatrix (f i)).val) := by
  induction n with
  | zero => simp [forRange]
  | succ n ih =>
    obtain ⟨h1, h2, h3, h4⟩ := ih
    simp only [forRange]
    generalize forRange (fun i => maxScanBody (f i)) n s = t at h1 h2 h3 h4
    unfold maxScanBody
    by_cases hc : (nodeAt t.minKMatrix (f n)).val > t.maxDist
    · rw [if_pos hc]
      refine ⟨h1, ?_, ?_, ?_⟩
      · exact le_trans h2 (le_of_lt hc)
      · intro i hi
        rcases Nat.lt_succ_iff_lt_or_eq.mp hi with h | h
        · exact le_trans (h3 i h) (le_of_lt hc)
        · subst h; simp [h1]
      · right
        exact ⟨n, Nat.lt_succ_self n, rfl, by simp [h1]⟩
    · rw [if_neg hc]
      refine ⟨h1, h2, ?_, ?_⟩
      · intro i hi
        rcases Nat.lt_succ_iff_lt_or_eq.mp hi with h | h
        · exact h3 i h
        · subst h; rw [← h1]; exact le_of_not_lt hc
      · rcases h4 with h | ⟨i, hi, h⟩
        · left; exact h
        · right; exact ⟨i, Nat.lt_succ_of_lt hi, h⟩


theorem length_initMinK (v : List α) (k : Nat) : (initMinK v k).length = k := by
  simp [initMinK]

theorem length_initRest (v : List α) (size k : Nat) :
    (initRest v size k).length = size - k := by
  simp [initRest]

theorem nodeAt_sentinelMinK (DBL_MAX : α) (v : List α) (p k i : Nat) (hi : i < k) :
    nodeAt (if p < k then setVal (initMinK v k) p DBL_MAX else initMinK v k) i
      = ⟨rowVal DBL_MAX v p i, i⟩ := by
  by_cases hp : p < k
  · rw [if_pos hp, nodeAt_setVal, length_initMinK]
    by_cases hpi : p = i
    · subst hpi
      simp [hp, nodeAt_initMinK, rowVal]
    · have : ¬ i = p := fun h => hpi h.symm
      simp [hpi, nodeAt_initMinK v k i hi, rowVal, this]
  · rw [if_neg hp, nodeAt_initMinK v k i hi]
    have : ¬ i = p := by omega
    simp [rowVal, this]

theorem nodeAt_sentinelRest (DBL_MAX : α) (v : List α) (size p k j : Nat)
    (hj : j < size - k) :
    nodeAt (if p < k then initRest v size k else setVal (initRest v size k) (p - k) DBL_MAX) j
      = ⟨rowVal DBL_MAX v p (j + k), j + k⟩ := by
  by_cases hp : p < k
  · rw [if_pos hp, nodeAt_initRest v size k j hj]
    have : ¬ j + k = p := by omega
    simp [rowVal, this]
  · rw [if_neg hp, nodeAt_setVal, length_initRest]
    by_cases hpj : p - k = j
    · have h1 : j + k = p := by omega
      have h2 : p - k < size - k := by omega
      rw [if_pos ⟨hpj, h2⟩, hpj, nodeAt_initRest v size k j hj]
      simp [rowVal, h1]
    · have h1 : ¬ j + k = p := by omega
      simp [hpj, nodeAt_initRest v size k j hj, rowVal, h1]

theorem knnInv_init (val : Nat → α) (k : Nat) (hk : 1 ≤ k) (m : List (Node α))
    (hlen : m.length = k) (hm : ∀ i, i < k → nodeAt m i = ⟨val i, i⟩) :
    KnnInv val k k (forRange (fun i => maxScanBody (i + 1)) (k - 1) ⟨m, (nodeAt m 0).val, 0⟩) := by
  obtain ⟨h1, h2, h3, h4⟩ :=
    maxScan_spec (fun i => i + 1) (k - 1) (⟨m, (nodeAt m 0).val, 0⟩ : KnnState α)
  simp only at h1 h2 h3 h4
  generalize forRange (fun i => maxScanBody (i + 1)) (k - 1)
    (⟨m, (nodeAt m 0).val, 0⟩ : KnnState α) = r at h1 h2 h3 h4
  refine ⟨by rw [h1]; exact hlen, ?_, ?_, ?_, ?_, ?_, ?_, ?_⟩
  · intro i hi; rw [h1, hm i hi]
  · intro i hi; rw [h1, hm i hi]; exact hi
  · intro i i' hi hi' h
    rw [h1, hm i hi, hm i' hi'] at h
    exact h
  · rcases h4 with ⟨h, _⟩ | ⟨i, hi, h, _⟩
    · rw [h]; exact hk
    · rw [h]; omega
  · rcases h4 with ⟨h, h'⟩ | ⟨i, _, h, h'⟩
    · rw [h, h', h1]
    · rw [h, h', h1]
  · intro i hi
    rw [h1]
    rcases Nat.eq_zero_or_pos i with h0 | hpos
    · rw [h0]; exact h2
    · have := h3 (i - 1) (by omega)
      rwa [Nat.sub_add_cancel hpos] at this
  · intro q hq hne
    exact absurd (by rw [h1, hm q hq]) (hne q hq)

theorem knnInv_step (val : Nat → α) (k b : Nat) (s : KnnState α) (h : KnnInv val k b s)
    (restMatrix : List (Node α)) (j : Nat) (hx : nodeAt restMatrix j = ⟨val b, b⟩) :
    KnnInv val k (b + 1) (restBody restMatrix k j s) := by
  unfold restBody
  rw [hx]
  by_cases hc : val b < s.maxDist
  · rw [if_pos hc]
    simp only
    have hml : s.maxInd < s.minKMatrix.length := by rw [h.len]; exact h.maxInd_lt
    have hm2 : ∀ i, nodeAt (setPointNum (setVal s.minKMatrix s.maxInd (val b)) s.maxInd b) i
        = if s.maxInd = i then ⟨val b, b⟩ else nodeAt s.minKMatrix i := by
      intro i
      rw [nodeAt_setPointNum, length_setVal, nodeAt_setVal, nodeAt_setVal]
      by_cases hi : s.maxInd = i
      · subst hi; simp [hml]
      · simp [hi]
    have hlen2 : (setPointNum (setVal s.minKMatrix s.maxInd (val b)) s.maxInd b).length = k := by
      rw [length_setPointNum, length_setVal, h.len]
    generalize setPointNum (setVal s.minKMatrix s.maxInd (val b)) s.maxInd b = m2 at hm2 hlen2
    obtain ⟨h1, h2, h3, h4⟩ :=
      maxScan_spec (fun i => i) k (⟨m2, val b, s.maxInd⟩ : KnnState α)
    simp only at h1 h2 h3 h4
    have hfr : forRange maxScanBody k (⟨m2, val b, s.maxInd⟩ : KnnState α)
        = forRange (fun i => maxScanBody i) k ⟨m2, val b, s.maxInd⟩ := rfl
    rw [hfr]
    generalize forRange (fun i => maxScanBody i) k (⟨m2, val b, s.maxInd⟩ : KnnState α) = r
      at h1 h2 h3 h4
    have hm2le : ∀ i, i < k → (nodeAt m2 i).val ≤ s.maxDist := by
      intro i hi
      rw [hm2]
      by_cases hmi : s.maxInd = i
      · rw [if_pos hmi]; exact le_of_lt hc
      · rw [if_neg hmi]; exact h.max_ge i hi
    have hle : r.maxDist ≤ s.maxDist := by
      rcases h4 with ⟨_, h'⟩ | ⟨i, hi, _, h'⟩
      · rw [h']; exact le_of_lt hc
      · rw [h']; exact hm2le i hi
    refine ⟨by rw [h1]; exact hlen2, ?_, ?_, ?_, ?_, ?_, ?_, ?_⟩
    · intro i hi
      rw [h1, hm2]
      by_cases hmi : s.maxInd = i
      · rw [if_pos hmi]
      · rw [if_neg hmi]; exact h.vals i hi
    · intro i hi
      rw [h1, hm2]
      by_cases hmi : s.maxInd = i
      · rw [if_pos hmi]; exact Nat.lt_succ_self b
      · rw [if_neg hmi]; exact Nat.lt_succ_of_lt (h.bound i hi)
    · intro i i' hi hi' he
      rw [h1, hm2, hm2] at he
      by_cases hmi : s.maxInd = i
      · by_cases hmi' : s.maxInd = i'
        · rw [← hmi, ← hmi']
        · rw [if_pos hmi, if_neg hmi'] at he
          have := h.bound i' hi'
          simp only at he
          omega
      · by_cases hmi' : s.maxInd = i'
        · rw [if_neg hmi, if_pos hmi'] at he
          have := h.bound i hi
          simp only at he
          omega
        · rw [if_neg hmi, if_neg hmi'] at he
          exact h.inj i i' hi hi' he
    · rcases h4 with ⟨h', _⟩ | ⟨i, hi, h', _⟩
      · rw [h']; exact h.maxInd_lt
      · rw [h']; exact hi
    · rcases h4 with ⟨h', h''⟩ | ⟨i, _, h', h''⟩
      · rw [h', h'', h1, hm2, if_pos rfl]
      · rw [h', h'', h1]
    · intro i hi
      rw [h1]; exact h3 i hi
    · intro q hq hne
      have hqb : q ≠ b := by
        intro hqb
        have := hne s.maxInd h.maxInd_lt
        rw [h1, hm2, if_pos rfl] at this
        exact this hqb.symm
      have hq' : q < b := by omega
      by_cases hev : (nodeAt s.minKMatrix s.maxInd).pointNum = q
      · have : val q = s.maxDist := by
          rw [← hev, ← h.vals _ h.maxInd_lt, h.max_eq]
        rw [this]; exact hle
      · refine le_trans hle (h.out q hq' ?_)
        intro i hi
        by_cases hmi : s.maxInd = i
        · rw [← hmi]; exact hev
        · have := hne i hi
          rwa [h1, hm2, if_neg hmi] at this
  · rw [if_neg hc]
    refine ⟨h.len, h.vals, fun i hi => Nat.lt_succ_of_lt (h.bound i hi), h.inj, h.maxInd_lt,
      h.max_eq, h.max_ge, ?_⟩
    intro q hq hne
    rcases Nat.lt_succ_iff_lt_or_eq.mp hq with h' | h'
    · exact h.out q h' hne
    · rw [h']; exact le_of_not_lt hc

theorem knnInv_final (DBL_MAX : α) (v : List α) (size p k : Nat) (hk1 : 1 ≤ k)
    (hk : k ≤ size) :
    KnnInv (rowVal DBL_MAX v p) k size (kNNFinal DBL_MAX v size p k) := by
  unfold kNNFinal
  simp only
  have h0 := knnInv_init (rowVal DBL_MAX v p) k hk1
    (if p < k then setVal (initMinK v k) p DBL_MAX else initMinK v k)
    (by split_ifs <;> simp [length_setVal, length_initMinK])
    (fun i hi => nodeAt_sentinelMinK DBL_MAX v p k i hi)
  have key := forRange_invariant
    (restBody (if p < k then initRest v size k
      else setVal (initRest v size k) (p - k) DBL_MAX) k)
    (fun j s => KnnInv (rowVal DBL_MAX v p) k (k + j) s) (size - k) _ h0
    (fun j t hj ht => knnInv_step (rowVal DBL_MAX v p) k (k + j) t ht _ j
      (by rw [nodeAt_sentinelRest DBL_MAX v size p k j hj, Nat.add_comm]))
  have hsz : k + (size - k) = size := by omega
  simp only [hsz] at key
  exact key
theorem mem_kNN_neighbors (DBL_MAX : α) (v : List α) (size p k q : Nat) :
    q ∈ (kNNDistVal DBL_MAX v size p k).2
      ↔ ∃ i, i < k ∧ (nodeAt (kNNFinal DBL_MAX v size p k).minKMatrix i).pointNum = q := by
  simp [kNNDistVal]

theorem kNN_core (DBL_MAX : α) (v : List α) (p k : Nat) (hk1 : 1 ≤ k)
    (hk : k < v.length)
    (hv : ∀ q, q < v.length → q ≠ p → v.getD q 0 < DBL_MAX) :
    (kNNDistVal DBL_MAX v v.length p k).2.length = k
    ∧ (kNNDistVal DBL_MAX v v.length p k).2.Nodup
    ∧ (∀ q, q ∈ (kNNDistVal DBL_MAX v v.length p k).2 →
        q < v.length ∧ q ≠ p ∧ v.getD q 0 ≤ (kNNDistVal DBL_MAX v v.length p k).1)
    ∧ (∀ q, q < v.length → q ≠ p → q ∉ (kNNDistVal DBL_MAX v v.length p k).2 →
        (kNNDistVal DBL_MAX v v.length p k).1 ≤ v.getD q 0)
    ∧ (∃ q, q ∈ (kNNDistVal DBL_MAX v v.length p k).2
        ∧ v.getD q 0 = (kNNDistVal DBL_MAX v v.length p k).1) := by
  have inv := knnInv_final DBL_MAX v v.length p k hk1 (le_of_lt hk)
  have hmem := mem_kNN_neighbors DBL_MAX v v.length p k
  have hnodup : (kNNDistVal DBL_MAX v v.length p k).2.Nodup := by
    unfold kNNDistVal
    simp only
    refine List.Nodup.map_on ?_ (List.nodup_range k)
    intro i hi i' hi' h
    exact inv.inj i i' (List.mem_range.mp hi) (List.mem_range.mp hi') h
  have hlen : (kNNDistVal DBL_MAX v v.length p k).2.length = k := by
    simp [kNNDistVal]
  have hrow : ∀ q, q ≠ p → rowVal DBL_MAX v p q = v.getD q 0 := by
    intro q hq; simp [rowVal, hq]
  have hnp : p ∉ (kNNDistVal DBL_MAX v v.length p k).2 := by
    intro hin
    obtain ⟨i, hi, hpi⟩ := (hmem p).mp hin
    have hmax : DBL_MAX ≤ (kNNFinal DBL_MAX v v.length p k).maxDist := by
      have h1 := inv.max_ge i hi
      rw [inv.vals i hi, hpi] at h1
      simpa [rowVal] using h1
    have hall : ∀ q, q ∈ List.range v.length → q ∈ (kNNDistVal DBL_MAX v v.length p k).2 := by
      intro q hq
      have hq' := List.mem_range.mp hq
      by_cases hqp : q = p
      · rw [hqp]; exact hin
      · by_contra hnot
        have h2 := inv.out q hq' (fun i hi h => hnot ((hmem q).mpr ⟨i, hi, h⟩))
        rw [hrow q hqp] at h2
        exact absurd (lt_of_le_of_lt (le_trans hmax h2) (hv q hq' hqp)) (lt_irrefl _)
    have hsub : (List.range v.length).Subperm (kNNDistVal DBL_MAX v v.length p k).2 :=
      (List.nodup_range v.length).subperm hall
    have := hsub.length_le
    rw [hlen, List.length_range] at this
    omega
  have hne : ∀ q, q ∈ (kNNDistVal DBL_MAX v v.length p k).2 → q ≠ p :=
    fun q hq h => hnp (h ▸ hq)
  refine ⟨hlen, hnodup, ?_, ?_, ?_⟩
  · intro q hq
    obtain ⟨i, hi, hqi⟩ := (hmem q).mp hq
    have hqp : q ≠ p := fun h => hnp (h ▸ hq)
    refine ⟨hqi ▸ inv.bound i hi, hqp, ?_⟩
    have h1 := inv.max_ge i hi
    rw [inv.vals i hi, hqi, hrow q hqp] at h1
    exact h1
  · intro q hq hqp hnot
    have h2 := inv.out q hq (fun i hi h => hnot ((hmem q).mpr ⟨i, hi, h⟩))
    rwa [hrow q hqp] at h2
  · have hin : (nodeAt (kNNFinal DBL_MAX v v.length p k).minKMatrix
        (kNNFinal DBL_MAX v v.length p k).maxInd).pointNum
          ∈ (kNNDistVal DBL_MAX v v.length p k).2 :=
      (hmem _).mpr ⟨_, inv.maxInd_lt, rfl⟩
    refine ⟨_, hin, ?_⟩
    have hqp := hne _ hin
    rw [← hrow _ hqp, ← inv.vals _ inv.maxInd_lt, inv.max_eq]
    rfl

/-- In a list `w ++ d` where every element of `w` is at most `e`, every element of
`d` is at least `e` and `e` occurs in `w`, the ascending sort has `e` at position
`w.length - 1`. -/
theorem sort_split_kth (w d : List α) (e : α) (l : List α) (hl : l.Perm (w ++ d))
    (hw : ∀ a, a ∈ w → a ≤ e) (hd : ∀ a, a ∈ d → e ≤ a) (he : e ∈ w) :
    (l.insertionSort (· ≤ ·))[w.length - 1]? = some e := by
  have hs : l.insertionSort (· ≤ ·) = w.insertionSort (· ≤ ·) ++ d.insertionSort (· ≤ ·) := by
    apply List.eq_of_perm_of_sorted (r := (· ≤ ·))
    · exact ((List.perm_insertionSort _ l).trans hl).trans
        (((List.perm_insertionSort _ w).append (List.perm_insertionSort _ d)).symm)
    · exact List.sorted_insertionSort _ l
    · rw [List.Sorted, List.pairwise_append]
      refine ⟨List.sorted_insertionSort _ w, List.sorted_insertionSort _ d, ?_⟩
      intro a ha b hb
      exact le_trans (hw a ((List.perm_insertionSort _ w).mem_iff.mp ha))
        (hd b ((List.perm_insertionSort _ d).mem_iff.mp hb))
  have hwl : (w.insertionSort (· ≤ ·)).length = w.length := List.length_insertionSort _ w
  have hpos : 0 < w.length := List.length_pos_of_mem he
  have hlt : w.length - 1 < (w.insertionSort (· ≤ ·)).length := by omega
  rw [hs, List.getElem?_append_left hlt, List.getElem?_eq_getElem hlt]
  congr 1
  apply le_antisymm
  · exact hw _ ((List.perm_insertionSort _ w).mem_iff.mp (List.getElem_mem _))
  · have hein : e ∈ w.insertionSort (· ≤ ·) := (List.perm_insertionSort _ w).mem_iff.mpr he
    obtain ⟨i, hi, hei⟩ := List.mem_iff_getElem.mp hein
    rw [← hei]
    have hsorted := List.sorted_insertionSort (· ≤ ·) w
    have := hsorted.rel_get_of_le (a := ⟨i, hi⟩) (b := ⟨w.length - 1, hlt⟩)
      (by simp only [Fin.mk_le_mk]; omega)
    simpa using this
end KnnProofs

/-! ## Claims on `kNNDistVal` and `localMax` -/

section KnnClaims

variable {α : Type} [LinearOrder α] [Zero α]

theorem otherDists_perm (v : List α) (n p : Nat) (N : List Nat) (hN : N.Nodup)
    (hmem : ∀ q, q ∈ N → q < n ∧ q ≠ p) :
    (otherDists v n p).Perm
      (N.map (fun q => v.getD q 0)
        ++ ((((List.range n).filter fun q => q ≠ p).filter fun q => !decide (q ∈ N)).map
            fun q => v.getD q 0)) := by
  unfold otherDists
  rw [← List.map_append]
  apply List.Perm.map
  have h1 := (List.filter_append_perm (fun q => decide (q ∈ N))
    ((List.range n).filter fun q => q ≠ p)).symm
  refine h1.trans (List.Perm.append_right _ ?_)
  rw [List.perm_ext_iff_of_nodup (((List.nodup_range n).filter _).filter _) hN]
  intro q
  simp only [List.mem_filter, List.mem_range, decide_eq_true_eq]
  constructor
  · intro h; exact h.2
  · intro h; exact ⟨hmem q h, h⟩

/-- C1. `kNNDistVal` computes the k-distance: for a row `v` of length `n`, a point
index `p` and `1 ≤ k < n`, with every `v[q]`, `q ≠ p`, below the sentinel `DBL_MAX`,
the value written to `*Eps` is the `k`-th smallest element (position `k - 1` of the
ascending sort) of the multiset `{v[q] : q ≠ p}`.  The bound `p < n` of the claim is
not needed. -/
theorem kNNDistVal_Eps_kth_smallest (DBL_MAX : α) (v : List α) (p k : Nat) (hk1 : 1 ≤ k)
    (hk : k < v.length)
    (hv : ∀ q, q < v.length → q ≠ p → v.getD q 0 < DBL_MAX) :
    ((otherDists v v.length p).insertionSort (· ≤ ·))[k - 1]?
      = some (kNNDistVal DBL_MAX v v.length p k).1 := by
  obtain ⟨hlen, hnd, hin, hout, q0, hq0, hq0e⟩ := kNN_core DBL_MAX v p k hk1 hk hv
  have hperm := otherDists_perm v v.length p (kNNDistVal DBL_MAX v v.length p k).2 hnd
    (fun q hq => ⟨(hin q hq).1, (hin q hq).2.1⟩)
  have key := sort_split_kth _ _ (kNNDistVal DBL_MAX v v.length p k).1 _ hperm
    (by
      intro a ha
      obtain ⟨q, hq, rfl⟩ := List.mem_map.mp ha
      exact (hin q hq).2.2)
    (by
      intro a ha
      obtain ⟨q, hq, rfl⟩ := List.mem_map.mp ha
      simp only [List.mem_filter, List.mem_range, decide_eq_true_eq, Bool.not_eq_true',
        decide_eq_false_iff_not] at hq
      exact hout q hq.1.1 hq.1.2 hq.2)
    (List.mem_map.mpr ⟨q0, hq0, hq0e⟩)
  rw [List.length_map, hlen] at key
  exact key

/-- C1, witness: on the rows of the positions 0, 1, 2, 3, 100 with `k = 2` the
k-distances are 2, 1, 1, 2, 98, and the first of them is the second smallest of the
other distances of the row. -/
theorem kNNDistVal_Eps_kth_smallest_witness :
    ((List.range 5).map fun p =>
        (kNNDistVal 1000 ((lineMatrix [0, 1, 2, 3, 100]).value.getD p []) 5 p 2).1)
      = [2, 1, 1, 2, 98]
    ∧ ((otherDists [0, 1, 2, 3, 100] 5 0).insertionSort (· ≤ ·))[2 - 1]?
        = some (kNNDistVal 1000 [0, 1, 2, 3, 100] 5 0 2).1 :=
  ⟨by decide,
   kNNDistVal_Eps_kth_smallest (1000 : Nat) [0, 1, 2, 3, 100] 0 2 (by decide) (by decide)
     (by decide)⟩

/-- C2. `kNNDistVal` returns a correct k-nearest-neighbour set: the `k` entries
written to `neighbors` are pairwise distinct indices below `n`, none is `p`, every
neighbour `q` has `v[q] ≤ Eps`, and every other index `q ≠ p` has `v[q] ≥ Eps`. -/
theorem kNNDistVal_neighbors_correct (DBL_MAX : α) (v : List α) (p k : Nat) (hk1 : 1 ≤ k)
    (hk : k < v.length)
    (hv : ∀ q, q < v.length → q ≠ p → v.getD q 0 < DBL_MAX) :
    (kNNDistVal DBL_MAX v v.length p k).2.length = k
    ∧ (kNNDistVal DBL_MAX v v.length p k).2.Nodup
    ∧ (∀ q, q ∈ (kNNDistVal DBL_MAX v v.length p k).2 →
        q < v.length ∧ q ≠ p ∧ v.getD q 0 ≤ (kNNDistVal DBL_MAX v v.length p k).1)
    ∧ (∀ q, q < v.length → q ≠ p → q ∉ (kNNDistVal DBL_MAX v v.length p k).2 →
        (kNNDistVal DBL_MAX v v.length p k).1 ≤ v.getD q 0) := by
  obtain ⟨h1, h2, h3, h4, _⟩ := kNN_core DBL_MAX v p k hk1 hk hv
  exact ⟨h1, h2, h3, h4⟩

/-- C2, witness: the row of the point at position 2 among 0, 1, 2, 3, 100. -/
theorem kNNDistVal_neighbors_correct_witness :
    (kNNDistVal 1000 [2, 1, 0, 1, 98] 5 2 2).2.length = 2
    ∧ (kNNDistVal 1000 [2, 1, 0, 1, 98] 5 2 2).2.Nodup
    ∧ (∀ q, q ∈ (kNNDistVal 1000 [2, 1, 0, 1, 98] 5 2 2).2 →
        q < 5 ∧ q ≠ 2 ∧ [2, 1, 0, 1, 98].getD q 0 ≤ (kNNDistVal 1000 [2, 1, 0, 1, 98] 5 2 2).1)
    ∧ (∀ q, q < 5 → q ≠ 2 → q ∉ (kNNDistVal 1000 [2, 1, 0, 1, 98] 5 2 2).2 →
        (kNNDistVal 1000 [2, 1, 0, 1, 98] 5 2 2).1 ≤ [2, 1, 0, 1, 98].getD q 0) :=
  kNNDistVal_neighbors_correct (1000 : Nat) [2, 1, 0, 1, 98] 2 2 (by decide) (by decide)
    (by decide)

theorem localMaxLoop_iff (Points : List (Point α)) (p : Nat) (is : List Nat) :
    localMaxLoop Points p is = 1
      ↔ ∀ i, i ∈ is →
          (ptAt Points p).Eps ≤ (ptAt Points (nbrAt Points p i)).Eps := by
  induction is with
  | nil => simp [localMaxLoop]
  | cons i is ih =>
    unfold localMaxLoop
    by_cases hc : (ptAt Points (nbrAt Points p i)).Eps < (ptAt Points p).Eps
    · rw [if_pos hc]
      simp only [List.mem_cons, forall_eq_or_imp]
      constructor
      · intro h; exact absurd h (by decide)
      · intro h; exact absurd hc (not_lt.mpr h.1)
    · rw [if_neg hc, ih]
      simp only [List.mem_cons, forall_eq_or_imp]
      exact ⟨fun h => ⟨not_lt.mp hc, h⟩, fun h => h.2⟩

theorem localMaxLoop_zero_or_one (Points : List (Point α)) (p : Nat) (is : List Nat) :
    localMaxLoop Points p is = 0 ∨ localMaxLoop Points p is = 1 := by
  induction is with
  | nil => right; rfl
  | cons i is ih =>
    unfold localMaxLoop
    split_ifs
    · left; rfl
    · exact ih

/-- C3. `localMax(p, k)` returns 1 if and only if `Eps(p) ≤ Eps(q)` for every `q`
among the `k` neighbours `neighbors[0..k)` of `p`, and returns 0 otherwise.  The
function only reads the point table: its embedding has no point table among its
results. -/
theorem localMax_iff (Points : List (Point α)) (p k : Nat) :
    (localMax Points p k = 1
      ↔ ∀ i, i < k →
          (ptAt Points p).Eps ≤ (ptAt Points (nbrAt Points p i)).Eps)
    ∧ (localMax Points p k = 0 ∨ localMax Points p k = 1) := by
  refine ⟨?_, localMaxLoop_zero_or_one Points p _⟩
  unfold localMax
  rw [localMaxLoop_iff]
  simp only [List.mem_range]

end KnnClaims

/-! ## `ExpandCluster`: frame and termination -/

section ExpandProofs

variable {α : Type} [LinearOrder α] [Zero α] [Mul α]

theorem length_setClass (P : List (Point α)) (i : Nat) (c : Int) :
    (setClass P i c).length = P.length := by
  simp [setClass]

theorem ptAt_setClass (P : List (Point α)) (i j : Nat) (c : Int) :
    ptAt (setClass P i c) j
      = if i = j ∧ i < P.length then { ptAt P i with class_ := c } else ptAt P j := by
  unfold setClass ptAt
  rw [List.getD_eq_getElem?_getD, List.getD_eq_getElem?_getD, List.getElem?_set]
  by_cases h1 : i = j
  · subst h1
    by_cases h2 : i < P.length
    · simp [h2]
    · simp [h2, List.getElem?_eq_none (Nat.le_of_not_lt h2)]
  · simp [h1]

theorem ptAt_of_le (P : List (Point α)) (j : Nat) (h : P.length ≤ j) :
    ptAt P j = Point.zero := by
  unfold ptAt
  exact List.getD_eq_default _ _ h

theorem class_setClass (P : List (Point α)) (i j : Nat) (c : Int) :
    (ptAt (setClass P i c) j).class_
      = if i = j ∧ i < P.length then c else (ptAt P j).class_ := by
  rw [ptAt_setClass]; split_ifs <;> rfl

theorem class_setClass_self (P : List (Point α)) (i : Nat) (c : Int) (h : i < P.length) :
    (ptAt (setClass P i c) i).class_ = c := by
  rw [class_setClass, if_pos ⟨rfl, h⟩]

theorem class_setClass_ne (P : List (Point α)) (i j : Nat) (c : Int) (h : i ≠ j) :
    (ptAt (setClass P i c) j).class_ = (ptAt P j).class_ := by
  rw [class_setClass, if_neg (fun h' => h h'.1)]

theorem Eps_setClass (P : List (Point α)) (i j : Nat) (c : Int) :
    (ptAt (setClass P i c) j).Eps = (ptAt P j).Eps := by
  rw [ptAt_setClass]; split_ifs with h
  · rw [h.1]
  · rfl

theorem neighbors_setClass (P : List (Point α)) (i j : Nat) (c : Int) :
    (ptAt (setClass P i c) j).neighbors = (ptAt P j).neighbors := by
  rw [ptAt_setClass]; split_ifs with h
  · rw [h.1]
  · rfl

theorem pointNum_setClass (P : List (Point α)) (i j : Nat) (c : Int) :
    (ptAt (setClass P i c) j).pointNum = (ptAt P j).pointNum := by
  rw [ptAt_setClass]; split_ifs with h
  · rw [h.1]
  · rfl

theorem nbrAt_setClass (P : List (Point α)) (q j i : Nat) (c : Int) :
    nbrAt (setClass P q c) j i = nbrAt P j i := by
  unfold nbrAt; rw [neighbors_setClass]

theorem sameGeom_refl (P : List (Point α)) : SameGeom P P :=
  ⟨rfl, fun _ => rfl, fun _ => rfl, fun _ => rfl⟩

theorem sameGeom_trans {P0 P1 P2 : List (Point α)} (h1 : SameGeom P0 P1)
    (h2 : SameGeom P1 P2) : SameGeom P0 P2 :=
  ⟨h2.len.trans h1.len, fun j => (h2.eps j).trans (h1.eps j),
    fun j => (h2.nbs j).trans (h1.nbs j), fun j => (h2.num j).trans (h1.num j)⟩

theorem sameGeom_setClass (P : List (Point α)) (q : Nat) (c : Int) :
    SameGeom P (setClass P q c) :=
  ⟨length_setClass P q c, fun j => Eps_setClass P q j c, fun j => neighbors_setClass P q j c,
    fun j => pointNum_setClass P q j c⟩

theorem sameGeom_nbrAt {P0 P : List (Point α)} (h : SameGeom P0 P) (j i : Nat) :
    nbrAt P j i = nbrAt P0 j i := by
  unfold nbrAt; rw [h.nbs]

theorem tableOK_of_sameGeom {size k : Nat} {P0 P : List (Point α)} (h0 : TableOK size k P0)
    (h : SameGeom P0 P) : TableOK size k P :=
  ⟨h.len.trans h0.len, fun j hj i hi => by rw [sameGeom_nbrAt h]; exact h0.nb_lt j hj i hi⟩

theorem eligible_self (C : Int) : eligible C C = false := by
  unfold eligible
  rw [decide_eq_false_iff_not]
  omega

theorem countP_set_le {β : Type} (f : β → Bool) (l : List β) (i : Nat) (x : β)
    (hx : f x = false) : (l.set i x).countP f ≤ l.countP f := by
  induction l generalizing i with
  | nil => simp
  | cons a l ih =>
    cases i with
    | zero =>
      simp only [List.set_cons_zero, List.countP_cons, hx]
      simp
    | succ i =>
      simp only [List.set_cons_succ, List.countP_cons]
      exact Nat.add_le_add_right (ih i) _

theorem countP_set_lt {β : Type} (f : β → Bool) (l : List β) (i : Nat) (x : β)
    (hx : f x = false) (hi : i < l.length) (hold : f (l.getD i x) = true) :
    (l.set i x).countP f + 1 = l.countP f := by
  induction l generalizing i with
  | nil => simp at hi
  | cons a l ih =>
    cases i with
    | zero =>
      simp only [List.getD_cons_zero] at hold
      simp [List.countP_cons, hx, hold]
    | succ i =>
      simp only [List.set_cons_succ, List.countP_cons]
      simp only [List.getD_cons_succ] at hold
      have := ih i (by simpa using hi) hold
      omega

theorem eligCount_setClass_le (C : Int) (P : List (Point α)) (q : Nat) :
    eligCount C (setClass P q C) ≤ eligCount C P := by
  unfold eligCount setClass
  exact countP_set_le _ P q _ (eligible_self C)

theorem eligCount_setClass_lt (C : Int) (P : List (Point α)) (q : Nat) (hq : q < P.length)
    (he : eligible C (ptAt P q).class_ = true) :
    eligCount C (setClass P q C) + 1 = eligCount C P := by
  unfold eligCount setClass
  refine countP_set_lt _ P q _ (eligible_self C) hq ?_
  have : P.getD q { ptAt P q with class_ := C } = ptAt P q := by
    unfold ptAt
    rw [List.getD_eq_getElem _ _ hq, List.getD_eq_getElem _ _ hq]
  rw [this]; exact he

theorem eligCount_le_length (C : Int) (P : List (Point α)) : eligCount C P ≤ P.length :=
  List.countP_le_length _

/-- Absorbing a point `q` whose label is not positive keeps the frame invariant. -/
theorem absInv_absorb {size p : Nat} {C : Int} {P0 P : List (Point α)} {seeds : List Nat}
    (h : AbsInv size p C P0 P seeds) (q : Nat) (hq : q < size)
    (hc : (ptAt P q).class_ ≤ 0) :
    AbsInv size p C P0 (setClass P q C) (seeds ++ [q]) := by
  refine ⟨sameGeom_trans h.geom (sameGeom_setClass P q C), ?_, ?_, ?_, ?_⟩
  · intro j
    rw [class_setClass]
    split_ifs
    · right; rfl
    · exact h.cls j
  · intro j hj hpos
    rw [class_setClass]
    split_ifs with hqj
    · exfalso
      have := h.pos j hj hpos
      rw [← hqj.1] at this hpos
      omega
    · exact h.pos j hj hpos
  · rw [class_setClass]
    split_ifs
    · rfl
    · exact h.seedC
  · intro x hx
    rcases List.mem_append.mp hx with hx | hx
    · exact h.bnd x hx
    · rw [List.mem_singleton.mp hx]; exact hq

theorem absInv_start {size p : Nat} (C : Int) (P0 : List (Point α)) (hp : p < P0.length) :
    AbsInv size p C P0 (setClass P0 p C) [] := by
  refine ⟨sameGeom_setClass P0 p C, ?_, ?_, ?_, ?_⟩
  · intro j
    rw [class_setClass]
    split_ifs
    · right; rfl
    · left; rfl
  · intro j hj _
    exact class_setClass_ne P0 p j C (fun h => hj h.symm)
  · exact class_setClass_self P0 p C hp
  · intro x hx; simp at hx

theorem seedLoop_inv (size k p : Nat) (C : Int) (P0 : List (Point α))
    (hT : TableOK size k P0) (hp : p < size) (n : Nat) (hn : n ≤ k) :
    AbsInv size p C P0 (forRange (seedBody p C) n (setClass P0 p C, [])).1
        (forRange (seedBody p C) n (setClass P0 p C, [])).2
    ∧ (forRange (seedBody p C) n (setClass P0 p C, [])).2.length ≤ n
    ∧ eligCount C (forRange (seedBody p C) n (setClass P0 p C, [])).1 ≤ size := by
  refine forRange_invariant (seedBody p C)
    (fun i r => AbsInv size p C P0 r.1 r.2 ∧ r.2.length ≤ i ∧ eligCount C r.1 ≤ size) n _ ?_ ?_
  · refine ⟨absInv_start C P0 (by rw [hT.len]; exact hp), by simp, ?_⟩
    have := eligCount_le_length C (setClass P0 p C)
    rw [length_setClass, hT.len] at this
    exact this
  · intro i r hi ⟨ha, hl, he⟩
    unfold seedBody
    split_ifs with hc
    · have hq : nbrAt r.1 p i < size := by
        rw [sameGeom_nbrAt ha.geom]; exact hT.nb_lt p hp i (by omega)
      refine ⟨absInv_absorb ha _ hq hc, ?_, ?_⟩
      · simp only [List.length_append, List.length_singleton]; omega
      · exact le_trans (eligCount_setClass_le C r.1 _) he
    · exact ⟨ha, by omega, he⟩

theorem expandLoop_inv (size k p x : Nat) (C : Int) (P0 : List (Point α))
    (hT : TableOK size k P0) (hx : x < size) (s : ExpandState α)
    (hs : ExpInv size p C P0 s) (n : Nat) (hn : n ≤ k) :
    ExpInv size p C P0 (forRange (expandBody x C) n s)
    ∧ (forRange (expandBody x C) n s).pointIndex = s.pointIndex
    ∧ (forRange (expandBody x C) n s).numofElements
          + eligCount C (forRange (expandBody x C) n s).Points
        = s.numofElements + eligCount C s.Points
    ∧ s.numofElements ≤ (forRange (expandBody x C) n s).numofElements := by
  refine forRange_invariant (expandBody x C)
    (fun _ t => ExpInv size p C P0 t ∧ t.pointIndex = s.pointIndex
      ∧ t.numofElements + eligCount C t.Points = s.numofElements + eligCount C s.Points
      ∧ s.numofElements ≤ t.numofElements) n s
    ⟨hs, rfl, rfl, le_refl _⟩ ?_
  intro i t hi ⟨ht, hpi, hm, hle⟩
  unfold expandBody
  split_ifs with hc
  · have hq : nbrAt t.Points x i < size := by
      rw [sameGeom_nbrAt ht.abs.geom]; exact hT.nb_lt x hx i (by omega)
    have hc0 : (ptAt t.Points (nbrAt t.Points x i)).class_ ≤ 0 := by
      rcases hc with h | h
      · exact h.2
      · rw [h.2]
    have hel : eligible C (ptAt t.Points (nbrAt t.Points x i)).class_ = true := by
      unfold eligible; exact decide_eq_true hc
    have hlen : t.Points.length = size := ht.abs.geom.len.trans hT.len
    have hdec := eligCount_setClass_lt C t.Points _ (by rw [hlen]; exact hq) hel
    refine ⟨⟨absInv_absorb ht.abs _ hq hc0, ?_⟩, hpi, ?_, ?_⟩
    · simp only [List.length_append, List.length_singleton]
      have := ht.count
      omega
    · simp only
      omega
    · simp only
      omega
  · exact ⟨ht, hpi, hm, hle⟩

theorem seeds_getD_lt (size p : Nat) (C : Int) (P0 : List (Point α)) (s : ExpandState α)
    (hs : ExpInv size p C P0 s) (hpos : 0 < s.numofElements) :
    s.seeds.getD s.pointIndex 0 ∈ s.seeds ∧ s.seeds.getD s.pointIndex 0 < size := by
  have hlt : s.pointIndex < s.seeds.length := by have := hs.count; omega
  have hmem : s.seeds.getD s.pointIndex 0 ∈ s.seeds := by
    rw [List.getD_eq_getElem _ _ hlt]; exact List.getElem_mem _
  exact ⟨hmem, hs.abs.bnd _ hmem⟩

theorem whileBody_inv (size k p : Nat) (C : Int) (powerValue : α) (P0 : List (Point α))
    (hT : TableOK size k P0) (s : ExpandState α) (hs : ExpInv size p C P0 s)
    (hpos : 0 < s.numofElements) :
    ExpInv size p C P0 (whileBody p C k powerValue s)
    ∧ (whileBody p C k powerValue s).numofElements
          + eligCount C (whileBody p C k powerValue s).Points + 1
        = s.numofElements + eligCount C s.Points := by
  have hx := (seeds_getD_lt size p C P0 s hs hpos).2
  obtain ⟨h1, h2, h3, h4⟩ :=
    expandLoop_inv size k p (s.seeds.getD s.pointIndex 0) C P0 hT hx s hs k (le_refl k)
  unfold whileBody
  simp only
  generalize forRange (expandBody (s.seeds.getD s.pointIndex 0) C) k s = t at h1 h2 h3 h4
  split_ifs with hc
  · refine ⟨⟨h1.abs, ?_⟩, ?_⟩
    · show t.numofElements - 1 + (t.pointIndex + 1) = t.seeds.length
      have := h1.count
      omega
    · show t.numofElements - 1 + eligCount C t.Points + 1 = _
      omega
  · refine ⟨⟨hs.abs, ?_⟩, ?_⟩
    · show s.numofElements - 1 + (s.pointIndex + 1) = s.seeds.length
      have := hs.count
      omega
    · show s.numofElements - 1 + eligCount C s.Points + 1 = _
      omega

/-- Rule for the worklist loop: an invariant `J` that every iteration preserves
holds when the loop ends, and the loop does end within the budget. -/
theorem expandWhile_rule (size k p : Nat) (C : Int) (powerValue : α) (P0 : List (Point α))
    (hT : TableOK size k P0) (J : ExpandState α → Prop)
    (hJ : ∀ s, ExpInv size p C P0 s → J s → 0 < s.numofElements →
      J (whileBody p C k powerValue s)) :
    ∀ fuel s, ExpInv size p C P0 s → J s → s.numofElements + eligCount C s.Points < fuel →
      ∃ s', expandWhile p C k powerValue fuel s = some s' ∧ ExpInv size p C P0 s' ∧ J s'
        ∧ s'.numofElements = 0 := by
  intro fuel
  induction fuel with
  | zero => intro s _ _ h; omega
  | succ fuel ih =>
    intro s hs hj hm
    unfold expandWhile
    by_cases hpos : s.numofElements > 0
    · rw [if_pos hpos]
      obtain ⟨h1, h2⟩ := whileBody_inv size k p C powerValue P0 hT s hs hpos
      exact ih _ h1 (hJ s hs hj hpos) (by omega)
    · rw [if_neg hpos]
      exact ⟨s, rfl, hs, hj, by omega⟩

theorem expandInit_inv (size k p : Nat) (C : Int) (P0 : List (Point α))
    (hT : TableOK size k P0) (hp : p < size) :
    ExpInv size p C P0 (expandInit p C k P0)
    ∧ (expandInit p C k P0).numofElements + eligCount C (expandInit p C k P0).Points
        < size + k + 1 := by
  obtain ⟨h1, h2, h3⟩ := seedLoop_inv size k p C P0 hT hp k (le_refl k)
  unfold expandInit
  simp only
  refine ⟨⟨h1, by simp⟩, ?_⟩
  omega

/-- Frame and termination of `ExpandCluster` on a memory-safe table: the call
returns, it changes class labels only, every label is either kept or becomes
`ClusterID`, positive labels of points other than the seed are kept, and the seed
is labelled `ClusterID`. -/
theorem ExpandCluster_frame (size k p : Nat) (C : Int) (powerValue : α)
    (P0 : List (Point α)) (hT : TableOK size k P0) (hp : p < size) :
    ∃ P', ExpandCluster size p C k powerValue P0 = some P' ∧ SameGeom P0 P'
      ∧ (∀ j, (ptAt P' j).class_ = (ptAt P0 j).class_ ∨ (ptAt P' j).class_ = C)
      ∧ (∀ j, j ≠ p → 0 < (ptAt P0 j).class_ → (ptAt P' j).class_ = (ptAt P0 j).class_)
      ∧ (ptAt P' p).class_ = C := by
  obtain ⟨h1, h2⟩ := expandInit_inv size k p C P0 hT hp
  obtain ⟨s', hs', hinv, _, _⟩ :=
    expandWhile_rule size k p C powerValue P0 hT (fun _ => True) (fun _ _ _ _ => trivial)
      (size + k + 1) _ h1 trivial h2
  refine ⟨s'.Points, ?_, hinv.abs.geom, hinv.abs.cls, hinv.abs.pos, hinv.abs.seedC⟩
  unfold ExpandCluster
  rw [hs']; rfl
end ExpandProofs

/-! ## `ExpandCluster`: the density-connected set -/

section PathProofs

variable {α : Type} [LinearOrder α] [Zero α] [Mul α]

theorem pathInv_mono {P0 P : List (Point α)} {p k : Nat} {powerValue : α} {C : Int}
    {E E' : Nat → Nat → Prop} {seeds : List Nat}
    (h : PathInv P0 p k powerValue C E P seeds) (hE : ∀ x i, E' x i → E x i) :
    PathInv P0 p k powerValue C E' P seeds :=
  ⟨h.lab, h.path, fun x i hx => h.closed x i (hE x i hx)⟩

theorem densityPath_single (P0 : List (Point α)) (p k : Nat) (powerValue : α) (i : Nat)
    (hi : i < k) (hc : (ptAt P0 (nbrAt P0 p i)).class_ ≤ 0) :
    DensityPath P0 p k powerValue [nbrAt P0 p i] (nbrAt P0 p i) := by
  refine ⟨List.Chain.cons ⟨i, hi, rfl⟩ List.Chain.nil, ?_, ?_, rfl⟩
  · intro x hx; rw [List.mem_singleton.mp hx]; exact hc
  · intro x hx; simp at hx

theorem densityPath_snoc (P0 : List (Point α)) (p k : Nat) (powerValue : α)
    (xs : List Nat) (x i : Nat) (h : DensityPath P0 p k powerValue xs x)
    (he : (ptAt P0 x).Eps ≤ powerValue * (ptAt P0 p).Eps) (hi : i < k)
    (hc : (ptAt P0 (nbrAt P0 x i)).class_ ≤ 0) :
    DensityPath P0 p k powerValue (xs ++ [nbrAt P0 x i]) (nbrAt P0 x i) := by
  obtain ⟨h1, h2, h3, h4⟩ := h
  obtain ⟨ys, rfl⟩ := List.getLast?_eq_some_iff.mp h4
  refine ⟨?_, ?_, ?_, by simp⟩
  · rw [List.append_assoc, List.singleton_append, List.chain_split]
    exact ⟨h1, List.Chain.cons ⟨i, hi, rfl⟩ List.Chain.nil⟩
  · intro y hy
    rcases List.mem_append.mp hy with hy | hy
    · exact h2 y hy
    · rw [List.mem_singleton.mp hy]; exact hc
  · intro y hy
    rw [List.dropLast_concat] at hy
    rw [List.dropLast_concat] at h3
    rcases List.mem_append.mp hy with hy | hy
    · exact h3 y hy
    · rw [List.mem_singleton.mp hy]; exact he

/-- Examining the edge `(x, i)` when its target is absorbed. -/
theorem pathInv_absorb {P0 P : List (Point α)} {p k : Nat} {powerValue : α} {C : Int}
    {E : Nat → Nat → Prop} {seeds : List Nat} (hC : 0 < C)
    (h : PathInv P0 p k powerValue C E P seeds) (x i : Nat) (hi : i < k)
    (hx : x = p ∨ (x ∈ seeds ∧ (ptAt P0 x).Eps ≤ powerValue * (ptAt P0 p).Eps))
    (hq : nbrAt P0 x i < P.length) (hc : (ptAt P (nbrAt P0 x i)).class_ ≤ 0) :
    PathInv P0 p k powerValue C (fun y i' => E y i' ∨ (y = x ∧ i' = i))
      (setClass P (nbrAt P0 x i) C) (seeds ++ [nbrAt P0 x i]) := by
  have hnot : ¬ (nbrAt P0 x i = p ∨ nbrAt P0 x i ∈ seeds) := by
    intro hin
    have := h.lab (nbrAt P0 x i)
    rw [if_pos hin] at this
    omega
  have hc0 : (ptAt P0 (nbrAt P0 x i)).class_ ≤ 0 := by
    have := h.lab (nbrAt P0 x i)
    rw [if_neg hnot] at this
    rw [← this]; exact hc
  refine ⟨?_, ?_, ?_⟩
  · intro j
    rw [class_setClass]
    by_cases hj : nbrAt P0 x i = j
    · rw [if_pos ⟨hj, hq⟩, if_pos (Or.inr (by rw [← hj]; simp))]
    · rw [if_neg (fun h' => hj h'.1), h.lab j]
      have : (j = p ∨ j ∈ seeds ++ [nbrAt P0 x i]) ↔ (j = p ∨ j ∈ seeds) := by
        simp only [List.mem_append, List.mem_singleton]
        constructor
        · rintro (h' | h' | h')
          · exact Or.inl h'
          · exact Or.inr h'
          · exact absurd h'.symm hj
        · rintro (h' | h')
          · exact Or.inl h'
          · exact Or.inr (Or.inl h')
      simp only [this]
  · intro y hy
    rcases List.mem_append.mp hy with hy | hy
    · exact h.path y hy
    · rw [List.mem_singleton.mp hy]
      rcases hx with hx | ⟨hx, he⟩
      · rw [hx] at hc0 ⊢
        exact ⟨_, densityPath_single P0 p k powerValue i hi hc0⟩
      · obtain ⟨xs, hxs⟩ := h.path x hx
        exact ⟨_, densityPath_snoc P0 p k powerValue xs x i hxs he hi hc0⟩
  · intro y i' hE hcl
    rcases hE with hE | ⟨rfl, rfl⟩
    · rcases h.closed y i' hE hcl with h' | h'
      · exact Or.inl h'
      · exact Or.inr (List.mem_append_left _ h')
    · right; simp

/-- Examining the edge `(x, i)` when its target is not absorbed. -/
theorem pathInv_skip {P0 P : List (Point α)} {p k : Nat} {powerValue : α} {C : Int}
    {E : Nat → Nat → Prop} {seeds : List Nat}
    (h : PathInv P0 p k powerValue C E P seeds) (x i : Nat)
    (hc : ¬ (ptAt P (nbrAt P0 x i)).class_ ≤ 0) :
    PathInv P0 p k powerValue C (fun y i' => E y i' ∨ (y = x ∧ i' = i)) P seeds := by
  refine ⟨h.lab, h.path, ?_⟩
  intro y i' hE hcl
  rcases hE with hE | ⟨rfl, rfl⟩
  · exact h.closed y i' hE hcl
  · by_contra hnot
    have := h.lab (nbrAt P0 y i')
    rw [if_neg hnot] at this
    rw [this] at hc
    exact hc hcl

theorem pathInv_start (P0 : List (Point α)) (p k : Nat) (powerValue : α) (C : Int)
    (hp : p < P0.length) :
    PathInv P0 p k powerValue C (fun _ _ => False) (setClass P0 p C) [] := by
  refine ⟨?_, ?_, ?_⟩
  · intro j
    rw [class_setClass]
    by_cases hj : p = j
    · rw [if_pos ⟨hj, hp⟩, if_pos (Or.inl hj.symm)]
    · rw [if_neg (fun h' => hj h'.1), if_neg]
      simp only [List.not_mem_nil, or_false]
      exact fun h' => hj h'.symm
  · intro x hx; simp at hx
  · intro x i hE; exact absurd hE id

theorem seedLoop_path (size k p : Nat) (C : Int) (powerValue : α) (P0 : List (Point α))
    (hT : TableOK size k P0) (hp : p < size) (hC : 0 < C) (n : Nat) (hn : n ≤ k) :
    PathInv P0 p k powerValue C (fun y i => y = p ∧ i < n)
      (forRange (seedBody p C) n (setClass P0 p C, [])).1
      (forRange (seedBody p C) n (setClass P0 p C, [])).2 := by
  have hlen : p < P0.length := by rw [hT.len]; exact hp
  have key := forRange_invariant (seedBody p C)
    (fun i r => AbsInv size p C P0 r.1 r.2
      ∧ PathInv P0 p k powerValue C (fun y i' => y = p ∧ i' < i) r.1 r.2) n
    (setClass P0 p C, [])
    ⟨absInv_start C P0 hlen,
      pathInv_mono (pathInv_start P0 p k powerValue C hlen) (fun _ _ h => by omega)⟩ ?_
  · exact key.2
  · intro i r hi ⟨ha, hpi⟩
    have hq : nbrAt P0 p i < size := hT.nb_lt p hp i (by omega)
    have hrl : r.1.length = size := ha.geom.len.trans hT.len
    unfold seedBody
    rw [sameGeom_nbrAt ha.geom]
    split_ifs with hc
    · refine ⟨absInv_absorb ha _ hq hc, ?_⟩
      refine pathInv_mono (pathInv_absorb hC hpi p i (by omega) (Or.inl rfl)
        (by rw [hrl]; exact hq) hc) ?_
      intro y i' ⟨hy, hi'⟩
      rcases Nat.lt_succ_iff_lt_or_eq.mp hi' with h | h
      · exact Or.inl ⟨hy, h⟩
      · exact Or.inr ⟨hy, h⟩
    · refine ⟨ha, ?_⟩
      refine pathInv_mono (pathInv_skip hpi p i hc) ?_
      intro y i' ⟨hy, hi'⟩
      rcases Nat.lt_succ_iff_lt_or_eq.mp hi' with h | h
      · exact Or.inl ⟨hy, h⟩
      · exact Or.inr ⟨hy, h⟩

theorem expandLoop_path (size k p x : Nat) (C : Int) (powerValue : α) (P0 : List (Point α))
    (hT : TableOK size k P0) (hC : 0 < C) (hx : x < size) (s : ExpandState α)
    (hs : ExpInv size p C P0 s) (E0 : Nat → Nat → Prop)
    (hP : PathInv P0 p k powerValue C E0 s.Points s.seeds) (hxs : x ∈ s.seeds)
    (hxe : (ptAt P0 x).Eps ≤ powerValue * (ptAt P0 p).Eps) (n : Nat) (hn : n ≤ k) :
    PathInv P0 p k powerValue C (fun y i => E0 y i ∨ (y = x ∧ i < n))
      (forRange (expandBody x C) n s).Points (forRange (expandBody x C) n s).seeds
    ∧ s.seeds <+: (forRange (expandBody x C) n s).seeds := by
  have key := forRange_invariant (expandBody x C)
    (fun i t => ExpInv size p C P0 t ∧ x ∈ t.seeds ∧ s.seeds <+: t.seeds
      ∧ PathInv P0 p k powerValue C (fun y i' => E0 y i' ∨ (y = x ∧ i' < i)) t.Points t.seeds)
    n s
    ⟨hs, hxs, List.prefix_refl _, pathInv_mono hP (fun y i h => by
      rcases h with h | h
      · exact h
      · omega)⟩ ?_
  · exact ⟨key.2.2.2, key.2.2.1⟩
  · intro i t hi ⟨ht, hxt, hpre, hpi⟩
    have hq : nbrAt P0 x i < size := hT.nb_lt x hx i (by omega)
    have htl : t.Points.length = size := ht.abs.geom.len.trans hT.len
    have hmono : ∀ y i', (E0 y i' ∨ (y = x ∧ i' < i + 1)) →
        ((E0 y i' ∨ (y = x ∧ i' < i)) ∨ (y = x ∧ i' = i)) := by
      intro y i' h
      rcases h with h | ⟨hy, hi'⟩
      · exact Or.inl (Or.inl h)
      · rcases Nat.lt_succ_iff_lt_or_eq.mp hi' with h | h
        · exact Or.inl (Or.inr ⟨hy, h⟩)
        · exact Or.inr ⟨hy, h⟩
    unfold expandBody
    rw [sameGeom_nbrAt ht.abs.geom]
    split_ifs with hc
    · have hc0 : (ptAt t.Points (nbrAt P0 x i)).class_ ≤ 0 := by
        rcases hc with h | h
        · exact h.2
        · omega
      refine ⟨⟨absInv_absorb ht.abs _ hq hc0, ?_⟩, List.mem_append_left _ hxt,
        hpre.trans (List.prefix_append _ _), ?_⟩
      · simp only [List.length_append, List.length_singleton]
        have := ht.count
        omega
      · exact pathInv_mono (pathInv_absorb hC hpi x i (by omega) (Or.inr ⟨hxt, hxe⟩)
          (by rw [htl]; exact hq) hc0) hmono
    · have hc0 : ¬ (ptAt t.Points (nbrAt P0 x i)).class_ ≤ 0 := by
        intro h; exact hc (Or.inl ⟨hC, h⟩)
      exact ⟨ht, hxt, hpre, pathInv_mono (pathInv_skip hpi x i hc0) hmono⟩

theorem mem_take_succ_getD (l : List Nat) (n y : Nat) (hn : n < l.length)
    (hy : y ∈ l.take (n + 1)) : y ∈ l.take n ∨ y = l.getD n 0 := by
  rw [List.take_succ, List.getElem?_eq_getElem hn] at hy
  rcases List.mem_append.mp hy with h | h
  · exact Or.inl h
  · right
    rw [List.getD_eq_getElem _ _ hn]
    simpa using h

theorem whileBody_path (size k p : Nat) (C : Int) (powerValue : α) (P0 : List (Point α))
    (hT : TableOK size k P0) (hC : 0 < C) (s : ExpandState α)
    (hs : ExpInv size p C P0 s)
    (hP : PathInv P0 p k powerValue C
      (fun y i => i < k ∧ (y = p ∨ (y ∈ s.seeds.take s.pointIndex
        ∧ (ptAt P0 y).Eps ≤ powerValue * (ptAt P0 p).Eps))) s.Points s.seeds)
    (hpos : 0 < s.numofElements) :
    PathInv P0 p k powerValue C
      (fun y i => i < k ∧ (y = p ∨
        (y ∈ (whileBody p C k powerValue s).seeds.take (whileBody p C k powerValue s).pointIndex
          ∧ (ptAt P0 y).Eps ≤ powerValue * (ptAt P0 p).Eps)))
      (whileBody p C k powerValue s).Points (whileBody p C k powerValue s).seeds := by
  obtain ⟨hxs, hx⟩ := seeds_getD_lt size p C P0 s hs hpos
  have hlt : s.pointIndex < s.seeds.length := by have := hs.count; omega
  unfold whileBody
  simp only
  rw [hs.abs.geom.eps, hs.abs.geom.eps]
  split_ifs with hc
  · obtain ⟨h1, h2⟩ := expandLoop_path size k p _ C powerValue P0 hT hC hx s hs _ hP hxs hc k
      (le_refl k)
    obtain ⟨_, h3, _, _⟩ := expandLoop_inv size k p _ C P0 hT hx s hs k (le_refl k)
    generalize forRange (expandBody (s.seeds.getD s.pointIndex 0) C) k s = t at h1 h2 h3
    refine pathInv_mono h1 ?_
    intro y i ⟨hi, hy⟩
    rcases hy with hy | ⟨hy, he⟩
    · exact Or.inl ⟨hi, Or.inl hy⟩
    · obtain ⟨extra, hex⟩ := h2
      have htk : t.seeds.take (t.pointIndex + 1) = s.seeds.take (s.pointIndex + 1) := by
        rw [h3, ← hex, List.take_append_of_le_length (by omega)]
      rw [htk] at hy
      rcases mem_take_succ_getD _ _ _ hlt hy with h | h
      · exact Or.inl ⟨hi, Or.inr ⟨h, he⟩⟩
      · exact Or.inr ⟨h, hi⟩
  · refine pathInv_mono hP ?_
    intro y i ⟨hi, hy⟩
    rcases hy with hy | ⟨hy, he⟩
    · exact ⟨hi, Or.inl hy⟩
    · rcases mem_take_succ_getD _ _ _ hlt hy with h | h
      · exact ⟨hi, Or.inr ⟨h, he⟩⟩
      · rw [h] at he; exact absurd he hc

theorem path_closed (P0 : List (Point α)) (p k : Nat) (powerValue : α) (seeds : List Nat)
    (hcl : ∀ y i, i < k →
      (y = p ∨ (y ∈ seeds ∧ (ptAt P0 y).Eps ≤ powerValue * (ptAt P0 p).Eps)) →
      (ptAt P0 (nbrAt P0 y i)).class_ ≤ 0 → nbrAt P0 y i = p ∨ nbrAt P0 y i ∈ seeds) :
    ∀ xs y, (y = p ∨ (y ∈ seeds ∧ (ptAt P0 y).Eps ≤ powerValue * (ptAt P0 p).Eps)) →
      List.Chain (IsNbr P0 k) y xs → (∀ x, x ∈ xs → (ptAt P0 x).class_ ≤ 0) →
      (∀ x, x ∈ xs.dropLast → (ptAt P0 x).Eps ≤ powerValue * (ptAt P0 p).Eps) →
      ∀ q, xs.getLast? = some q → q = p ∨ q ∈ seeds := by
  intro xs
  induction xs with
  | nil => intro y _ _ _ _ q hq; simp at hq
  | cons x rest ih =>
    intro y hy hch hcls heps q hq
    rw [List.chain_cons] at hch
    obtain ⟨⟨i, hi, hnb⟩, hch'⟩ := hch
    have hx : x = p ∨ x ∈ seeds := by
      have := hcl y i hi hy (by rw [hnb]; exact hcls x (List.mem_cons_self _ _))
      rwa [hnb] at this
    cases rest with
    | nil =>
      simp only [List.getLast?_singleton, Option.some.injEq] at hq
      rw [← hq]; exact hx
    | cons z rest' =>
      rw [List.getLast?_cons_cons] at hq
      rw [List.dropLast_cons_of_ne_nil (List.cons_ne_nil _ _)] at heps
      have hxe := heps x (List.mem_cons_self _ _)
      refine ih x ?_ hch' (fun w hw => hcls w (List.mem_cons_of_mem _ hw))
        (fun w hw => heps w (List.mem_cons_of_mem _ hw)) q hq
      rcases hx with hx | hx
      · exact Or.inl hx
      · exact Or.inr ⟨hx, hxe⟩

/-- C5. `ExpandCluster` labels exactly the density-connected set.  On a memory-safe
point table, for a positive id `C` that no point holds before the call, the call
`ExpandCluster(p, C, k, powerValue)` returns, and afterwards a point `q` has label
`C` iff `q = p` or there is a density path from `p` to `q`; every other point keeps
its previous label. -/
theorem ExpandCluster_density_connected (size k p : Nat) (C : Int) (powerValue : α)
    (P0 : List (Point α)) (hT : TableOK size k P0) (hp : p < size) (hC : 0 < C)
    (hfresh : ∀ pt, pt ∈ P0 → pt.class_ ≠ C) :
    ∃ P', ExpandCluster size p C k powerValue P0 = some P'
      ∧ ∀ q, ((ptAt P' q).class_ = C ↔ (q = p ∨ ∃ xs, DensityPath P0 p k powerValue xs q))
        ∧ ((ptAt P' q).class_ ≠ C → (ptAt P' q).class_ = (ptAt P0 q).class_) := by
  have hfresh' : ∀ j, (ptAt P0 j).class_ ≠ C := by
    intro j
    by_cases hj : j < P0.length
    · apply hfresh
      unfold ptAt
      rw [List.getD_eq_getElem _ _ hj]; exact List.getElem_mem _
    · rw [ptAt_of_le P0 j (Nat.le_of_not_lt hj)]
      show (0 : Int) ≠ C
      omega
  obtain ⟨h1, h2⟩ := expandInit_inv size k p C P0 hT hp
  have hJ0 : PathInv P0 p k powerValue C
      (fun y i => i < k ∧ (y = p ∨ (y ∈ (expandInit p C k P0).seeds.take
          (expandInit p C k P0).pointIndex
        ∧ (ptAt P0 y).Eps ≤ powerValue * (ptAt P0 p).Eps)))
      (expandInit p C k P0).Points (expandInit p C k P0).seeds := by
    refine pathInv_mono (seedLoop_path size k p C powerValue P0 hT hp hC k (le_refl k)) ?_
    intro y i ⟨hi, hy⟩
    rcases hy with hy | ⟨hy, _⟩
    · exact ⟨hy, hi⟩
    · simp [expandInit] at hy
  obtain ⟨s', hs', hinv, hJ, hz⟩ :=
    expandWhile_rule size k p C powerValue P0 hT
      (fun s => PathInv P0 p k powerValue C
        (fun y i => i < k ∧ (y = p ∨ (y ∈ s.seeds.take s.pointIndex
          ∧ (ptAt P0 y).Eps ≤ powerValue * (ptAt P0 p).Eps))) s.Points s.seeds)
      (fun s hs hj hpos => whileBody_path size k p C powerValue P0 hT hC s hs hj hpos)
      (size + k + 1) _ h1 hJ0 h2
  refine ⟨s'.Points, by unfold ExpandCluster; rw [hs']; rfl, ?_⟩
  have htake : s'.seeds.take s'.pointIndex = s'.seeds := by
    have := hinv.count
    rw [hz, Nat.zero_add] at this
    rw [this, List.take_length]
  simp only [htake] at hJ
  have hclosed := path_closed P0 p k powerValue s'.seeds
    (fun y i hi hy hc => hJ.closed y i ⟨hi, hy⟩ hc)
  have hlab : ∀ q, (ptAt s'.Points q).class_ = C ↔ (q = p ∨ q ∈ s'.seeds) := by
    intro q
    rw [hJ.lab q]
    by_cases hq : q = p ∨ q ∈ s'.seeds
    · simp [hq]
    · rw [if_neg hq]
      exact ⟨fun h => absurd h (hfresh' q), fun h => absurd h hq⟩
  intro q
  refine ⟨?_, ?_⟩
  · rw [hlab q]
    constructor
    · rintro (h | h)
      · exact Or.inl h
      · exact Or.inr (hJ.path q h)
    · rintro (h | ⟨xs, hc, hcls, heps, hlast⟩)
      · exact Or.inl h
      · exact hclosed xs p (Or.inl rfl) hc hcls heps q hlast
  · intro hne
    have hq : ¬ (q = p ∨ q ∈ s'.seeds) := fun h => hne ((hlab q).mpr h)
    rw [hJ.lab q, if_neg hq]
/-- C5, witness: the expansion from point 1 in the table of the five points at the
positions 0, 1, 2, 3, 100 (`k = 2`, `powerValue = 2`). -/
theorem ExpandCluster_density_connected_witness :
    ∃ P', ExpandCluster 5 1 1 2 2 scenarioPoints = some P'
      ∧ ∀ q, ((ptAt P' q).class_ = 1 ↔ (q = 1 ∨ ∃ xs, DensityPath scenarioPoints 1 2 2 xs q))
        ∧ ((ptAt P' q).class_ ≠ 1 → (ptAt P' q).class_ = (ptAt scenarioPoints q).class_) :=
  ExpandCluster_density_connected 5 2 1 1 2 scenarioPoints ⟨rfl, by decide⟩ (by decide)
    (by decide) (by decide)

end PathProofs

/-! ## `LSDBC`: the sweeps -/

section SweepProofs

variable {α : Type} [LinearOrder α] [Zero α] [Mul α]

theorem forRangeM_invariant {σ : Type} (body : Nat → σ → Option σ) (I : Nat → σ → Prop)
    (n : Nat) (s : σ) (h0 : I 0 s)
    (hstep : ∀ i t, i < n → I i t → ∃ t', body i t = some t' ∧ I (i + 1) t') :
    ∃ t, forRangeM body n s = some t ∧ I n t := by
  induction n with
  | zero => exact ⟨s, rfl, h0⟩
  | succ n ih =>
    obtain ⟨t, ht, hI⟩ := ih (fun i t hi => hstep i t (Nat.lt_succ_of_lt hi))
    obtain ⟨t', ht', hI'⟩ := hstep n t (Nat.lt_succ_self n) hI
    refine ⟨t', ?_, hI'⟩
    simp only [forRangeM, ht]
    exact ht'

theorem ptAt_map_range (f : Nat → Point α) (n i : Nat) (hi : i < n) :
    ptAt ((List.range n).map f) i = f i := by
  unfold ptAt
  rw [List.getD_eq_getElem?_getD, List.getElem?_map, List.getElem?_range hi]
  rfl

theorem initPoints_tableOK (DBL_MAX : α) (D : DMat α) (k : Nat) (hk1 : 1 ≤ k)
    (hk : k ≤ D.numPoints) : TableOK D.numPoints k (initPoints DBL_MAX D k) := by
  refine ⟨by simp [initPoints], ?_⟩
  intro j hj i hi
  unfold nbrAt initPoints
  rw [ptAt_map_range _ _ j hj]
  simp only [kNNDistVal]
  have hlen : ((List.range k).map fun i =>
      (nodeAt (kNNFinal DBL_MAX (D.value.getD j []) D.numPoints j k).minKMatrix i).pointNum).length
      = k := by simp
  rw [List.getD_eq_getElem _ _ (by rw [hlen]; exact hi)]
  simp only [List.getElem_map, List.getElem_range]
  exact (knnInv_final DBL_MAX (D.value.getD j []) D.numPoints j k hk1 hk).bound i hi

theorem initPoints_class (DBL_MAX : α) (D : DMat α) (k j : Nat) :
    (ptAt (initPoints DBL_MAX D k) j).class_ = 0 := by
  by_cases hj : j < D.numPoints
  · unfold initPoints
    rw [ptAt_map_range _ _ j hj]
  · rw [ptAt_of_le _ _ (by simp [initPoints]; omega)]
    rfl

/-- What the sweeps need of the sorted rank array: it has `size` entries, each
naming a point, and every point is named by some entry. -/
theorem ranks_of_perm (Points : List (Point α)) (size : Nat) (E : List (Node α))
    (hE : E.Perm (initEpsMatrix Points size)) :
    (∀ i, i < size → (nodeAt E i).pointNum < size)
    ∧ (∀ j, j < size → ∃ i, i < size ∧ (nodeAt E i).pointNum = j) := by
  have hlen : E.length = size := by rw [hE.length_eq]; simp [initEpsMatrix]
  constructor
  · intro i hi
    have hmem : nodeAt E i ∈ E := by
      unfold nodeAt
      rw [List.getD_eq_getElem _ _ (by rw [hlen]; exact hi)]; exact List.getElem_mem _
    have := hE.mem_iff.mp hmem
    simp only [initEpsMatrix, List.mem_map, List.mem_range] at this
    obtain ⟨a, ha, hx⟩ := this
    rw [← hx]; exact ha
  · intro j hj
    have hmem : (⟨(ptAt Points j).Eps, j⟩ : Node α) ∈ E := by
      apply hE.mem_iff.mpr
      simp only [initEpsMatrix, List.mem_map, List.mem_range]
      exact ⟨j, hj, rfl⟩
    obtain ⟨i, hi, hx⟩ := List.mem_iff_getElem.mp hmem
    refine ⟨i, by rw [← hlen]; exact hi, ?_⟩
    unfold nodeAt
    rw [List.getD_eq_getElem _ _ hi, hx]
theorem idsUpTo_succ (c : Int) (hc : 0 ≤ c) : idsUpTo (c + 1) = idsUpTo c ++ [c + 1] := by
  unfold idsUpTo
  have h1 : (c + 1).toNat = c.toNat + 1 := by omega
  rw [h1, List.range_succ, List.map_append]
  simp only [List.map_cons, List.map_nil, List.append_cancel_left_eq, List.cons.injEq,
    and_true, Int.ofNat_eq_coe]
  omega

theorem mem_idsUpTo (c x : Int) : x ∈ idsUpTo c ↔ 1 ≤ x ∧ x ≤ c := by
  unfold idsUpTo
  simp only [List.mem_map, List.mem_range, Int.ofNat_eq_coe]
  constructor
  · rintro ⟨i, hi, rfl⟩; omega
  · intro h
    exact ⟨(x - 1).toNat, by omega, by omega⟩

theorem primarySweep_succ (E : List (Node α)) (size k : Nat) (powerValue : α) (m : Nat)
    (P0 : List (Point α)) :
    primarySweep E size k powerValue (m + 1) P0
      = (primarySweep E size k powerValue m P0).bind (mainBody E size k powerValue m) := rfl

theorem noiseSweep_succ (E : List (Node α)) (size k : Nat) (powerValue : α) (m : Nat)
    (P0 : List (Point α)) :
    noiseSweep E size k powerValue (m + 1) P0
      = (noiseSweep E size k powerValue m P0).bind (noiseBody E size k powerValue m) := rfl

/-- Invariant of the main loop of `LSDBC` after `m` ranks: the loop has not failed,
only labels changed, the labels lie in `0 .. id - 1`, every id in `1 .. id - 1` is
the label of some point, and the ids passed to `ExpandCluster` so far are
`1, ..., id - 1` in this order. -/
theorem primarySweep_inv (E : List (Node α)) (size k : Nat) (powerValue : α)
    (P0 : List (Point α)) (hT : TableOK size k P0)
    (hE : ∀ i, i < size → (nodeAt E i).pointNum < size)
    (h0 : ∀ j, (ptAt P0 j).class_ = 0) (m : Nat) (hm : m ≤ size) :
    ∃ s, primarySweep E size k powerValue m P0 = some s ∧ SameGeom P0 s.Points ∧ 1 ≤ s.id
      ∧ (∀ j, 0 ≤ (ptAt s.Points j).class_ ∧ (ptAt s.Points j).class_ < s.id)
      ∧ (∀ c, 1 ≤ c → c < s.id → ∃ j, j < size ∧ (ptAt s.Points j).class_ = c)
      ∧ primaryCallIds E size k powerValue P0 m = idsUpTo (s.id - 1) := by
  induction m with
  | zero =>
    refine ⟨⟨P0, 1⟩, rfl, sameGeom_refl P0, le_refl _, ?_, ?_, rfl⟩
    · intro j; simp only [h0 j]; omega
    · intro c h1 h2; simp only at h2; omega
  | succ m ih =>
    obtain ⟨s, hs, hg, hid, hrange, hall, hcalls⟩ := ih (by omega)
    have hp : (nodeAt E m).pointNum < size := hE m (by omega)
    rw [primarySweep_succ, hs, Option.some_bind]
    unfold primaryCallIds
    rw [hs]
    simp only
    unfold mainBody
    by_cases hc : (ptAt s.Points (nodeAt E m).pointNum).class_ = 0
        ∧ localMax s.Points (nodeAt E m).pointNum k ≠ 0
    · rw [if_pos hc, if_pos hc]
      obtain ⟨P', hP', hg', hcls, hpos, hseed⟩ :=
        ExpandCluster_frame size k (nodeAt E m).pointNum s.id powerValue s.Points
          (tableOK_of_sameGeom hT hg) hp
      rw [hP']
      refine ⟨⟨P', s.id + 1⟩, rfl, sameGeom_trans hg hg', by simp only; omega, ?_, ?_, ?_⟩
      · intro j
        have := hrange j
        rcases hcls j with h | h
        · rw [h]; simp only; omega
        · rw [h]; simp only; omega
      · intro c h1 h2
        simp only at h2
        by_cases hcid : c < s.id
        · obtain ⟨j, hj, hjc⟩ := hall c h1 hcid
          refine ⟨j, hj, ?_⟩
          have hjp : j ≠ (nodeAt E m).pointNum := by
            intro h; rw [h, hc.1] at hjc; omega
          rw [hpos j hjp (by omega), hjc]
        · exact ⟨_, hp, by rw [hseed]; omega⟩
      · rw [hcalls]
        have := idsUpTo_succ (s.id - 1) (by omega)
        simp only [Int.sub_add_cancel] at this
        simp only [Int.add_sub_cancel]
        exact this.symm
    · rw [if_neg hc, if_neg hc]
      exact ⟨s, rfl, hg, hid, hrange, hall, hcalls⟩

/-- Invariant of the noise loop of `LSDBC` after `m` ranks, started on the table
`P1`: the loop has not failed, only labels changed, the id is negative, positive
labels are kept, labels that were not positive stay so, non-zero labels stay
non-zero, and the points of the ranks visited so far have non-zero labels. -/
theorem noiseSweep_inv (E : List (Node α)) (size k : Nat) (powerValue : α)
    (P1 : List (Point α)) (hT : TableOK size k P1)
    (hE : ∀ i, i < size → (nodeAt E i).pointNum < size) (m : Nat) (hm : m ≤ size) :
    ∃ s, noiseSweep E size k powerValue m P1 = some s ∧ SameGeom P1 s.Points ∧ s.id ≤ -1
      ∧ (∀ j, 0 < (ptAt P1 j).class_ → (ptAt s.Points j).class_ = (ptAt P1 j).class_)
      ∧ (∀ j, (ptAt P1 j).class_ ≤ 0 → (ptAt s.Points j).class_ ≤ 0)
      ∧ (∀ j, (ptAt P1 j).class_ ≠ 0 → (ptAt s.Points j).class_ ≠ 0)
      ∧ (∀ i, i < m → (ptAt s.Points (nodeAt E i).pointNum).class_ ≠ 0) := by
  induction m with
  | zero =>
    exact ⟨⟨P1, -1⟩, rfl, sameGeom_refl P1, le_refl _, fun _ _ => rfl, fun _ h => h,
      fun _ h => h, fun i hi => by omega⟩
  | succ m ih =>
    obtain ⟨s, hs, hg, hid, hpos, hnp, hnz, hvis⟩ := ih (by omega)
    have hp : (nodeAt E m).pointNum < size := hE m (by omega)
    rw [noiseSweep_succ, hs, Option.some_bind]
    unfold noiseBody
    by_cases hc : (ptAt s.Points (nodeAt E m).pointNum).class_ = 0
    · rw [if_pos hc]
      obtain ⟨P', hP', hg', hcls, hpos', hseed⟩ :=
        ExpandCluster_frame size k (nodeAt E m).pointNum s.id powerValue s.Points
          (tableOK_of_sameGeom hT hg) hp
      rw [hP']
      have hkeep : ∀ j, 0 < (ptAt s.Points j).class_ →
          (ptAt P' j).class_ = (ptAt s.Points j).class_ := by
        intro j hj
        apply hpos' j _ hj
        intro h; rw [h, hc] at hj; omega
      have hnz' : ∀ j, (ptAt s.Points j).class_ ≠ 0 → (ptAt P' j).class_ ≠ 0 := by
        intro j hj
        rcases hcls j with h | h
        · rw [h]; exact hj
        · rw [h]; omega
      refine ⟨⟨P', s.id - 1⟩, rfl, sameGeom_trans hg hg', by simp only; omega, ?_, ?_, ?_, ?_⟩
      · intro j hj
        have := hpos j hj
        simp only
        rw [hkeep j (by omega), this]
      · intro j hj
        have := hnp j hj
        simp only
        rcases hcls j with h | h
        · rw [h]; exact this
        · rw [h]; omega
      · intro j hj
        exact hnz' j (hnz j hj)
      · intro i hi
        simp only
        rcases Nat.lt_succ_iff_lt_or_eq.mp hi with h | h
        · exact hnz' _ (hvis i h)
        · rw [h, hseed]; omega
    · rw [if_neg hc]
      refine ⟨s, rfl, hg, hid, hpos, hnp, hnz, ?_⟩
      intro i hi
      rcases Nat.lt_succ_iff_lt_or_eq.mp hi with h | h
      · exact hvis i h
      · rw [h]; exact hc

/-- The label that the final loop leaves on a point whose label was `c`. -/
theorem finalLoop_inv (N : Int) (size : Nat) (P : List (Point α)) (hlen : P.length = size)
    (m : Nat) (hm : m ≤ size) :
    SameGeom P (forRange (finalBody N) m ⟨P, 0, []⟩).Points
    ∧ (forRange (finalBody N) m ⟨P, 0, []⟩).printed
        = (List.range m).map
            (fun j => if (ptAt P j).class_ = 0 then N else (ptAt P j).class_)
    ∧ (∀ j, (ptAt (forRange (finalBody N) m ⟨P, 0, []⟩).Points j).class_
        = if j < m ∧ (ptAt P j).class_ = 0 then N else (ptAt P j).class_)
    ∧ (forRange (finalBody N) m ⟨P, 0, []⟩).numofNoise
        = (((List.range m).filter fun j => (ptAt P j).class_ ≤ 0).length : Int) := by
  induction m with
  | zero =>
    refine ⟨sameGeom_refl P, rfl, ?_, rfl⟩
    intro j; simp [forRange]
  | succ m ih =>
    obtain ⟨hg, hpr, hcl, hnn⟩ := ih (by omega)
    simp only [forRange]
    generalize forRange (finalBody N) m (⟨P, 0, []⟩ : FinalState α) = f at hg hpr hcl hnn
    have hm' : m < f.Points.length := by rw [hg.len, hlen]; omega
    have hcm : (ptAt f.Points m).class_ = (ptAt P m).class_ := by
      rw [hcl m, if_neg (by omega)]
    unfold finalBody
    simp only [hcm]
    by_cases hle : (ptAt P m).class_ ≤ 0
    · by_cases hz : (ptAt P m).class_ = 0
      · simp only [hle, hz, if_true, le_refl]
        refine ⟨sameGeom_trans hg (sameGeom_setClass _ _ _), ?_, ?_, ?_⟩
        · rw [hpr, List.range_succ, List.map_append, class_setClass_self _ _ _ hm']
          simp [hz]
        · intro j
          rw [class_setClass, hcl j]
          by_cases hj : m = j
          · subst hj
            simp [hm', hz]
          · have : ¬ (m = j ∧ m < f.Points.length) := fun h => hj h.1
            rw [if_neg this]
            by_cases hjm : j < m
            · have : j < m + 1 := by omega
              simp [hjm, this]
            · have : ¬ j < m + 1 := by omega
              simp [hjm, this]
        · rw [hnn, List.range_succ, List.filter_append]
          simp [hz]
      · simp only [hle, hz, if_true, if_false]
        refine ⟨hg, ?_, ?_, ?_⟩
        · rw [hpr, List.range_succ, List.map_append, hcm]
          simp [hz]
        · intro j
          rw [hcl j]
          by_cases hj : j = m
          · subst hj; simp [hz]
          · by_cases hjm : j < m
            · have : j < m + 1 := by omega
              simp [hjm, this]
            · have : ¬ j < m + 1 := by omega
              simp [hjm, this]
        · rw [hnn, List.range_succ, List.filter_append]
          simp [hle]
    · have hz : ¬ (ptAt P m).class_ = 0 := by omega
      simp only [hle, if_false]
      refine ⟨hg, ?_, ?_, ?_⟩
      · rw [hpr, List.range_succ, List.map_append, hcm]
        simp [hz]
      · intro j
        rw [hcl j]
        by_cases hj : j = m
        · subst hj; simp [hz]
        · by_cases hjm : j < m
          · have : j < m + 1 := by omega
            simp [hjm, this]
          · have : ¬ j < m + 1 := by omega
            simp [hjm, this]
      · rw [hnn, List.range_succ, List.filter_append]
        simp [hle]
/-- One run of `LSDBC` on `1 ≤ k ≤ n` with a rank array that is a permutation: the
run returns; the label line is `L 0, ..., L (n-1)` for the final labels `L`, which
are non-zero, agree with the labels after the main loop where those are positive
and are not positive elsewhere. -/
theorem LSDBC_run (qsort : List (Node α) → List (Node α)) (DBL_MAX : α) (clusterNoise : Int)
    (D : DMat α) (k : Nat) (powerValue : α) (hk1 : 1 ≤ k) (hk : k ≤ D.numPoints)
    (hq : (qsort (initEpsMatrix (initPoints DBL_MAX D k) D.numPoints)).Perm
      (initEpsMatrix (initPoints DBL_MAX D k) D.numPoints)) :
    ∃ s1 r L,
      primarySweep (qsort (initEpsMatrix (initPoints DBL_MAX D k) D.numPoints)) D.numPoints k
        powerValue D.numPoints (initPoints DBL_MAX D k) = some s1
      ∧ LSDBC qsort DBL_MAX clusterNoise D k powerValue = some r
      ∧ r.clusters = s1.id - 1
      ∧ r.labels = (List.range D.numPoints).map L
      ∧ (∀ j, j < D.numPoints → (ptAt r.Points j).class_ = L j)
      ∧ (∀ j, j < D.numPoints → L j ≠ 0)
      ∧ (∀ j, 0 < (ptAt s1.Points j).class_ → L j = (ptAt s1.Points j).class_)
      ∧ (∀ j, (ptAt s1.Points j).class_ ≤ 0 → L j ≤ 0)
      ∧ (clusterNoise ≠ 0 → ∃ s2,
          noiseSweep (qsort (initEpsMatrix (initPoints DBL_MAX D k) D.numPoints)) D.numPoints k
            powerValue D.numPoints s1.Points = some s2
          ∧ ∀ j, j < D.numPoints → (ptAt s2.Points j).class_ ≠ 0) := by
  have hT := initPoints_tableOK DBL_MAX D k hk1 hk
  obtain ⟨hE, hcov⟩ := ranks_of_perm _ _ _ hq
  obtain ⟨s1, hs1, hg1, hid1, hr1, _, _⟩ :=
    primarySweep_inv _ D.numPoints k powerValue _ hT hE (initPoints_class DBL_MAX D k)
      D.numPoints (le_refl _)
  have hT1 := tableOK_of_sameGeom hT hg1
  by_cases hcn : clusterNoise ≠ 0
  · obtain ⟨s2, hs2, hg2, hid2, hpos2, hnp2, _, hvis2⟩ :=
      noiseSweep_inv _ D.numPoints k powerValue s1.Points hT1 hE D.numPoints (le_refl _)
    have hnz : ∀ j, j < D.numPoints → (ptAt s2.Points j).class_ ≠ 0 := by
      intro j hj
      obtain ⟨i, hi, hij⟩ := hcov j hj
      rw [← hij]; exact hvis2 i hi
    obtain ⟨_, hpr, hcl, _⟩ :=
      finalLoop_inv (s2.id + 1) D.numPoints s2.Points (hg2.len.trans hT1.len) D.numPoints
        (le_refl _)
    refine ⟨s1,
      ⟨s1.id - 1, some (-(s2.id + 1)),
        (forRange (finalBody (s2.id + 1)) D.numPoints ⟨s2.Points, 0, []⟩).printed,
        (forRange (finalBody (s2.id + 1)) D.numPoints ⟨s2.Points, 0, []⟩).numofNoise,
        (forRange (finalBody (s2.id + 1)) D.numPoints ⟨s2.Points, 0, []⟩).Points⟩,
      fun j => (ptAt s2.Points j).class_, hs1, ?_, rfl, ?_, ?_, hnz, ?_, ?_, ?_⟩
    · unfold LSDBC
      simp only [hs1, Option.some_bind, if_pos hcn, hs2, Option.map_some']
    · simp only
      rw [hpr]
      apply List.map_congr_left
      intro j hj
      rw [if_neg (hnz j (List.mem_range.mp hj))]
    · intro j hj
      simp only
      rw [hcl j, if_neg (fun h => hnz j hj h.2)]
    · intro j hj; exact hpos2 j hj
    · intro j hj; exact hnp2 j hj
    · intro _; exact ⟨s2, hs2, hnz⟩
  · obtain ⟨_, hpr, hcl, _⟩ :=
      finalLoop_inv (-1) D.numPoints s1.Points (hg1.len.trans hT.len) D.numPoints (le_refl _)
    refine ⟨s1,
      ⟨s1.id - 1, none,
        (forRange (finalBody (-1)) D.numPoints ⟨s1.Points, 0, []⟩).printed,
        (forRange (finalBody (-1)) D.numPoints ⟨s1.Points, 0, []⟩).numofNoise,
        (forRange (finalBody (-1)) D.numPoints ⟨s1.Points, 0, []⟩).Points⟩,
      fun j => if (ptAt s1.Points j).class_ = 0 then -1 else (ptAt s1.Points j).class_,
      hs1, ?_, rfl, hpr, ?_, ?_, ?_, ?_, ?_⟩
    · unfold LSDBC
      simp only [hs1, Option.some_bind, if_neg hcn]
    · intro j hj
      simp only
      rw [hcl j]
      by_cases hz : (ptAt s1.Points j).class_ = 0
      · simp [hj, hz]
      · simp [hz]
    · intro j _
      simp only
      split_ifs with hz
      · omega
      · exact hz
    · intro j hj
      simp only
      rw [if_neg (by omega)]
    · intro j hj
      simp only
      split_ifs
      · omega
      · exact hj
    · intro h; exact absurd h hcn

/-- C8. Total labelling: for `1 ≤ k < n`, with noise clustering enabled or not, and
`qsort` returning a permutation of the rank array, `LSDBC` returns, the label line
has `n` entries, which are the final class labels of the points, and none is zero;
when noise clustering is enabled, no point is labelled 0 after the noise loop. -/
theorem LSDBC_total_labelling (qsort : List (Node α) → List (Node α)) (DBL_MAX : α)
    (clusterNoise : Int) (D : DMat α) (k : Nat) (powerValue : α) (hk1 : 1 ≤ k)
    (hk : k < D.numPoints)
    (hq : (qsort (initEpsMatrix (initPoints DBL_MAX D k) D.numPoints)).Perm
      (initEpsMatrix (initPoints DBL_MAX D k) D.numPoints)) :
    ∃ r, LSDBC qsort DBL_MAX clusterNoise D k powerValue = some r
      ∧ r.labels = (List.range D.numPoints).map (fun j => (ptAt r.Points j).class_)
      ∧ (∀ c, c ∈ r.labels → c ≠ 0)
      ∧ (clusterNoise ≠ 0 → ∃ s1 s2,
          primarySweep (qsort (initEpsMatrix (initPoints DBL_MAX D k) D.numPoints))
            D.numPoints k powerValue D.numPoints (initPoints DBL_MAX D k) = some s1
          ∧ noiseSweep (qsort (initEpsMatrix (initPoints DBL_MAX D k) D.numPoints))
            D.numPoints k powerValue D.numPoints s1.Points = some s2
          ∧ ∀ j, j < D.numPoints → (ptAt s2.Points j).class_ ≠ 0) := by
  obtain ⟨s1, r, L, hs1, hr, _, hlab, hpts, hnz, _, _, hnoise⟩ :=
    LSDBC_run qsort DBL_MAX clusterNoise D k powerValue hk1 (le_of_lt hk) hq
  refine ⟨r, hr, ?_, ?_, ?_⟩
  · rw [hlab]
    apply List.map_congr_left
    intro j hj
    exact (hpts j (List.mem_range.mp hj)).symm
  · intro c hc
    rw [hlab] at hc
    obtain ⟨j, hj, rfl⟩ := List.mem_map.mp hc
    exact hnz j (List.mem_range.mp hj)
  · intro hcn
    obtain ⟨s2, hs2, h⟩ := hnoise hcn
    exact ⟨s1, s2, hs1, hs2, h⟩

/-- C9. Ordinary cluster ids are `1..C` with none skipped or reused: the ids passed
to `ExpandCluster` by the main loop are `1, 2, ..., C` in call order, where `C` is
the reported cluster count, and the positive labels of the label line are exactly
the ids `1, ..., C`. -/
theorem LSDBC_cluster_ids (qsort : List (Node α) → List (Node α)) (DBL_MAX : α)
    (clusterNoise : Int) (D : DMat α) (k : Nat) (powerValue : α) (hk1 : 1 ≤ k)
    (hk : k < D.numPoints)
    (hq : (qsort (initEpsMatrix (initPoints DBL_MAX D k) D.numPoints)).Perm
      (initEpsMatrix (initPoints DBL_MAX D k) D.numPoints)) :
    ∃ r, LSDBC qsort DBL_MAX clusterNoise D k powerValue = some r
      ∧ primaryCallIds (qsort (initEpsMatrix (initPoints DBL_MAX D k) D.numPoints))
          D.numPoints k powerValue (initPoints DBL_MAX D k) D.numPoints = idsUpTo r.clusters
      ∧ ∀ c, (c ∈ r.labels ∧ 0 < c) ↔ (1 ≤ c ∧ c ≤ r.clusters) := by
  obtain ⟨s1, r, L, hs1, hr, hcl, hlab, _, _, hpos, hnp, _⟩ :=
    LSDBC_run qsort DBL_MAX clusterNoise D k powerValue hk1 (le_of_lt hk) hq
  have hT := initPoints_tableOK DBL_MAX D k hk1 (le_of_lt hk)
  obtain ⟨hE, _⟩ := ranks_of_perm _ _ _ hq
  obtain ⟨s1', hs1', _, _, hrange, hall, hcalls⟩ :=
    primarySweep_inv _ D.numPoints k powerValue _ hT hE (initPoints_class DBL_MAX D k)
      D.numPoints (le_refl _)
  rw [hs1] at hs1'
  obtain rfl : s1 = s1' := Option.some.inj hs1'
  refine ⟨r, hr, by rw [hcalls, hcl], ?_⟩
  intro c
  rw [hlab, hcl]
  constructor
  · rintro ⟨hc, hc0⟩
    obtain ⟨j, _, rfl⟩ := List.mem_map.mp hc
    have hs : 0 < (ptAt s1.Points j).class_ := by
      by_contra h
      have := hnp j (by omega)
      omega
    rw [hpos j hs]
    have := hrange j
    omega
  · rintro ⟨h1, h2⟩
    obtain ⟨j, hj, hjc⟩ := hall c h1 (by omega)
    refine ⟨List.mem_map.mpr ⟨j, List.mem_range.mpr hj, ?_⟩, by omega⟩
    rw [hpos j (by omega), hjc]
end SweepProofs

/-! ## Concrete runs -/

section Scenarios

theorem scenario_initPoints :
    initPoints 1000 (lineMatrix [0, 1, 2, 3, 100]) 2 = scenarioPoints := by decide

set_option maxRecDepth 100000 in
theorem scenario_all_orders :
    ∀ l, l ∈ List.permutations' (initEpsMatrix scenarioPoints 5) →
      (LSDBC (fun _ => l) 1000 0 (lineMatrix [0, 1, 2, 3, 100]) 2 2).map
          (fun r => (r.clusters, r.noiseClusters, r.labels, r.numofNoise))
        = some (1, none, [1, 1, 1, 1, -1], 1)
      ∧ ∀ m, m < 6 →
          (primarySweep l 5 2 2 m scenarioPoints).map (fun s => localMax s.Points 4 2)
            = some 0 := by
  decide

/-- C4. The scenario of the specification: on the matrix `|pos i - pos j|` of the
positions 0, 1, 2, 3, 100 with `k = 2`, `powerValue = 2` and noise clustering
disabled, whatever permutation of the rank array `qsort` returns, `LSDBC` reports 1
cluster, the labels 1 1 1 1 -1 and 1 noise point; point 4 fails the peak test at
every stage of the main loop, so it is never a seed. -/
theorem LSDBC_scenario (qsort : List (Node Nat) → List (Node Nat))
    (hq : (qsort (initEpsMatrix (initPoints 1000 (lineMatrix [0, 1, 2, 3, 100]) 2) 5)).Perm
      (initEpsMatrix (initPoints 1000 (lineMatrix [0, 1, 2, 3, 100]) 2) 5)) :
    (LSDBC qsort 1000 0 (lineMatrix [0, 1, 2, 3, 100]) 2 2).map
        (fun r => (r.clusters, r.noiseClusters, r.labels, r.numofNoise))
      = some (1, none, [1, 1, 1, 1, -1], 1)
    ∧ ∀ m, m < 6 →
        (primarySweep (qsort (initEpsMatrix (initPoints 1000 (lineMatrix [0, 1, 2, 3, 100]) 2) 5))
            5 2 2 m (initPoints 1000 (lineMatrix [0, 1, 2, 3, 100]) 2)).map
          (fun s => localMax s.Points 4 2) = some 0 := by
  have hrun : LSDBC qsort 1000 0 (lineMatrix [0, 1, 2, 3, 100]) 2 2
      = LSDBC (fun _ => qsort (initEpsMatrix (initPoints 1000
          (lineMatrix [0, 1, 2, 3, 100]) 2) 5)) 1000 0 (lineMatrix [0, 1, 2, 3, 100]) 2 2 := rfl
  rw [hrun]
  rw [scenario_initPoints] at hq ⊢
  exact scenario_all_orders _ (List.mem_permutations'.mpr hq)

/-- C4, witness: the rank array in ascending order of Eps, point 1 first. -/
theorem LSDBC_scenario_witness :
    (LSDBC (fun _ => [⟨1, 1⟩, ⟨1, 2⟩, ⟨2, 0⟩, ⟨2, 3⟩, ⟨98, 4⟩]) 1000 0
        (lineMatrix [0, 1, 2, 3, 100]) 2 2).map
        (fun r => (r.clusters, r.noiseClusters, r.labels, r.numofNoise))
      = some (1, none, [1, 1, 1, 1, -1], 1)
    ∧ ∀ m, m < 6 →
        (primarySweep ((fun _ => [⟨1, 1⟩, ⟨1, 2⟩, ⟨2, 0⟩, ⟨2, 3⟩, ⟨98, 4⟩])
              (initEpsMatrix (initPoints 1000 (lineMatrix [0, 1, 2, 3, 100]) 2) 5))
            5 2 2 m (initPoints 1000 (lineMatrix [0, 1, 2, 3, 100]) 2)).map
          (fun s => localMax s.Points 4 2) = some 0 :=
  LSDBC_scenario (fun _ => [⟨1, 1⟩, ⟨1, 2⟩, ⟨2, 0⟩, ⟨2, 3⟩, ⟨98, 4⟩]) (by decide)

/-- C6 (code defect). In the noise loop of `LSDBC` on `noiseMatrix` (`k = 1`,
`powerValue = 2`, `clusterNoise = 1`, ranks in ascending order of Eps) the table at
rank 3 is `noiseTable`, and the call `ExpandCluster(4, 3, -2, 1, 2)` made there
relabels point 2 from the noise id -1 to the noise id -2: the first loop of
`ExpandCluster` (line 424) tests `class <= 0` whatever the sign of the id. -/
theorem ExpandCluster_noise_relabels :
    (primarySweep (initEpsMatrix (initPoints 1000 noiseMatrix 1) 4) 4 1 2 4
        (initPoints 1000 noiseMatrix 1)).bind
      (fun s1 => noiseSweep (initEpsMatrix (initPoints 1000 noiseMatrix 1) 4) 4 1 2 3 s1.Points)
      = some ⟨noiseTable, -2⟩
    ∧ (ptAt noiseTable 2).class_ = -1
    ∧ (ExpandCluster 4 3 (-2) 1 2 noiseTable).map (fun P => classes P 4)
        = some [1, 1, -2, -2] := by
  decide

/-- C7 (code defect). In the run of `LSDBC` on `noiseMatrix` with `k = 1`,
`powerValue = 2`, `clusterNoise = 1` and the ranks in ascending order of Eps, point 2
is labelled -1 after three ranks of the noise loop and -2 after the fourth, and -2
is its label in the output: a non-zero label is reassigned. -/
theorem LSDBC_label_reassigned :
    ((primarySweep (initEpsMatrix (initPoints 1000 noiseMatrix 1) 4) 4 1 2 4
        (initPoints 1000 noiseMatrix 1)).bind
      (fun s1 => noiseSweep (initEpsMatrix (initPoints 1000 noiseMatrix 1) 4) 4 1 2 3
        s1.Points)).map (fun s => classes s.Points 4) = some [1, 1, -1, 0]
    ∧ ((primarySweep (initEpsMatrix (initPoints 1000 noiseMatrix 1) 4) 4 1 2 4
        (initPoints 1000 noiseMatrix 1)).bind
      (fun s1 => noiseSweep (initEpsMatrix (initPoints 1000 noiseMatrix 1) 4) 4 1 2 4
        s1.Points)).map (fun s => classes s.Points 4) = some [1, 1, -2, -2]
    ∧ (LSDBC id 1000 1 noiseMatrix 1 2).map
        (fun r => (r.clusters, r.noiseClusters, r.labels, r.numofNoise))
      = some (1, some 2, [1, 1, -2, -2], 2) := by
  decide

/-- C10 (code defect). With `k` equal to the number of points the guard of `main`
does not exit: `LSDBC` is entered with `k = n = 3`, every k-distance is the sentinel
`DBL_MAX` and every point is among its own neighbours. -/
theorem main_accepts_k_eq_numPoints :
    (∃ out, main id 1000 0 (lineMatrix [0, 1, 2]) 3 2 = Except.ok out
      ∧ out = LSDBC id 1000 0 (lineMatrix [0, 1, 2]) 3 2
      ∧ out.map (fun r => (r.clusters, r.labels)) = some (1, [1, 1, 1]))
    ∧ initPoints 1000 (lineMatrix [0, 1, 2]) 3
        = [⟨1000, 0, 0, [0, 1, 2]⟩, ⟨1000, 1, 0, [0, 1, 2]⟩, ⟨1000, 2, 0, [0, 1, 2]⟩] := by
  refine ⟨⟨_, rfl, rfl, by decide⟩, by decide⟩

/-- C8, witness: the five points of the scenario with noise clustering enabled. -/
theorem LSDBC_total_labelling_witness :
    ∃ r, LSDBC id 1000 1 (lineMatrix [0, 1, 2, 3, 100]) 2 2 = some r
      ∧ r.labels = (List.range 5).map (fun j => (ptAt r.Points j).class_)
      ∧ (∀ c, c ∈ r.labels → c ≠ 0)
      ∧ ((1 : Int) ≠ 0 → ∃ s1 s2,
          primarySweep (id (initEpsMatrix (initPoints 1000 (lineMatrix [0, 1, 2, 3, 100]) 2) 5))
            5 2 2 5 (initPoints 1000 (lineMatrix [0, 1, 2, 3, 100]) 2) = some s1
          ∧ noiseSweep (id (initEpsMatrix (initPoints 1000 (lineMatrix [0, 1, 2, 3, 100]) 2) 5))
            5 2 2 5 s1.Points = some s2
          ∧ ∀ j, j < 5 → (ptAt s2.Points j).class_ ≠ 0) :=
  LSDBC_total_labelling id (1000 : Nat) 1 (lineMatrix [0, 1, 2, 3, 100]) 2 2 (by decide)
    (by decide) (List.Perm.refl _)

/-- C9, witness: the four points of `noiseMatrix` with `k = 1`. -/
theorem LSDBC_cluster_ids_witness :
    ∃ r, LSDBC id 1000 0 noiseMatrix 1 2 = some r
      ∧ primaryCallIds (id (initEpsMatrix (initPoints 1000 noiseMatrix 1) 4)) 4 1 2
          (initPoints 1000 noiseMatrix 1) 4 = idsUpTo r.clusters
      ∧ ∀ c, (c ∈ r.labels ∧ 0 < c) ↔ (1 ≤ c ∧ c ≤ r.clusters) :=
  LSDBC_cluster_ids id (1000 : Nat) 0 noiseMatrix 1 2 (by decide) (by decide)
    (List.Perm.refl _)

end Scenarios

/-! ## The boundary `k = n` and the comparator -/

section BoundaryProofs

variable {α : Type} [LinearOrder α] [Zero α] [Mul α]

/-- C20. Boundary `k = n`: called with `k` equal to the row length `n ≥ 1` on a row
whose entries do not exceed `DBL_MAX`, `kNNDistVal` has an empty `restMatrix` (the
scan loop does nothing), writes `DBL_MAX` to `*Eps` and returns the neighbours
`0, 1, ..., n-1`, among them `p` itself; and the guard of `main` lets `k = n`
through to `LSDBC`. -/
theorem kNNDistVal_k_eq_n (DBL_MAX : α) (v : List α) (p : Nat) (hp : p < v.length)
    (hv : ∀ q, q < v.length → q ≠ p → v.getD q 0 ≤ DBL_MAX) :
    initRest v v.length v.length = []
    ∧ kNNDistVal DBL_MAX v v.length p v.length = (DBL_MAX, List.range v.length)
    ∧ p ∈ (kNNDistVal DBL_MAX v v.length p v.length).2
    ∧ ∀ (qsort : List (Node α) → List (Node α)) (clusterNoise : Int) (D : DMat α)
        (powerValue : α),
        main qsort DBL_MAX clusterNoise D D.numPoints powerValue
          = Except.ok (LSDBC qsort DBL_MAX clusterNoise D D.numPoints powerValue) := by
  have hk1 : 1 ≤ v.length := by omega
  have hwin : ∀ i, i < v.length →
      nodeAt (if p < v.length then setVal (initMinK v v.length) p DBL_MAX
        else initMinK v v.length) i = ⟨rowVal DBL_MAX v p i, i⟩ :=
    fun i hi => nodeAt_sentinelMinK DBL_MAX v p v.length i hi
  have hfin : kNNFinal DBL_MAX v v.length p v.length
      = forRange (fun i => maxScanBody (i + 1)) (v.length - 1)
          ⟨if p < v.length then setVal (initMinK v v.length) p DBL_MAX
            else initMinK v v.length,
           (nodeAt (if p < v.length then setVal (initMinK v v.length) p DBL_MAX
            else initMinK v v.length) 0).val, 0⟩ := by
    unfold kNNFinal
    simp only [Nat.sub_self, forRange]
  have inv := knnInv_final DBL_MAX v v.length p v.length hk1 (le_refl _)
  obtain ⟨h1, _, _, _⟩ := maxScan_spec (fun i => i + 1) (v.length - 1)
    (⟨if p < v.length then setVal (initMinK v v.length) p DBL_MAX else initMinK v v.length,
      (nodeAt (if p < v.length then setVal (initMinK v v.length) p DBL_MAX
        else initMinK v v.length) 0).val, 0⟩ : KnnState α)
  rw [← hfin] at h1
  simp only at h1
  have hnb : (kNNDistVal DBL_MAX v v.length p v.length).2 = List.range v.length := by
    unfold kNNDistVal
    simp only
    apply List.ext_getElem (by simp)
    intro i hi1 hi2
    have hi : i < v.length := by simpa using hi2
    simp only [List.getElem_map, List.getElem_range]
    rw [h1, hwin i hi]
  have hle : ∀ i, i < v.length → rowVal DBL_MAX v p i ≤ DBL_MAX := by
    intro i hi
    unfold rowVal
    split_ifs with h
    · exact le_refl _
    · exact hv i hi h
  have heps : (kNNDistVal DBL_MAX v v.length p v.length).1 = DBL_MAX := by
    show (kNNFinal DBL_MAX v v.length p v.length).maxDist = DBL_MAX
    apply le_antisymm
    · rw [← inv.max_eq, h1, hwin _ inv.maxInd_lt]
      exact hle _ inv.maxInd_lt
    · have := inv.max_ge p hp
      rw [h1, hwin p hp] at this
      simpa [rowVal] using this
  refine ⟨by simp [initRest], Prod.ext heps hnb, ?_, ?_⟩
  · rw [hnb]; exact List.mem_range.mpr hp
  · intro qsort clusterNoise D powerValue
    unfold main
    rw [if_neg (lt_irrefl _)]

/-- C20, witness: the row of point 1 among three points at 0, 1, 2 with `k = 3`. -/
theorem kNNDistVal_k_eq_n_witness :
    initRest [1, 0, 1] 3 3 = []
    ∧ kNNDistVal 1000 [1, 0, 1] 3 1 3 = (1000, List.range 3)
    ∧ 1 ∈ (kNNDistVal 1000 [1, 0, 1] 3 1 3).2
    ∧ ∀ (qsort : List (Node Nat) → List (Node Nat)) (clusterNoise : Int) (D : DMat Nat)
        (powerValue : Nat),
        main qsort 1000 clusterNoise D D.numPoints powerValue
          = Except.ok (LSDBC qsort 1000 clusterNoise D D.numPoints powerValue) :=
  kNNDistVal_k_eq_n (1000 : Nat) [1, 0, 1] 1 (by decide) (by decide)

theorem truncate_neg_three_quarters : truncate (-3 / 4) = 0 := by
  unfold truncate
  rw [if_neg (by norm_num), Int.ceil_eq_iff]
  norm_num

theorem truncate_neg_three_halves : truncate (-3 / 2) = -1 := by
  unfold truncate
  rw [if_neg (by norm_num), Int.ceil_eq_iff]
  norm_num

/-- C14. The comparator is unsound: for every `INT_MAX ≥ 1` there are values
`a.val < b.val < c.val` with `compare(a,b) = 0`, `compare(b,c) = 0` and
`compare(a,c) < 0`, where `compare` truncates the exact product
`INT_MAX * (a.val - b.val)`: distinct values are reported equal, and the reported
equality is not transitive. -/
theorem compare_not_transitive (INT_MAX : Int) (h : 1 ≤ INT_MAX) :
    ∃ a b c : Node ℚ, a.val < b.val ∧ b.val < c.val
      ∧ compare INT_MAX a b = some 0 ∧ compare INT_MAX b c = some 0
      ∧ ∃ r, compare INT_MAX a c = some r ∧ r < 0 := by
  have hM : (0 : ℚ) < (INT_MAX : ℚ) := by exact_mod_cast (by omega : (0 : Int) < INT_MAX)
  have hne : (INT_MAX : ℚ) ≠ 0 := ne_of_gt hM
  have e1 : (INT_MAX : ℚ) * (0 - 3 / (4 * (INT_MAX : ℚ))) = -3 / 4 := by
    field_simp; ring
  have e2 : (INT_MAX : ℚ) * (3 / (4 * (INT_MAX : ℚ)) - 3 / (2 * (INT_MAX : ℚ))) = -3 / 4 := by
    field_simp; ring
  have e3 : (INT_MAX : ℚ) * (0 - 3 / (2 * (INT_MAX : ℚ))) = -3 / 2 := by
    field_simp; ring
  refine ⟨⟨0, 0⟩, ⟨3 / (4 * (INT_MAX : ℚ)), 1⟩, ⟨3 / (2 * (INT_MAX : ℚ)), 2⟩, ?_, ?_, ?_, ?_,
    -1, ?_, by omega⟩
  · show (0 : ℚ) < 3 / (4 * (INT_MAX : ℚ))
    positivity
  · show 3 / (4 * (INT_MAX : ℚ)) < 3 / (2 * (INT_MAX : ℚ))
    apply div_lt_div_of_pos_left <;> [norm_num; positivity; linarith]
  · unfold compare
    simp only [e1, truncate_neg_three_quarters]
    rw [if_pos (by omega)]
  · unfold compare
    simp only [e2, truncate_neg_three_quarters]
    rw [if_pos (by omega)]
  · unfold compare
    simp only [e3, truncate_neg_three_halves]
    rw [if_pos (by omega)]

/-- C14, witness: `INT_MAX = 2147483647`. -/
theorem compare_not_transitive_witness :
    ∃ a b c : Node ℚ, a.val < b.val ∧ b.val < c.val
      ∧ compare 2147483647 a b = some 0 ∧ compare 2147483647 b c = some 0
      ∧ ∃ r, compare 2147483647 a c = some r ∧ r < 0 :=
  compare_not_transitive 2147483647 (by decide)

end BoundaryProofs

/-! ## Noise counts and the rank order -/

section NoiseProofs

variable {α : Type} [LinearOrder α] [Zero α] [Mul α]

theorem countClass_eq (f : Int → Bool) (P : List (Point α)) (size : Nat) :
    countClass f P size = ((List.range size).filter fun j => f (ptAt P j).class_).length := by
  unfold countClass classes
  rw [List.filter_map, List.length_map]
  rfl

/-- C12 (amended). The number `K` that `LSDBC` reports as noise points equals the
number of points whose label is `≤ 0` when finalisation begins.  With
`clusterNoise = 0` these are exactly the points still labelled 0; with
`clusterNoise ≠ 0` no point is labelled 0 at that stage. -/
theorem LSDBC_noise_count (qsort : List (Node α) → List (Node α)) (DBL_MAX : α)
    (clusterNoise : Int) (D : DMat α) (k : Nat) (powerValue : α) (hk1 : 1 ≤ k)
    (hk : k < D.numPoints)
    (hq : (qsort (initEpsMatrix (initPoints DBL_MAX D k) D.numPoints)).Perm
      (initEpsMatrix (initPoints DBL_MAX D k) D.numPoints)) :
    ∃ P r, finalInput qsort DBL_MAX clusterNoise D k powerValue = some P
      ∧ LSDBC qsort DBL_MAX clusterNoise D k powerValue = some r
      ∧ r.numofNoise = (countClass (fun c => decide (c ≤ 0)) P D.numPoints : Int)
      ∧ (clusterNoise = 0 →
          r.numofNoise = (countClass (fun c => decide (c = 0)) P D.numPoints : Int))
      ∧ (clusterNoise ≠ 0 → countClass (fun c => decide (c = 0)) P D.numPoints = 0) := by
  have hT := initPoints_tableOK DBL_MAX D k hk1 (le_of_lt hk)
  obtain ⟨hE, hcov⟩ := ranks_of_perm _ _ _ hq
  obtain ⟨s1, hs1, hg1, hid1, hr1, _, _⟩ :=
    primarySweep_inv _ D.numPoints k powerValue _ hT hE (initPoints_class DBL_MAX D k)
      D.numPoints (le_refl _)
  have hT1 := tableOK_of_sameGeom hT hg1
  by_cases hcn : clusterNoise ≠ 0
  · obtain ⟨s2, hs2, hg2, hid2, _, _, _, hvis2⟩ :=
      noiseSweep_inv _ D.numPoints k powerValue s1.Points hT1 hE D.numPoints (le_refl _)
    have hnz : ∀ j, j < D.numPoints → (ptAt s2.Points j).class_ ≠ 0 := by
      intro j hj
      obtain ⟨i, hi, hij⟩ := hcov j hj
      rw [← hij]; exact hvis2 i hi
    obtain ⟨_, _, _, hnn⟩ :=
      finalLoop_inv (s2.id + 1) D.numPoints s2.Points (hg2.len.trans hT1.len) D.numPoints
        (le_refl _)
    refine ⟨s2.Points,
      ⟨s1.id - 1, some (-(s2.id + 1)),
        (forRange (finalBody (s2.id + 1)) D.numPoints ⟨s2.Points, 0, []⟩).printed,
        (forRange (finalBody (s2.id + 1)) D.numPoints ⟨s2.Points, 0, []⟩).numofNoise,
        (forRange (finalBody (s2.id + 1)) D.numPoints ⟨s2.Points, 0, []⟩).Points⟩,
      ?_, ?_, ?_, fun h => absurd h hcn, fun _ => ?_⟩
    · unfold finalInput
      simp only [hs1, Option.some_bind, if_pos hcn, hs2, Option.map_some']
    · unfold LSDBC
      simp only [hs1, Option.some_bind, if_pos hcn, hs2, Option.map_some']
    · simp only [hnn, countClass_eq]
    · rw [countClass_eq, List.length_eq_zero, List.filter_eq_nil_iff]
      intro j hj
      simpa using hnz j (List.mem_range.mp hj)
  · obtain ⟨_, _, _, hnn⟩ :=
      finalLoop_inv (-1) D.numPoints s1.Points (hg1.len.trans hT.len) D.numPoints (le_refl _)
    refine ⟨s1.Points,
      ⟨s1.id - 1, none,
        (forRange (finalBody (-1)) D.numPoints ⟨s1.Points, 0, []⟩).printed,
        (forRange (finalBody (-1)) D.numPoints ⟨s1.Points, 0, []⟩).numofNoise,
        (forRange (finalBody (-1)) D.numPoints ⟨s1.Points, 0, []⟩).Points⟩,
      ?_, ?_, ?_, fun _ => ?_, fun h => absurd h hcn⟩
    · unfold finalInput
      simp only [hs1, Option.some_bind, if_neg hcn]
    · unfold LSDBC
      simp only [hs1, Option.some_bind, if_neg hcn]
    · simp only [hnn, countClass_eq]
    · simp only [hnn, countClass_eq]
      congr 2
      apply List.filter_congr
      intro j _
      have := hr1 j
      simp only [decide_eq_decide]
      omega

/-- C12, witness of the amended claim: the five points of the scenario with noise
clustering enabled. -/
theorem LSDBC_noise_count_witness :
    ∃ P r, finalInput id 1000 1 (lineMatrix [0, 1, 2, 3, 100]) 2 2 = some P
      ∧ LSDBC id 1000 1 (lineMatrix [0, 1, 2, 3, 100]) 2 2 = some r
      ∧ r.numofNoise = (countClass (fun c => decide (c ≤ 0)) P 5 : Int)
      ∧ ((1 : Int) = 0 → r.numofNoise = (countClass (fun c => decide (c = 0)) P 5 : Int))
      ∧ ((1 : Int) ≠ 0 → countClass (fun c => decide (c = 0)) P 5 = 0) :=
  LSDBC_noise_count id (1000 : Nat) 1 (lineMatrix [0, 1, 2, 3, 100]) 2 2 (by decide)
    (by decide) (List.Perm.refl _)

/-- C12, counterexample: on the five points of the scenario with noise clustering
enabled, no point is labelled 0 when finalisation begins, yet `LSDBC` reports 1 noise
point (point 4, which the noise loop labelled -1). -/
theorem LSDBC_noise_count_counterexample :
    (finalInput id 1000 1 (lineMatrix [0, 1, 2, 3, 100]) 2 2).map
        (fun P => (classes P 5, countClass (fun c => decide (c = 0)) P 5))
      = some ([1, 1, 1, 1, -1], 0)
    ∧ (LSDBC id 1000 1 (lineMatrix [0, 1, 2, 3, 100]) 2 2).map (fun r => r.numofNoise)
      = some 1 := by
  decide

/-- C17 (code defect). On `noiseMatrix` with `k = 1`, `powerValue = 2`, noise
clustering enabled and the ranks in ascending order of Eps, `LSDBC` reports 2 noise
clusters, but the label line is 1 1 -2 -2: the id -1 labels no point. -/
theorem LSDBC_noise_id_unused :
    (LSDBC id 1000 1 noiseMatrix 1 2).map
        (fun r => (r.noiseClusters, r.labels, decide (-1 ∈ r.labels)))
      = some (some 2, [1, 1, -2, -2], false) := by
  decide

/-- C11 (code defect). On `closeMatrix` with `k = 1` the rank array is initialised
with the k-distances 1 + 2^-32, 1, 1 of the points 0, 1, 2.  With
`INT_MAX = 2147483647`, `compare` returns 0 on every pair of its entries, so `qsort`
is told that the array is already in order, and leaving it as it is meets the
contract of `qsort`; yet its values are not in non-decreasing order. -/
theorem compare_leaves_ranks_unsorted :
    initEpsMatrix (initPoints 1000 closeMatrix 1) 3 = [⟨1 + 1 / 2 ^ 32, 0⟩, ⟨1, 1⟩, ⟨1, 2⟩]
    ∧ (∀ a, a ∈ initEpsMatrix (initPoints 1000 closeMatrix 1) 3 →
        ∀ b, b ∈ initEpsMatrix (initPoints 1000 closeMatrix 1) 3 →
          compare 2147483647 a b = some 0)
    ∧ ¬ ((initEpsMatrix (initPoints 1000 closeMatrix 1) 3).map fun e => e.val).Sorted
        (· ≤ ·) := by
  decide!

end NoiseProofs

/-! ## Whole runs: peaks and persistence of labels -/

section RunProofs

variable {α : Type} [LinearOrder α] [Zero α] [Mul α]

theorem localMaxLoop_sameGeom {P0 P : List (Point α)} (h : SameGeom P0 P) (j : Nat)
    (is : List Nat) : localMaxLoop P j is = localMaxLoop P0 j is := by
  induction is with
  | nil => rfl
  | cons i is ih =>
    unfold localMaxLoop
    rw [sameGeom_nbrAt h, h.eps, h.eps, ih]

theorem localMax_sameGeom {P0 P : List (Point α)} (h : SameGeom P0 P) (j k : Nat) :
    localMax P j k = localMax P0 j k :=
  localMaxLoop_sameGeom h j _

/-- One iteration of the main loop of `LSDBC`, at rank `m`: either the test of line
283 fails and nothing changes, or it holds and `ExpandCluster` is called on a seed
labelled 0 with the id `s.id`. -/
theorem primarySweep_step (E : List (Node α)) (size k : Nat) (powerValue : α)
    (P0 : List (Point α)) (hT : TableOK size k P0)
    (hE : ∀ i, i < size → (nodeAt E i).pointNum < size)
    (h0 : ∀ j, (ptAt P0 j).class_ = 0) (m : Nat) (hm : m < size) :
    ∃ s s', primarySweep E size k powerValue m P0 = some s
      ∧ primarySweep E size k powerValue (m + 1) P0 = some s'
      ∧ SameGeom P0 s.Points ∧ SameGeom P0 s'.Points ∧ 1 ≤ s.id
      ∧ (∀ j, 0 ≤ (ptAt s.Points j).class_ ∧ (ptAt s.Points j).class_ < s.id)
      ∧ ((¬ ((ptAt s.Points (nodeAt E m).pointNum).class_ = 0
              ∧ localMax s.Points (nodeAt E m).pointNum k ≠ 0) ∧ s' = s)
        ∨ ((ptAt s.Points (nodeAt E m).pointNum).class_ = 0
            ∧ localMax s.Points (nodeAt E m).pointNum k ≠ 0
            ∧ s'.id = s.id + 1
            ∧ (∀ j, (ptAt s'.Points j).class_ = (ptAt s.Points j).class_
                ∨ (ptAt s'.Points j).class_ = s.id)
            ∧ (∀ j, 0 < (ptAt s.Points j).class_ →
                (ptAt s'.Points j).class_ = (ptAt s.Points j).class_)
            ∧ (ptAt s'.Points (nodeAt E m).pointNum).class_ = s.id)) := by
  obtain ⟨s, hs, hg, hid, hrange, _, _⟩ :=
    primarySweep_inv E size k powerValue P0 hT hE h0 m (le_of_lt hm)
  have hp : (nodeAt E m).pointNum < size := hE m hm
  by_cases hc : (ptAt s.Points (nodeAt E m).pointNum).class_ = 0
      ∧ localMax s.Points (nodeAt E m).pointNum k ≠ 0
  · obtain ⟨P', hP', hg', hcls, hpos, hseed⟩ :=
      ExpandCluster_frame size k (nodeAt E m).pointNum s.id powerValue s.Points
        (tableOK_of_sameGeom hT hg) hp
    refine ⟨s, ⟨P', s.id + 1⟩, hs, ?_, hg, sameGeom_trans hg hg', hid, hrange,
      Or.inr ⟨hc.1, hc.2, rfl, hcls, ?_, hseed⟩⟩
    · rw [primarySweep_succ, hs, Option.some_bind]
      unfold mainBody
      rw [if_pos hc, hP']; rfl
    · intro j hj
      apply hpos j _ hj
      intro h; rw [h, hc.1] at hj; omega
  · refine ⟨s, s, hs, ?_, hg, hg, hid, hrange, Or.inl ⟨hc, rfl⟩⟩
    rw [primarySweep_succ, hs, Option.some_bind]
    unfold mainBody
    rw [if_neg hc]

/-- Positive labels persist through the main loop. -/
theorem primarySweep_keeps (E : List (Node α)) (size k : Nat) (powerValue : α)
    (P0 : List (Point α)) (hT : TableOK size k P0)
    (hE : ∀ i, i < size → (nodeAt E i).pointNum < size)
    (h0 : ∀ j, (ptAt P0 j).class_ = 0) (m : Nat) (d : Nat) (hm : m + d ≤ size) :
    ∃ s s', primarySweep E size k powerValue m P0 = some s
      ∧ primarySweep E size k powerValue (m + d) P0 = some s'
      ∧ ∀ j, 0 < (ptAt s.Points j).class_ →
          (ptAt s'.Points j).class_ = (ptAt s.Points j).class_ := by
  induction d with
  | zero =>
    obtain ⟨s, hs, _⟩ := primarySweep_inv E size k powerValue P0 hT hE h0 m (by omega)
    exact ⟨s, s, hs, hs, fun _ _ => rfl⟩
  | succ d ih =>
    obtain ⟨s, s', hs, hs', hkeep⟩ := ih (by omega)
    obtain ⟨t, t', ht, ht', _, _, _, _, hstep⟩ :=
      primarySweep_step E size k powerValue P0 hT hE h0 (m + d) (by omega)
    rw [hs'] at ht
    obtain rfl : s' = t := Option.some.inj ht
    refine ⟨s, t', hs, ht', ?_⟩
    intro j hj
    have h1 := hkeep j hj
    rcases hstep with ⟨_, rfl⟩ | ⟨_, _, _, _, hpos, _⟩
    · exact h1
    · rw [hpos j (by omega), h1]

/-- The table that `LSDBC` leaves behind differs from the initial one in labels
only. -/
theorem LSDBC_sameGeom (qsort : List (Node α) → List (Node α)) (DBL_MAX : α)
    (clusterNoise : Int) (D : DMat α) (k : Nat) (powerValue : α) (hk1 : 1 ≤ k)
    (hk : k ≤ D.numPoints)
    (hq : (qsort (initEpsMatrix (initPoints DBL_MAX D k) D.numPoints)).Perm
      (initEpsMatrix (initPoints DBL_MAX D k) D.numPoints)) :
    ∃ r, LSDBC qsort DBL_MAX clusterNoise D k powerValue = some r
      ∧ SameGeom (initPoints DBL_MAX D k) r.Points := by
  have hT := initPoints_tableOK DBL_MAX D k hk1 hk
  obtain ⟨hE, _⟩ := ranks_of_perm _ _ _ hq
  obtain ⟨s1, hs1, hg1, _⟩ :=
    primarySweep_inv _ D.numPoints k powerValue _ hT hE (initPoints_class DBL_MAX D k)
      D.numPoints (le_refl _)
  have hT1 := tableOK_of_sameGeom hT hg1
  by_cases hcn : clusterNoise ≠ 0
  · obtain ⟨s2, hs2, hg2, _⟩ :=
      noiseSweep_inv _ D.numPoints k powerValue s1.Points hT1 hE D.numPoints (le_refl _)
    obtain ⟨hgf, _⟩ :=
      finalLoop_inv (s2.id + 1) D.numPoints s2.Points (hg2.len.trans hT1.len) D.numPoints
        (le_refl _)
    refine ⟨⟨s1.id - 1, some (-(s2.id + 1)),
        (forRange (finalBody (s2.id + 1)) D.numPoints ⟨s2.Points, 0, []⟩).printed,
        (forRange (finalBody (s2.id + 1)) D.numPoints ⟨s2.Points, 0, []⟩).numofNoise,
        (forRange (finalBody (s2.id + 1)) D.numPoints ⟨s2.Points, 0, []⟩).Points⟩, ?_,
      sameGeom_trans hg1 (sameGeom_trans hg2 hgf)⟩
    unfold LSDBC
    simp only [hs1, Option.some_bind, if_pos hcn, hs2, Option.map_some']
  · obtain ⟨hgf, _⟩ :=
      finalLoop_inv (-1) D.numPoints s1.Points (hg1.len.trans hT.len) D.numPoints (le_refl _)
    refine ⟨⟨s1.id - 1, none,
        (forRange (finalBody (-1)) D.numPoints ⟨s1.Points, 0, []⟩).printed,
        (forRange (finalBody (-1)) D.numPoints ⟨s1.Points, 0, []⟩).numofNoise,
        (forRange (finalBody (-1)) D.numPoints ⟨s1.Points, 0, []⟩).Points⟩, ?_,
      sameGeom_trans hg1 hgf⟩
    unfold LSDBC
    simp only [hs1, Option.some_bind, if_neg hcn]

theorem sameGeom_symm {P0 P : List (Point α)} (h : SameGeom P0 P) : SameGeom P P0 :=
  ⟨h.len.symm, fun j => (h.eps j).symm, fun j => (h.nbs j).symm, fun j => (h.num j).symm⟩

/-- One iteration of the noise loop of `LSDBC`, started on the table `P1`: the
iteration returns, changes labels only, keeps every positive label, and a label
that is positive before or after it was already positive in `P1`. -/
theorem noiseSweep_step (E : List (Node α)) (size k : Nat) (powerValue : α)
    (P1 : List (Point α)) (hT : TableOK size k P1)
    (hE : ∀ i, i < size → (nodeAt E i).pointNum < size) (m : Nat) (hm : m < size) :
    ∃ s s', noiseSweep E size k powerValue m P1 = some s
      ∧ noiseSweep E size k powerValue (m + 1) P1 = some s'
      ∧ SameGeom s.Points s'.Points
      ∧ (∀ j, 0 < (ptAt s.Points j).class_ →
          (ptAt s'.Points j).class_ = (ptAt s.Points j).class_)
      ∧ (∀ j, 0 < (ptAt s.Points j).class_ →
          (ptAt s.Points j).class_ = (ptAt P1 j).class_) := by
  obtain ⟨s, hs, hg, _, hpos, hnp, _, _⟩ :=
    noiseSweep_inv E size k powerValue P1 hT hE m (le_of_lt hm)
  obtain ⟨s', hs', hg', _, hpos', _, _, _⟩ :=
    noiseSweep_inv E size k powerValue P1 hT hE (m + 1) hm
  have hback : ∀ j, 0 < (ptAt s.Points j).class_ → 0 < (ptAt P1 j).class_ := by
    intro j hj
    by_contra h
    have := hnp j (by omega)
    omega
  refine ⟨s, s', hs, hs', sameGeom_trans (sameGeom_symm hg) hg', ?_, ?_⟩
  · intro j hj
    rw [hpos' j (hback j hj), hpos j (hback j hj)]
  · intro j hj
    exact hpos j (hback j hj)

/-- C15. Positive labels are final.  A call of `ExpandCluster` on a memory-safe
table returns and changes no Eps and no neighbour array; it keeps the positive
label of every point other than the seed, and of every point when the seed is not
positively labelled, as at both call sites of `LSDBC` (lines 283 and 293 test
`class == 0`).  In a run of `LSDBC`, every iteration of the main loop and of the
noise loop, whether or not it calls `ExpandCluster`, leaves every Eps, every
neighbour array and every positive label as it was; hence a label that is positive
at any stage of either loop is the label of that point in the table and in the
label line at the end of the run, and the final table has the Eps values and
neighbour arrays of the initial one. -/
theorem ExpandCluster_positive_final (size k p : Nat) (C : Int) (powerValue : α)
    (P0 : List (Point α)) (hT : TableOK size k P0) (hp : p < size)
    (qsort : List (Node α) → List (Node α)) (DBL_MAX : α) (clusterNoise : Int) (D : DMat α)
    (hk1 : 1 ≤ k) (hk : k < D.numPoints)
    (hq : (qsort (initEpsMatrix (initPoints DBL_MAX D k) D.numPoints)).Perm
      (initEpsMatrix (initPoints DBL_MAX D k) D.numPoints)) :
    (∃ P', ExpandCluster size p C k powerValue P0 = some P' ∧ SameGeom P0 P'
      ∧ (∀ j, j ≠ p → 0 < (ptAt P0 j).class_ → (ptAt P' j).class_ = (ptAt P0 j).class_)
      ∧ ((ptAt P0 p).class_ ≤ 0 →
          ∀ j, 0 < (ptAt P0 j).class_ → (ptAt P' j).class_ = (ptAt P0 j).class_))
    ∧ ∃ s1 r,
      primarySweep (qsort (initEpsMatrix (initPoints DBL_MAX D k) D.numPoints))
        D.numPoints k powerValue D.numPoints (initPoints DBL_MAX D k) = some s1
      ∧ LSDBC qsort DBL_MAX clusterNoise D k powerValue = some r
      ∧ SameGeom (initPoints DBL_MAX D k) r.Points
      ∧ (∀ m, m < D.numPoints → ∃ s s',
          primarySweep (qsort (initEpsMatrix (initPoints DBL_MAX D k) D.numPoints))
            D.numPoints k powerValue m (initPoints DBL_MAX D k) = some s
          ∧ primarySweep (qsort (initEpsMatrix (initPoints DBL_MAX D k) D.numPoints))
            D.numPoints k powerValue (m + 1) (initPoints DBL_MAX D k) = some s'
          ∧ SameGeom s.Points s'.Points
          ∧ ∀ j, 0 < (ptAt s.Points j).class_ →
              (ptAt s'.Points j).class_ = (ptAt s.Points j).class_)
      ∧ (∀ m, m < D.numPoints → ∃ s s',
          noiseSweep (qsort (initEpsMatrix (initPoints DBL_MAX D k) D.numPoints))
            D.numPoints k powerValue m s1.Points = some s
          ∧ noiseSweep (qsort (initEpsMatrix (initPoints DBL_MAX D k) D.numPoints))
            D.numPoints k powerValue (m + 1) s1.Points = some s'
          ∧ SameGeom s.Points s'.Points
          ∧ ∀ j, 0 < (ptAt s.Points j).class_ →
              (ptAt s'.Points j).class_ = (ptAt s.Points j).class_)
      ∧ (∀ m, m ≤ D.numPoints → ∃ s,
          primarySweep (qsort (initEpsMatrix (initPoints DBL_MAX D k) D.numPoints))
            D.numPoints k powerValue m (initPoints DBL_MAX D k) = some s
          ∧ ∀ j, j < D.numPoints → 0 < (ptAt s.Points j).class_ →
              (ptAt r.Points j).class_ = (ptAt s.Points j).class_
              ∧ r.labels.getD j 0 = (ptAt s.Points j).class_)
      ∧ (∀ m, m ≤ D.numPoints → ∃ s,
          noiseSweep (qsort (initEpsMatrix (initPoints DBL_MAX D k) D.numPoints))
            D.numPoints k powerValue m s1.Points = some s
          ∧ ∀ j, j < D.numPoints → 0 < (ptAt s.Points j).class_ →
              (ptAt r.Points j).class_ = (ptAt s.Points j).class_
              ∧ r.labels.getD j 0 = (ptAt s.Points j).class_) := by
  constructor
  · obtain ⟨P', hP', hg, _, hpos, _⟩ :=
      ExpandCluster_frame size k p C powerValue P0 hT hp
    refine ⟨P', hP', hg, hpos, ?_⟩
    intro hseed j hj
    apply hpos j _ hj
    intro h; rw [h] at hj; omega
  · obtain ⟨s1, r, L, hs1, hr, _, hlab, hpts, _, hpos, hnp1, _⟩ :=
      LSDBC_run qsort DBL_MAX clusterNoise D k powerValue hk1 (le_of_lt hk) hq
    obtain ⟨r', hr', hgeom⟩ :=
      LSDBC_sameGeom qsort DBL_MAX clusterNoise D k powerValue hk1 (le_of_lt hk) hq
    rw [hr] at hr'
    obtain rfl : r = r' := Option.some.inj hr'
    have hT0 := initPoints_tableOK DBL_MAX D k hk1 (le_of_lt hk)
    obtain ⟨hE, _⟩ := ranks_of_perm _ _ _ hq
    obtain ⟨s1', hs1', hg1, _⟩ :=
      primarySweep_inv _ D.numPoints k powerValue _ hT0 hE (initPoints_class DBL_MAX D k)
        D.numPoints (le_refl _)
    rw [hs1] at hs1'
    obtain rfl : s1 = s1' := Option.some.inj hs1'
    have hT1 := tableOK_of_sameGeom hT0 hg1
    have hfinal : ∀ j, j < D.numPoints → 0 < (ptAt s1.Points j).class_ →
        (ptAt r.Points j).class_ = (ptAt s1.Points j).class_
        ∧ r.labels.getD j 0 = (ptAt s1.Points j).class_ := by
      intro j hj hpj
      have h2 := hpos j hpj
      refine ⟨by rw [hpts j hj, h2], ?_⟩
      rw [hlab, List.getD_eq_getElem _ _ (by simpa using hj)]
      simp only [List.getElem_map, List.getElem_range]
      exact h2
    refine ⟨s1, r, hs1, hr, hgeom, ?_, ?_, ?_, ?_⟩
    · intro m hm
      obtain ⟨s, s', hs, hs', hg, hg', _, _, hstep⟩ :=
        primarySweep_step _ D.numPoints k powerValue _ hT0 hE (initPoints_class DBL_MAX D k)
          m hm
      refine ⟨s, s', hs, hs', sameGeom_trans (sameGeom_symm hg) hg', ?_⟩
      rcases hstep with ⟨_, h⟩ | ⟨_, _, _, _, hkeep, _⟩
      · intro j _; rw [h]
      · exact hkeep
    · intro m hm
      obtain ⟨s, s', hs, hs', hg, hkeep, _⟩ :=
        noiseSweep_step _ D.numPoints k powerValue s1.Points hT1 hE m hm
      exact ⟨s, s', hs, hs', hg, hkeep⟩
    · intro m hm
      obtain ⟨s, s', hs, hs', hkeep⟩ :=
        primarySweep_keeps _ D.numPoints k powerValue _ hT0 hE (initPoints_class DBL_MAX D k)
          m (D.numPoints - m) (by omega)
      rw [Nat.add_sub_cancel' hm, hs1] at hs'
      obtain rfl : s1 = s' := Option.some.inj hs'
      refine ⟨s, hs, ?_⟩
      intro j hj hpj
      have h1 := hkeep j hpj
      have := hfinal j hj (by omega)
      rw [h1] at this
      exact this
    · intro m hm
      obtain ⟨s, hs, _, _, hpos2, hnp2, _, _⟩ :=
        noiseSweep_inv _ D.numPoints k powerValue s1.Points hT1 hE m hm
      refine ⟨s, hs, ?_⟩
      intro j hj hpj
      have hp1 : 0 < (ptAt s1.Points j).class_ := by
        by_contra h
        have := hnp2 j (by omega)
        omega
      have := hfinal j hj hp1
      rw [← hpos2 j hp1] at this
      exact this

/-- C15, witness: the call that seeds cluster 1 in the scenario of the
specification, and the run of the scenario. -/
theorem ExpandCluster_positive_final_witness :
    (∃ P', ExpandCluster 5 1 1 2 2 scenarioPoints = some P' ∧ SameGeom scenarioPoints P'
      ∧ (∀ j, j ≠ 1 → 0 < (ptAt scenarioPoints j).class_ →
          (ptAt P' j).class_ = (ptAt scenarioPoints j).class_)
      ∧ ((ptAt scenarioPoints 1).class_ ≤ 0 →
          ∀ j, 0 < (ptAt scenarioPoints j).class_ →
            (ptAt P' j).class_ = (ptAt scenarioPoints j).class_))
    ∧ ∃ s1 r,
      primarySweep (id (initEpsMatrix (initPoints 1000 (lineMatrix [0, 1, 2, 3, 100]) 2) 5))
        5 2 2 5 (initPoints 1000 (lineMatrix [0, 1, 2, 3, 100]) 2) = some s1
      ∧ LSDBC id 1000 1 (lineMatrix [0, 1, 2, 3, 100]) 2 2 = some r
      ∧ SameGeom (initPoints 1000 (lineMatrix [0, 1, 2, 3, 100]) 2) r.Points
      ∧ (∀ m, m < 5 → ∃ s s',
          primarySweep (id (initEpsMatrix (initPoints 1000 (lineMatrix [0, 1, 2, 3, 100]) 2) 5))
            5 2 2 m (initPoints 1000 (lineMatrix [0, 1, 2, 3, 100]) 2) = some s
          ∧ primarySweep
            (id (initEpsMatrix (initPoints 1000 (lineMatrix [0, 1, 2, 3, 100]) 2) 5))
            5 2 2 (m + 1) (initPoints 1000 (lineMatrix [0, 1, 2, 3, 100]) 2) = some s'
          ∧ SameGeom s.Points s'.Points
          ∧ ∀ j, 0 < (ptAt s.Points j).class_ →
              (ptAt s'.Points j).class_ = (ptAt s.Points j).class_)
      ∧ (∀ m, m < 5 → ∃ s s',
          noiseSweep (id (initEpsMatrix (initPoints 1000 (lineMatrix [0, 1, 2, 3, 100]) 2) 5))
            5 2 2 m s1.Points = some s
          ∧ noiseSweep
            (id (initEpsMatrix (initPoints 1000 (lineMatrix [0, 1, 2, 3, 100]) 2) 5))
            5 2 2 (m + 1) s1.Points = some s'
          ∧ SameGeom s.Points s'.Points
          ∧ ∀ j, 0 < (ptAt s.Points j).class_ →
              (ptAt s'.Points j).class_ = (ptAt s.Points j).class_)
      ∧ (∀ m, m ≤ 5 → ∃ s,
          primarySweep (id (initEpsMatrix (initPoints 1000 (lineMatrix [0, 1, 2, 3, 100]) 2) 5))
            5 2 2 m (initPoints 1000 (lineMatrix [0, 1, 2, 3, 100]) 2) = some s
          ∧ ∀ j, j < 5 → 0 < (ptAt s.Points j).class_ →
              (ptAt r.Points j).class_ = (ptAt s.Points j).class_
              ∧ r.labels.getD j 0 = (ptAt s.Points j).class_)
      ∧ (∀ m, m ≤ 5 → ∃ s,
          noiseSweep (id (initEpsMatrix (initPoints 1000 (lineMatrix [0, 1, 2, 3, 100]) 2) 5))
            5 2 2 m s1.Points = some s
          ∧ ∀ j, j < 5 → 0 < (ptAt s.Points j).class_ →
              (ptAt r.Points j).class_ = (ptAt s.Points j).class_
              ∧ r.labels.getD j 0 = (ptAt s.Points j).class_) :=
  ExpandCluster_positive_final 5 2 1 1 2 scenarioPoints ⟨rfl, by decide⟩ (by decide) id
    (1000 : Nat) 1 (lineMatrix [0, 1, 2, 3, 100]) (by decide) (by decide) (List.Perm.refl _)

/-- Every id used so far by the main loop labels a point that is a local maximum. -/
theorem primarySweep_ids_have_peak (E : List (Node α)) (size k : Nat) (powerValue : α)
    (P0 : List (Point α)) (hT : TableOK size k P0)
    (hE : ∀ i, i < size → (nodeAt E i).pointNum < size)
    (h0 : ∀ j, (ptAt P0 j).class_ = 0) (m : Nat) (hm : m ≤ size) :
    ∃ s, primarySweep E size k powerValue m P0 = some s
      ∧ ∀ c, 1 ≤ c → c < s.id →
          ∃ j, j < size ∧ (ptAt s.Points j).class_ = c ∧ localMax P0 j k ≠ 0 := by
  induction m with
  | zero =>
    refine ⟨⟨P0, 1⟩, rfl, ?_⟩
    intro c h1 h2
    simp only at h2
    omega
  | succ m ih =>
    obtain ⟨s, hs, hall⟩ := ih (by omega)
    obtain ⟨t, t', ht, ht', hg, _, hid, _, hstep⟩ :=
      primarySweep_step E size k powerValue P0 hT hE h0 m (by omega)
    rw [hs] at ht
    obtain rfl : s = t := Option.some.inj ht
    refine ⟨t', ht', ?_⟩
    rcases hstep with ⟨_, rfl⟩ | ⟨_, hlm, hid', _, hpos, hseed⟩
    · exact hall
    · intro c h1 h2
      by_cases hc : c < s.id
      · obtain ⟨j, hj, hjc, hjl⟩ := hall c h1 hc
        exact ⟨j, hj, by rw [hpos j (by omega), hjc], hjl⟩
      · refine ⟨_, hE m (by omega), ?_, ?_⟩
        · rw [hseed]; omega
        · rwa [localMax_sameGeom hg] at hlm

/-- C19. Every ordinary cluster contains a density peak: in a finished run, for
every id `c` in `1..C` there is a point whose final label is `c` and for which
`localMax` returns 1. -/
theorem LSDBC_cluster_has_peak (qsort : List (Node α) → List (Node α)) (DBL_MAX : α)
    (clusterNoise : Int) (D : DMat α) (k : Nat) (powerValue : α) (hk1 : 1 ≤ k)
    (hk : k < D.numPoints)
    (hq : (qsort (initEpsMatrix (initPoints DBL_MAX D k) D.numPoints)).Perm
      (initEpsMatrix (initPoints DBL_MAX D k) D.numPoints)) :
    ∃ r, LSDBC qsort DBL_MAX clusterNoise D k powerValue = some r
      ∧ ∀ c, 1 ≤ c → c ≤ r.clusters →
          ∃ j, j < D.numPoints ∧ (ptAt r.Points j).class_ = c ∧ r.labels.getD j 0 = c
            ∧ localMax r.Points j k = 1 := by
  obtain ⟨s1, r, L, hs1, hr, hcl, hlab, hpts, _, hpos, _, _⟩ :=
    LSDBC_run qsort DBL_MAX clusterNoise D k powerValue hk1 (le_of_lt hk) hq
  obtain ⟨r', hr', hgeom⟩ :=
    LSDBC_sameGeom qsort DBL_MAX clusterNoise D k powerValue hk1 (le_of_lt hk) hq
  rw [hr] at hr'
  obtain rfl : r = r' := Option.some.inj hr'
  have hT := initPoints_tableOK DBL_MAX D k hk1 (le_of_lt hk)
  obtain ⟨hE, _⟩ := ranks_of_perm _ _ _ hq
  obtain ⟨s, hs, hall⟩ :=
    primarySweep_ids_have_peak _ D.numPoints k powerValue _ hT hE
      (initPoints_class DBL_MAX D k) D.numPoints (le_refl _)
  rw [hs1] at hs
  obtain rfl : s1 = s := Option.some.inj hs
  refine ⟨r, hr, ?_⟩
  intro c h1 h2
  obtain ⟨j, hj, hjc, hjl⟩ := hall c h1 (by rw [hcl] at h2; omega)
  have hL : L j = c := by rw [hpos j (by omega), hjc]
  refine ⟨j, hj, by rw [hpts j hj, hL], ?_, ?_⟩
  · rw [hlab, List.getD_eq_getElem _ _ (by simpa using hj)]
    simp only [List.getElem_map, List.getElem_range]
    exact hL
  · rw [localMax_sameGeom hgeom]
    rcases localMaxLoop_zero_or_one (initPoints DBL_MAX D k) j (List.range k) with h | h
    · exact absurd h hjl
    · exact h

/-- C19, witness: the five points of the scenario. -/
theorem LSDBC_cluster_has_peak_witness :
    ∃ r, LSDBC id 1000 0 (lineMatrix [0, 1, 2, 3, 100]) 2 2 = some r
      ∧ ∀ c, 1 ≤ c → c ≤ r.clusters →
          ∃ j, j < 5 ∧ (ptAt r.Points j).class_ = c ∧ r.labels.getD j 0 = c
            ∧ localMax r.Points j 2 = 1 :=
  LSDBC_cluster_has_peak id (1000 : Nat) 0 (lineMatrix [0, 1, 2, 3, 100]) 2 2 (by decide)
    (by decide) (List.Perm.refl _)

end RunProofs

/-! ## `ExpandCluster`: the worklist bound -/

section WorklistProofs

variable {α : Type} [LinearOrder α] [Zero α] [Mul α]

theorem seedsInv_absorb {C : Int} {P : List (Point α)} {seeds : List Nat}
    (h : SeedsInv C P seeds) (q : Nat) (hq : q < P.length) (hnot : q ∉ seeds) :
    SeedsInv C (setClass P q C) (seeds ++ [q]) := by
  refine ⟨List.Nodup.append h.nodup (List.nodup_singleton q)
    (List.disjoint_singleton.mpr hnot), ?_⟩
  intro x hx
  rw [class_setClass]
  split_ifs with hqx
  · rfl
  · rcases List.mem_append.mp hx with hx | hx
    · exact h.lab x hx
    · exact absurd ⟨(List.mem_singleton.mp hx).symm, hq⟩ hqx

theorem seedLoop_seedsInv (size k p : Nat) (C : Int) (P0 : List (Point α))
    (hT : TableOK size k P0) (hp : p < size)
    (hnd : ((List.range k).map (nbrAt P0 p)).Nodup) (n : Nat) (hn : n ≤ k) :
    SeedsInv C (forRange (seedBody p C) n (setClass P0 p C, [])).1
      (forRange (seedBody p C) n (setClass P0 p C, [])).2 := by
  have key := forRange_invariant (seedBody p C)
    (fun i r => AbsInv size p C P0 r.1 r.2 ∧ SeedsInv C r.1 r.2
      ∧ ∀ x, x ∈ r.2 → ∃ i', i' < i ∧ x = nbrAt P0 p i') n (setClass P0 p C, [])
    ⟨absInv_start C P0 (by rw [hT.len]; exact hp),
      ⟨List.nodup_nil, fun x hx => by simp at hx⟩, fun x hx => by simp at hx⟩ ?_
  · exact key.2.1
  · intro i r hi ⟨ha, hs, hsub⟩
    have hq : nbrAt P0 p i < size := hT.nb_lt p hp i (by omega)
    have hrl : r.1.length = size := ha.geom.len.trans hT.len
    unfold seedBody
    rw [sameGeom_nbrAt ha.geom]
    split_ifs with hc
    · refine ⟨absInv_absorb ha _ hq hc, seedsInv_absorb hs _ (by rw [hrl]; exact hq) ?_, ?_⟩
      · intro hin
        obtain ⟨i', hi', he⟩ := hsub _ hin
        have := List.inj_on_of_nodup_map hnd (List.mem_range.mpr (by omega : i < k))
          (List.mem_range.mpr (by omega : i' < k)) he
        omega
      · intro x hx
        rcases List.mem_append.mp hx with hx | hx
        · obtain ⟨i', hi', he⟩ := hsub x hx
          exact ⟨i', by omega, he⟩
        · exact ⟨i, by omega, List.mem_singleton.mp hx⟩
    · refine ⟨ha, hs, ?_⟩
      intro x hx
      obtain ⟨i', hi', he⟩ := hsub x hx
      exact ⟨i', by omega, he⟩

theorem expandLoop_seedsInv (size k p x : Nat) (C : Int) (P0 : List (Point α))
    (hT : TableOK size k P0) (hx : x < size) (s : ExpandState α)
    (hs : ExpInv size p C P0 s) (hJ : SeedsInv C s.Points s.seeds) (n : Nat) (hn : n ≤ k) :
    SeedsInv C (forRange (expandBody x C) n s).Points (forRange (expandBody x C) n s).seeds := by
  have key := forRange_invariant (expandBody x C)
    (fun _ t => ExpInv size p C P0 t ∧ SeedsInv C t.Points t.seeds) n s ⟨hs, hJ⟩ ?_
  · exact key.2
  · intro i t hi ⟨ht, hj⟩
    have hq : nbrAt P0 x i < size := hT.nb_lt x hx i (by omega)
    have htl : t.Points.length = size := ht.abs.geom.len.trans hT.len
    unfold expandBody
    rw [sameGeom_nbrAt ht.abs.geom]
    split_ifs with hc
    · have hc0 : (ptAt t.Points (nbrAt P0 x i)).class_ ≤ 0 := by
        rcases hc with h | h
        · exact h.2
        · rw [h.2]
      have hne : (ptAt t.Points (nbrAt P0 x i)).class_ ≠ C := by
        rcases hc with h | h
        · omega
        · omega
      refine ⟨⟨absInv_absorb ht.abs _ hq hc0, ?_⟩,
        seedsInv_absorb hj _ (by rw [htl]; exact hq) (fun hin => hne (hj.lab _ hin))⟩
      simp only [List.length_append, List.length_singleton]
      have := ht.count
      omega
    · exact ⟨ht, hj⟩

theorem whileBody_seedsInv (size k p : Nat) (C : Int) (powerValue : α) (P0 : List (Point α))
    (hT : TableOK size k P0) (s : ExpandState α) (hs : ExpInv size p C P0 s)
    (hJ : SeedsInv C s.Points s.seeds) (hpos : 0 < s.numofElements) :
    SeedsInv C (whileBody p C k powerValue s).Points (whileBody p C k powerValue s).seeds
    ∧ (whileBody p C k powerValue s).pointIndex = s.pointIndex + 1 := by
  have hx := (seeds_getD_lt size p C P0 s hs hpos).2
  have h1 := expandLoop_seedsInv size k p _ C P0 hT hx s hs hJ k (le_refl k)
  obtain ⟨_, h2, _, _⟩ := expandLoop_inv size k p _ C P0 hT hx s hs k (le_refl k)
  unfold whileBody
  simp only
  split_ifs with hc
  · exact ⟨h1, by rw [h2]⟩
  · exact ⟨hJ, rfl⟩

theorem expandSteps_inv (size k p : Nat) (C : Int) (powerValue : α) (P0 : List (Point α))
    (hT : TableOK size k P0) (m : Nat) :
    ∀ s, ExpInv size p C P0 s → SeedsInv C s.Points s.seeds →
      ExpInv size p C P0 (expandSteps p C k powerValue m s)
      ∧ SeedsInv C (expandSteps p C k powerValue m s).Points
          (expandSteps p C k powerValue m s).seeds
      ∧ ((expandSteps p C k powerValue m s).pointIndex = s.pointIndex + m
          ∨ (expandSteps p C k powerValue m s).numofElements = 0) := by
  induction m with
  | zero => intro s hs hJ; exact ⟨hs, hJ, Or.inl rfl⟩
  | succ m ih =>
    intro s hs hJ
    unfold expandSteps
    by_cases hpos : s.numofElements > 0
    · rw [if_pos hpos]
      obtain ⟨h1, _⟩ := whileBody_inv size k p C powerValue P0 hT s hs hpos
      obtain ⟨h2, h3⟩ := whileBody_seedsInv size k p C powerValue P0 hT s hs hJ hpos
      obtain ⟨h4, h5, h6⟩ := ih _ h1 h2
      refine ⟨h4, h5, ?_⟩
      rcases h6 with h | h
      · left; rw [h, h3]; omega
      · exact Or.inr h
    · rw [if_neg hpos]
      exact ⟨hs, hJ, Or.inr (by omega)⟩

theorem expandWhile_eq_steps (k p : Nat) (C : Int) (powerValue : α) (m : Nat) :
    ∀ (s : ExpandState α), (expandSteps p C k powerValue m s).numofElements = 0 →
      expandWhile p C k powerValue (m + 1) s = some (expandSteps p C k powerValue m s) := by
  induction m with
  | zero =>
    intro s h
    simp only [expandSteps] at h
    simp only [expandWhile, expandSteps, h, gt_iff_lt, lt_self_iff_false, if_false]
  | succ m ih =>
    intro s h
    unfold expandSteps at h ⊢
    unfold expandWhile
    by_cases hpos : s.numofElements > 0
    · rw [if_pos hpos] at h ⊢
      rw [if_pos hpos]
      exact ih _ h
    · rw [if_neg hpos] at h ⊢
      rw [if_neg hpos]

theorem nodup_length_le (l : List Nat) (n : Nat) (hnd : l.Nodup) (hb : ∀ x, x ∈ l → x < n) :
    l.length ≤ n := by
  have hsub : l.Subperm (List.range n) := hnd.subperm (fun x hx => List.mem_range.mpr (hb x hx))
  have := hsub.length_le
  rwa [List.length_range] at this

/-- C16. Worklist bound: on a memory-safe table in which the `k` neighbours of the
seed are pairwise distinct, `ExpandCluster` enters every point into `seeds` at most
once; at every stage of the worklist loop the written part of `seeds` has at most
`size` entries, all of them point indices, and the read index is inside it while
the loop runs; the loop condition fails after at most `size` iterations.  The
conditions of the claim on `k ≤ n`, on the id and on the other neighbour arrays are
not needed. -/
theorem ExpandCluster_worklist_bound (size k p : Nat) (C : Int) (powerValue : α)
    (P0 : List (Point α)) (hT : TableOK size k P0) (hp : p < size)
    (hnd : ((List.range k).map (nbrAt P0 p)).Nodup) :
    (∀ m, (expandSteps p C k powerValue m (expandInit p C k P0)).seeds.Nodup
      ∧ (expandSteps p C k powerValue m (expandInit p C k P0)).seeds.length ≤ size
      ∧ (∀ x, x ∈ (expandSteps p C k powerValue m (expandInit p C k P0)).seeds → x < size)
      ∧ (0 < (expandSteps p C k powerValue m (expandInit p C k P0)).numofElements →
          (expandSteps p C k powerValue m (expandInit p C k P0)).pointIndex
            < (expandSteps p C k powerValue m (expandInit p C k P0)).seeds.length))
    ∧ (expandSteps p C k powerValue size (expandInit p C k P0)).numofElements = 0
    ∧ expandWhile p C k powerValue (size + 1) (expandInit p C k P0)
        = some (expandSteps p C k powerValue size (expandInit p C k P0)) := by
  obtain ⟨h1, _⟩ := expandInit_inv size k p C P0 hT hp
  have hJ0 : SeedsInv C (expandInit p C k P0).Points (expandInit p C k P0).seeds :=
    seedLoop_seedsInv size k p C P0 hT hp hnd k (le_refl k)
  have hall := fun m => expandSteps_inv size k p C powerValue P0 hT m _ h1 hJ0
  have hlen : ∀ m, (expandSteps p C k powerValue m (expandInit p C k P0)).seeds.length ≤ size :=
    fun m => nodup_length_le _ size (hall m).2.1.nodup (hall m).1.abs.bnd
  have hzero : (expandSteps p C k powerValue size (expandInit p C k P0)).numofElements = 0 := by
    rcases (hall size).2.2 with h | h
    · have hc := (hall size).1.count
      have hl := hlen size
      have h0 : (expandInit p C k P0).pointIndex = 0 := rfl
      rw [h, h0] at hc
      omega
    · exact h
  refine ⟨fun m => ⟨(hall m).2.1.nodup, hlen m, (hall m).1.abs.bnd, ?_⟩, hzero,
    expandWhile_eq_steps k p C powerValue size _ hzero⟩
  intro hpos
  have := (hall m).1.count
  omega

/-- C16, witness: the expansion from point 1 in the scenario of the specification. -/
theorem ExpandCluster_worklist_bound_witness :
    (∀ m, (expandSteps 1 1 2 2 m (expandInit 1 1 2 scenarioPoints)).seeds.Nodup
      ∧ (expandSteps 1 1 2 2 m (expandInit 1 1 2 scenarioPoints)).seeds.length ≤ 5
      ∧ (∀ x, x ∈ (expandSteps 1 1 2 2 m (expandInit 1 1 2 scenarioPoints)).seeds → x < 5)
      ∧ (0 < (expandSteps 1 1 2 2 m (expandInit 1 1 2 scenarioPoints)).numofElements →
          (expandSteps 1 1 2 2 m (expandInit 1 1 2 scenarioPoints)).pointIndex
            < (expandSteps 1 1 2 2 m (expandInit 1 1 2 scenarioPoints)).seeds.length))
    ∧ (expandSteps 1 1 2 2 5 (expandInit 1 1 2 scenarioPoints)).numofElements = 0
    ∧ expandWhile 1 1 2 2 (5 + 1) (expandInit 1 1 2 scenarioPoints)
        = some (expandSteps 1 1 2 2 5 (expandInit 1 1 2 scenarioPoints)) :=
  ExpandCluster_worklist_bound 5 2 1 1 2 scenarioPoints ⟨rfl, by decide⟩ (by decide)
    (by decide)

end WorklistProofs

/-! ## `kNNDistVal`: ties -/

section TieProofs

variable {α : Type} [LinearOrder α] [Zero α]

theorem kNNFinal_eq_stage (DBL_MAX : α) (v : List α) (size p k : Nat) :
    kNNFinal DBL_MAX v size p k = kNNStage DBL_MAX v size p k (size - k) := rfl

theorem kNNStage_succ (DBL_MAX : α) (v : List α) (size p k j : Nat) :
    kNNStage DBL_MAX v size p k (j + 1)
      = restBody (if p < k then initRest v size k
          else setVal (initRest v size k) (p - k) DBL_MAX) k j
          (kNNStage DBL_MAX v size p k j) := rfl

theorem mem_windowIdx (s : KnnState α) (k x : Nat) :
    x ∈ windowIdx s k ↔ ∃ i, i < k ∧ (nodeAt s.minKMatrix i).pointNum = x := by
  simp [windowIdx]

theorem knnInv_stage (DBL_MAX : α) (v : List α) (size p k : Nat) (hk1 : 1 ≤ k) (j : Nat)
    (hj : j ≤ size - k) :
    KnnInv (rowVal DBL_MAX v p) k (k + j) (kNNStage DBL_MAX v size p k j) := by
  induction j with
  | zero =>
    exact knnInv_init (rowVal DBL_MAX v p) k hk1
      (if p < k then setVal (initMinK v k) p DBL_MAX else initMinK v k)
      (by split_ifs <;> simp [length_setVal, length_initMinK])
      (fun i hi => nodeAt_sentinelMinK DBL_MAX v p k i hi)
  | succ j ih =>
    rw [kNNStage_succ]
    exact knnInv_step (rowVal DBL_MAX v p) k (k + j) _ (ih (by omega)) _ j
      (by rw [nodeAt_sentinelRest DBL_MAX v size p k j (by omega), Nat.add_comm])

theorem windowIdx_stage_zero (DBL_MAX : α) (v : List α) (size p k : Nat) :
    windowIdx (kNNStage DBL_MAX v size p k 0) k = List.range k := by
  obtain ⟨h1, _⟩ := maxScan_spec (fun i => i + 1) (k - 1)
    (⟨if p < k then setVal (initMinK v k) p DBL_MAX else initMinK v k,
      (nodeAt (if p < k then setVal (initMinK v k) p DBL_MAX else initMinK v k) 0).val, 0⟩ :
      KnnState α)
  unfold windowIdx
  apply List.ext_getElem (by simp)
  intro i hi1 hi2
  have hi : i < k := by simpa using hi2
  simp only [List.getElem_map, List.getElem_range]
  show (nodeAt (forRange (fun i => maxScanBody (i + 1)) (k - 1) _).minKMatrix i).pointNum = i
  rw [h1, nodeAt_sentinelMinK DBL_MAX v p k i hi]

/-- One step of the scan: the maximum of the window does not grow, an index enters
the window only as the scanned candidate with a distance strictly below the
maximum, and a candidate that stays out has a distance of at least the maximum. -/
theorem restBody_facts (val : Nat → α) (k b : Nat) (s : KnnState α) (h : KnnInv val k b s)
    (restMatrix : List (Node α)) (j : Nat) (hx : nodeAt restMatrix j = ⟨val b, b⟩) :
    (restBody restMatrix k j s).maxDist ≤ s.maxDist
    ∧ (∀ x, x ∈ windowIdx (restBody restMatrix k j s) k →
        x ∈ windowIdx s k ∨ (x = b ∧ val b < s.maxDist))
    ∧ (b ∉ windowIdx (restBody restMatrix k j s) k → s.maxDist ≤ val b) := by
  unfold restBody
  rw [hx]
  by_cases hc : val b < s.maxDist
  · rw [if_pos hc]
    simp only
    have hml : s.maxInd < s.minKMatrix.length := by rw [h.len]; exact h.maxInd_lt
    have hm2 : ∀ i, nodeAt (setPointNum (setVal s.minKMatrix s.maxInd (val b)) s.maxInd b) i
        = if s.maxInd = i then ⟨val b, b⟩ else nodeAt s.minKMatrix i := by
      intro i
      rw [nodeAt_setPointNum, length_setVal, nodeAt_setVal, nodeAt_setVal]
      by_cases hi : s.maxInd = i
      · subst hi; simp [hml]
      · simp [hi]
    generalize setPointNum (setVal s.minKMatrix s.maxInd (val b)) s.maxInd b = m2 at hm2
    obtain ⟨h1, h2, h3, h4⟩ :=
      maxScan_spec (fun i => i) k (⟨m2, val b, s.maxInd⟩ : KnnState α)
    simp only at h1 h2 h3 h4
    have hfr : forRange maxScanBody k (⟨m2, val b, s.maxInd⟩ : KnnState α)
        = forRange (fun i => maxScanBody i) k ⟨m2, val b, s.maxInd⟩ := rfl
    rw [hfr]
    generalize forRange (fun i => maxScanBody i) k (⟨m2, val b, s.maxInd⟩ : KnnState α) = r
      at h1 h2 h3 h4
    refine ⟨?_, ?_, ?_⟩
    · rcases h4 with ⟨_, h'⟩ | ⟨i, hi, _, h'⟩
      · rw [h']; exact le_of_lt hc
      · rw [h', hm2]
        by_cases hmi : s.maxInd = i
        · rw [if_pos hmi]; exact le_of_lt hc
        · rw [if_neg hmi]; exact h.max_ge i hi
    · intro x hxin
      obtain ⟨i, hi, hix⟩ := (mem_windowIdx _ _ _).mp hxin
      rw [h1, hm2] at hix
      by_cases hmi : s.maxInd = i
      · rw [if_pos hmi] at hix
        exact Or.inr ⟨hix.symm, hc⟩
      · rw [if_neg hmi] at hix
        exact Or.inl ((mem_windowIdx _ _ _).mpr ⟨i, hi, hix⟩)
    · intro hnot
      exfalso
      apply hnot
      refine (mem_windowIdx _ _ _).mpr ⟨s.maxInd, h.maxInd_lt, ?_⟩
      rw [h1, hm2, if_pos rfl]
  · rw [if_neg hc]
    exact ⟨le_refl _, fun x hxin => Or.inl hxin, fun _ => le_of_not_lt hc⟩

theorem kNNStage_facts (DBL_MAX : α) (v : List α) (size p k : Nat) (hk1 : 1 ≤ k) (j : Nat)
    (hj : j < size - k) :
    (kNNStage DBL_MAX v size p k (j + 1)).maxDist ≤ (kNNStage DBL_MAX v size p k j).maxDist
    ∧ (∀ x, x ∈ windowIdx (kNNStage DBL_MAX v size p k (j + 1)) k →
        x ∈ windowIdx (kNNStage DBL_MAX v size p k j) k
        ∨ (x = k + j ∧ rowVal DBL_MAX v p (k + j) < (kNNStage DBL_MAX v size p k j).maxDist))
    ∧ (k + j ∉ windowIdx (kNNStage DBL_MAX v size p k (j + 1)) k →
        (kNNStage DBL_MAX v size p k j).maxDist ≤ rowVal DBL_MAX v p (k + j)) := by
  rw [kNNStage_succ]
  exact restBody_facts (rowVal DBL_MAX v p) k (k + j) _
    (knnInv_stage DBL_MAX v size p k hk1 j (by omega)) _ j
    (by rw [nodeAt_sentinelRest DBL_MAX v size p k j hj, Nat.add_comm])

theorem kNNStage_maxDist_mono (DBL_MAX : α) (v : List α) (size p k : Nat) (hk1 : 1 ≤ k)
    (j d : Nat) (hj : j + d ≤ size - k) :
    (kNNStage DBL_MAX v size p k (j + d)).maxDist ≤ (kNNStage DBL_MAX v size p k j).maxDist := by
  induction d with
  | zero => exact le_refl _
  | succ d ih =>
    exact le_trans (kNNStage_facts DBL_MAX v size p k hk1 (j + d) (by omega)).1 (ih (by omega))

/-- An index that is in the window at a stage after its own scan step was in the
window right after that step. -/
theorem kNNStage_entered (DBL_MAX : α) (v : List α) (size p k : Nat) (hk1 : 1 ≤ k)
    (q j d : Nat) (hq : q < k + j) (hj : j + d ≤ size - k)
    (hin : q ∈ windowIdx (kNNStage DBL_MAX v size p k (j + d)) k) :
    q ∈ windowIdx (kNNStage DBL_MAX v size p k j) k := by
  induction d with
  | zero => exact hin
  | succ d ih =>
    rcases (kNNStage_facts DBL_MAX v size p k hk1 (j + d) (by omega)).2.1 q hin with h | h
    · exact ih (by omega) h
    · omega

/-- An index that was at no stage of the scan in the window is later than every
returned neighbour of equal distance. -/
theorem kNN_tie_of_never_in_window (DBL_MAX : α) (v : List α) (p k : Nat) (hk1 : 1 ≤ k)
    (hk : k < v.length)
    (hv : ∀ q, q < v.length → q ≠ p → v.getD q 0 < DBL_MAX)
    (q q' : Nat) (hq : q ∈ (kNNDistVal DBL_MAX v v.length p k).2) (hq' : q' < v.length)
    (hq'p : q' ≠ p)
    (hnever : ∀ j, j ≤ v.length - k →
      q' ∉ windowIdx (kNNStage DBL_MAX v v.length p k j) k)
    (hval : v.getD q 0 = v.getD q' 0) : q < q' := by
  obtain ⟨_, _, hin, _, _⟩ := kNN_core DBL_MAX v p k hk1 hk hv
  have hqp : q ≠ p := (hin q hq).2.1
  have hqn : q < v.length := (hin q hq).1
  have hqfin : q ∈ windowIdx (kNNStage DBL_MAX v v.length p k (v.length - k)) k := hq
  have hne : q ≠ q' := fun h => hnever (v.length - k) (le_refl _) (h ▸ hqfin)
  have hq'k : k ≤ q' := by
    by_contra hlt
    apply hnever 0 (Nat.zero_le _)
    rw [windowIdx_stage_zero]
    exact List.mem_range.mpr (by omega)
  by_contra hnlt
  have hgt : q' < q := by omega
  have hrej : (kNNStage DBL_MAX v v.length p k (q' - k)).maxDist ≤ v.getD q' 0 := by
    have h3 := (kNNStage_facts DBL_MAX v v.length p k hk1 (q' - k) (by omega)).2.2
    rw [Nat.add_sub_cancel' hq'k] at h3
    have := h3 (hnever (q' - k + 1) (by omega))
    simpa [rowVal, hq'p] using this
  have hafter : q ∈ windowIdx (kNNStage DBL_MAX v v.length p k (q - k + 1)) k := by
    have := kNNStage_entered DBL_MAX v v.length p k hk1 q (q - k + 1)
      (v.length - k - (q - k + 1)) (by omega) (by omega)
      (by rw [Nat.add_sub_cancel' (by omega)]; exact hqfin)
    exact this
  have hbefore : q ∉ windowIdx (kNNStage DBL_MAX v v.length p k (q - k)) k := by
    intro hmem
    obtain ⟨i, hi, hiq⟩ := (mem_windowIdx _ _ _).mp hmem
    have := (knnInv_stage DBL_MAX v v.length p k hk1 (q - k) (by omega)).bound i hi
    omega
  have hadm : rowVal DBL_MAX v p (k + (q - k))
      < (kNNStage DBL_MAX v v.length p k (q - k)).maxDist := by
    rcases (kNNStage_facts DBL_MAX v v.length p k hk1 (q - k) (by omega)).2.1 q hafter
      with h | h
    · exact absurd h hbefore
    · exact h.2
  rw [Nat.add_sub_cancel' (by omega)] at hadm
  have hmono := kNNStage_maxDist_mono DBL_MAX v v.length p k hk1 (q' - k) (q - q') (by omega)
  rw [show q' - k + (q - q') = q - k by omega] at hmono
  have hvq : rowVal DBL_MAX v p q = v.getD q 0 := by simp [rowVal, hqp]
  rw [hvq, hval] at hadm
  exact absurd (lt_of_lt_of_le hadm (le_trans hmono hrej)) (lt_irrefl _)

/-- The scan step of a candidate `c` (line 384, strict `<`): the candidate is in
the window after its step exactly when its distance is strictly below the maximum
of the window, and otherwise the step changes nothing and the candidate is at no
stage in the window. -/
theorem kNNStage_candidate (DBL_MAX : α) (v : List α) (size p k : Nat) (hk1 : 1 ≤ k)
    (c : Nat) (hck : k ≤ c) (hc : c < size) :
    (c ∈ windowIdx (kNNStage DBL_MAX v size p k (c - k + 1)) k
      ↔ rowVal DBL_MAX v p c < (kNNStage DBL_MAX v size p k (c - k)).maxDist)
    ∧ ((kNNStage DBL_MAX v size p k (c - k)).maxDist ≤ rowVal DBL_MAX v p c →
        kNNStage DBL_MAX v size p k (c - k + 1) = kNNStage DBL_MAX v size p k (c - k)
        ∧ ∀ j, j ≤ size - k → c ∉ windowIdx (kNNStage DBL_MAX v size p k j) k) := by
  have hbefore : ∀ j, j ≤ c - k → c ∉ windowIdx (kNNStage DBL_MAX v size p k j) k := by
    intro j hj hmem
    obtain ⟨i, hi, hic⟩ := (mem_windowIdx _ _ _).mp hmem
    have := (knnInv_stage DBL_MAX v size p k hk1 j (by omega)).bound i hi
    omega
  obtain ⟨_, h2, h3⟩ := kNNStage_facts DBL_MAX v size p k hk1 (c - k) (by omega)
  rw [Nat.add_sub_cancel' hck] at h2 h3
  have hiff : c ∈ windowIdx (kNNStage DBL_MAX v size p k (c - k + 1)) k
      ↔ rowVal DBL_MAX v p c < (kNNStage DBL_MAX v size p k (c - k)).maxDist := by
    constructor
    · intro hin
      rcases h2 c hin with h | h
      · exact absurd h (hbefore (c - k) (le_refl _))
      · exact h.2
    · intro hlt
      by_contra hnot
      exact absurd (lt_of_lt_of_le hlt (h3 hnot)) (lt_irrefl _)
  refine ⟨hiff, ?_⟩
  intro hge
  have hstep : kNNStage DBL_MAX v size p k (c - k + 1)
      = kNNStage DBL_MAX v size p k (c - k) := by
    rw [kNNStage_succ]
    unfold restBody
    rw [nodeAt_sentinelRest DBL_MAX v size p k (c - k) (by omega),
      Nat.sub_add_cancel hck, if_neg (not_lt.mpr hge)]
  refine ⟨hstep, ?_⟩
  intro j hj hmem
  by_cases hjc : j ≤ c - k
  · exact hbefore j hjc hmem
  · have hin := kNNStage_entered DBL_MAX v size p k hk1 c (c - k + 1) (j - (c - k + 1))
      (by omega) (by omega) (by rw [Nat.add_sub_cancel' (by omega)]; exact hmem)
    exact absurd (hiff.mp hin) (not_lt.mpr hge)

/-- C13 (amended). The tie-break of `kNNDistVal` for a row `v`, a point `p` and
`1 ≤ k < n`, all distances to other points below the sentinel.  A scanned candidate
`q'` is entered into the window exactly when its distance is strictly below the
maximum of the window at its scan step; a candidate that ties with the maximum (or
exceeds it) leaves the window, its maximum and the position of the maximum as they
are, is at no stage in the window, and is not returned: ties do not disturb a
resident neighbour.  Hence, if `q` is returned, `q'` other than `p` is not, and
`v[q] = v[q']`, then `q < q'`, unless `q'` was itself a resident that was evicted
later: `q' < k` (in the initial window) or `q'` was entered at its own scan step
with a distance strictly below the maximum. -/
theorem kNNDistVal_tie_break (DBL_MAX : α) (v : List α) (p k : Nat) (hk1 : 1 ≤ k)
    (hk : k < v.length)
    (hv : ∀ q, q < v.length → q ≠ p → v.getD q 0 < DBL_MAX) :
    (∀ q', k ≤ q' → q' < v.length → q' ≠ p →
      (q' ∈ windowIdx (kNNStage DBL_MAX v v.length p k (q' - k + 1)) k
        ↔ v.getD q' 0 < (kNNStage DBL_MAX v v.length p k (q' - k)).maxDist)
      ∧ ((kNNStage DBL_MAX v v.length p k (q' - k)).maxDist ≤ v.getD q' 0 →
          kNNStage DBL_MAX v v.length p k (q' - k + 1)
            = kNNStage DBL_MAX v v.length p k (q' - k)
          ∧ (∀ j, j ≤ v.length - k →
              q' ∉ windowIdx (kNNStage DBL_MAX v v.length p k j) k)
          ∧ q' ∉ (kNNDistVal DBL_MAX v v.length p k).2))
    ∧ (∀ q q', q ∈ (kNNDistVal DBL_MAX v v.length p k).2 → q' < v.length → q' ≠ p →
        q' ∉ (kNNDistVal DBL_MAX v v.length p k).2 → v.getD q 0 = v.getD q' 0 →
        q < q' ∨ q' < k
          ∨ (k ≤ q' ∧ q' ∈ windowIdx (kNNStage DBL_MAX v v.length p k (q' - k + 1)) k
              ∧ v.getD q' 0 < (kNNStage DBL_MAX v v.length p k (q' - k)).maxDist)) := by
  have hcand : ∀ q', k ≤ q' → q' < v.length → q' ≠ p →
      (q' ∈ windowIdx (kNNStage DBL_MAX v v.length p k (q' - k + 1)) k
        ↔ v.getD q' 0 < (kNNStage DBL_MAX v v.length p k (q' - k)).maxDist)
      ∧ ((kNNStage DBL_MAX v v.length p k (q' - k)).maxDist ≤ v.getD q' 0 →
          kNNStage DBL_MAX v v.length p k (q' - k + 1)
            = kNNStage DBL_MAX v v.length p k (q' - k)
          ∧ (∀ j, j ≤ v.length - k →
              q' ∉ windowIdx (kNNStage DBL_MAX v v.length p k j) k)) := by
    intro q' hq'k hq' hq'p
    have h := kNNStage_candidate DBL_MAX v v.length p k hk1 q' hq'k hq'
    have hrv : rowVal DBL_MAX v p q' = v.getD q' 0 := by simp [rowVal, hq'p]
    rw [hrv] at h
    exact h
  constructor
  · intro q' hq'k hq' hq'p
    obtain ⟨hiff, hrest⟩ := hcand q' hq'k hq' hq'p
    refine ⟨hiff, ?_⟩
    intro hge
    obtain ⟨hstep, hnever⟩ := hrest hge
    exact ⟨hstep, hnever, hnever (v.length - k) (le_refl _)⟩
  · intro q q' hq hq' hq'p _ hval
    by_cases hlt : q < q'
    · exact Or.inl hlt
    by_cases hq'k : q' < k
    · exact Or.inr (Or.inl hq'k)
    right; right
    obtain ⟨hiff, hrest⟩ := hcand q' (by omega) hq' hq'p
    by_cases hadm : v.getD q' 0 < (kNNStage DBL_MAX v v.length p k (q' - k)).maxDist
    · exact ⟨by omega, hiff.mpr hadm, hadm⟩
    · exfalso
      obtain ⟨_, hnever⟩ := hrest (not_lt.mp hadm)
      exact hlt (kNN_tie_of_never_in_window DBL_MAX v p k hk1 hk hv q q' hq hq' hq'p
        hnever hval)

/-- C13, witness of the amended claim: in the row 3, 3, 3 of the point `p = 3` with
`k = 2` the candidate 2 ties with the maximum 3 of the window of 0 and 1; its scan
step changes nothing, it is not returned, and the returned neighbour 1 of equal
distance is the earlier index. -/
theorem kNNDistVal_tie_break_witness :
    (kNNStage 1000 [3, 3, 3, 0] 4 3 2 (2 - 2)).maxDist ≤ [3, 3, 3, 0].getD 2 0
    ∧ ¬ [3, 3, 3, 0].getD 2 0 < (kNNStage 1000 [3, 3, 3, 0] 4 3 2 (2 - 2)).maxDist
    ∧ 2 ∉ windowIdx (kNNStage 1000 [3, 3, 3, 0] 4 3 2 (2 - 2 + 1)) 2
    ∧ kNNStage 1000 [3, 3, 3, 0] 4 3 2 (2 - 2 + 1) = kNNStage 1000 [3, 3, 3, 0] 4 3 2 (2 - 2)
    ∧ (∀ j, j ≤ 4 - 2 → 2 ∉ windowIdx (kNNStage 1000 [3, 3, 3, 0] 4 3 2 j) 2)
    ∧ 2 ∉ (kNNDistVal 1000 [3, 3, 3, 0] 4 3 2).2
    ∧ 1 ∈ (kNNDistVal 1000 [3, 3, 3, 0] 4 3 2).2
    ∧ [3, 3, 3, 0].getD 1 0 = [3, 3, 3, 0].getD 2 0
    ∧ ((1 : Nat) < 2 ∨ 2 < 2
        ∨ (2 ≤ 2 ∧ 2 ∈ windowIdx (kNNStage 1000 [3, 3, 3, 0] 4 3 2 (2 - 2 + 1)) 2
            ∧ [3, 3, 3, 0].getD 2 0 < (kNNStage 1000 [3, 3, 3, 0] 4 3 2 (2 - 2)).maxDist)) :=
  have h := kNNDistVal_tie_break (1000 : Nat) [3, 3, 3, 0] 3 2 (by decide) (by decide)
    (by decide)
  have h2 := h.1 2 (by decide) (by decide) (by decide)
  have h3 := h2.2 (by decide)
  ⟨by decide, by decide, fun hin => absurd (h2.1.mp hin) (by decide), h3.1, h3.2.1, h3.2.2,
    by decide, by decide,
    h.2 1 2 (by decide) (by decide) (by decide) h3.2.2 (by decide)⟩

/-- C13, counterexample: in the row 5, 5, 3 of the point `p = 3` with `k = 2` the
neighbours are 2 and 1; index 1 is retained and index 0 is not, although
`v[1] = v[0]` and 0 is the earlier index (index 0 was in the window and was
evicted by index 2). -/
theorem kNNDistVal_tie_counterexample :
    (kNNDistVal 1000 [5, 5, 3, 0] 4 3 2).2 = [2, 1]
    ∧ 1 ∈ (kNNDistVal 1000 [5, 5, 3, 0] 4 3 2).2
    ∧ 0 ∉ (kNNDistVal 1000 [5, 5, 3, 0] 4 3 2).2
    ∧ (0 : Nat) ≠ 3
    ∧ [5, 5, 3, 0].getD 1 0 = [5, 5, 3, 0].getD 0 0
    ∧ ¬ (1 : Nat) < 0 := by
  decide

end TieProofs

end Clsdbc
